import Mathlib

/-!
Verification development for the knowledge-graph generator
(`src/KG_creator_networkx.py`).  The Python module builds a directed
graph with `networkx` from tabular concept/connection data, offers a
container-path traversal and a node explorer, and projects the graph to
a simplified JSON structure.

Modelling conventions:
* pandas missing values (`NaN`, tested with `pd.notna`) are modelled as
  `Option String` with `none` for a missing cell;
* `networkx.DiGraph` is modelled as an insertion-ordered list of node
  cells, each carrying its attribute record and its out-adjacency list
  (this mirrors the `_node` / `_adj` dictionaries that `G.nodes`,
  `G.edges` and `G.neighbors` iterate over);
* node and edge attribute dictionaries are modelled as closed variant
  types (`NodeAttrs`, `EdgeAttrs`).  Re-adding a node or an edge
  replaces its variant, whereas `networkx` merges attribute
  dictionaries; the builder only re-adds a node or an edge with the
  same variant shape, so the two agree on everything the modelled
  functions observe;
* `print` based warnings are modelled as returned `Warning` values: the
  source prints the f-string
  "Warning: Node {missing_node} referenced in connection
  {connection_id} does not exist" for each missing reference.
-/

set_option maxHeartbeats 1000000

/-- Row of `concepts.csv` as consumed by `create_knowledge_graph`:
`node_id` (may be missing), `node_name`, `Complexity`. -/
structure ConceptRow where
  node_id : Option String
  node_name : String
  complexity : String
deriving DecidableEq, Repr

/-- Row of `connections.csv`: `ID`, `connection_type`, and up to three
referenced node identifiers `node_id1..node_id3`. -/
structure ConnectionRow where
  ID : String
  connection_type : String
  node_id1 : Option String
  node_id2 : Option String
  node_id3 : Option String
deriving DecidableEq, Repr

/-- Node attribute records used by `create_knowledge_graph`:
concept nodes carry `name` and `complexity`, reified-connection nodes
carry `connection_type`.  `blank` stands for the empty attribute
dictionary that `networkx` gives a node created implicitly by
`add_edge` (the builder never actually creates one: it checks
existence first). -/
inductive NodeAttrs where
  | concept (name : String) (complexity : String)
  | reified (connection_type : String)
  | blank
deriving DecidableEq, Repr

instance : Inhabited NodeAttrs := ⟨.blank⟩

/-- Edge attribute records: `contains` edges carry
`relationship='contains'` plus the originating `connection_id`;
neighbor edges carry `role='neighbor'`. -/
inductive EdgeAttrs where
  | containsRel (connection_id : String)
  | neighborRole
deriving DecidableEq, Repr

/-- One stored node: its identifier, its attribute record, and its
out-adjacency list (targets with edge attributes, in insertion
order). -/
structure Cell (α : Type) where
  id : String
  attrs : α
  out : List (String × EdgeAttrs)
deriving DecidableEq, Repr

/-- The directed graph: insertion-ordered node cells.  This mirrors a
`networkx.DiGraph` restricted to the operations the source uses. -/
structure Graph (α : Type) where
  cells : List (Cell α)
deriving DecidableEq, Repr

/-- The empty graph (`nx.DiGraph()`). -/
def Graph.empty (α : Type) : Graph α := ⟨[]⟩

/-- Dictionary lookup on the cell list: the first cell with the given
identifier. -/
def lookupCell : List (Cell α) → String → Option (Cell α)
  | [], _ => none
  | c :: t, i => if c.id = i then some c else lookupCell t i

/-- Dictionary lookup on an association list keyed by strings. -/
def lookupAssoc : List (String × β) → String → Option β
  | [], _ => none
  | p :: t, k => if p.1 = k then some p.2 else lookupAssoc t k

/-- Membership test `node_id in G`. -/
def hasNode (g : Graph α) (i : String) : Bool :=
  (lookupCell g.cells i).isSome

/-- Attribute lookup `G.nodes[i]`, `none` when the node is absent. -/
def getNode (g : Graph α) (i : String) : Option α :=
  (lookupCell g.cells i).map (fun c => c.attrs)

/-- Out-adjacency list of a node (empty for an absent node). -/
def outOf (g : Graph α) (i : String) : List (String × EdgeAttrs) :=
  match lookupCell g.cells i with
  | some c => c.out
  | none => []

/-- `G.neighbors(i)`: successors of `i` in adjacency insertion order. -/
def neighbors (g : Graph α) (i : String) : List String :=
  (outOf g i).map (fun p => p.1)

/-- `G.edges(data=True)`: all edges as (source, target, attributes)
triples, grouped by source node in insertion order. -/
def edges (g : Graph α) : List (String × String × EdgeAttrs) :=
  g.cells.flatMap (fun c => c.out.map (fun p => (c.id, p.1, p.2)))

/-- `G.add_node(i, **attrs)`: insert a fresh cell or replace the
attribute record of an existing one (position and adjacency kept). -/
def add_node (g : Graph α) (i : String) (a : α) : Graph α :=
  if hasNode g i then
    ⟨g.cells.map (fun c => if c.id = i then { c with attrs := a } else c)⟩
  else
    ⟨g.cells ++ [⟨i, a, []⟩]⟩

/-- Insert a node with empty attributes when absent (what
`networkx.add_edge` does to a missing endpoint). -/
def ensure_node [Inhabited α] (g : Graph α) (i : String) : Graph α :=
  if hasNode g i then g else ⟨g.cells ++ [⟨i, default, []⟩]⟩

/-- Add or replace the entry for target `v` in an out-adjacency
list. -/
def upsert : List (String × EdgeAttrs) → String → EdgeAttrs → List (String × EdgeAttrs)
  | [], v, a => [(v, a)]
  | p :: t, v, a => if p.1 = v then (v, a) :: t else p :: upsert t v a

/-- `G.add_edge(u, v, **attrs)`: make sure both endpoints exist, then
add or overwrite the directed edge `u → v`. -/
def add_edge [Inhabited α] (g : Graph α) (u v : String) (a : EdgeAttrs) : Graph α :=
  let g2 := ensure_node (ensure_node g u) v
  ⟨g2.cells.map (fun c => if c.id = u then { c with out := upsert c.out v a } else c)⟩

/-- The referenced node identifiers of a connection row, in column
order `node_id1, node_id2, node_id3`, missing cells dropped. -/
def refIds (r : ConnectionRow) : List String :=
  [r.node_id1, r.node_id2, r.node_id3].filterMap id

/-- One warning printed by the builder: the referenced node that was
missing and the connection identifier of the offending row. -/
structure Warning where
  missing_node : String
  connection_id : String
deriving DecidableEq, Repr

/-- The warnings the existence check of `create_knowledge_graph` emits
for one row: one per referenced identifier not present in the store,
in column order. -/
def missingList (g : Graph α) (r : ConnectionRow) : List Warning :=
  ((refIds r).filter (fun n => !(hasNode g n))).map (fun n => ⟨n, r.ID⟩)

/-- First pass of the builder: add every concept row with a non-missing
`node_id` as a node (`mkC` builds the attribute record; the source
stores `type='concept'`, `name` and `complexity`). -/
def addConceptNodes (mkC : ConceptRow → α) (g : Graph α) (cs : List ConceptRow) :
    Graph α :=
  cs.foldl (fun g c =>
    match c.node_id with
    | none => g
    | some i => add_node g i (mkC c)) g

/-- Processing of one connection row, exactly as in the source: check
that every referenced node exists (collecting warnings, skipping the
row on any miss); a `contains` row adds one `contains` edge
`node_id1 → node_id2` when both are present; any other row adds a
reified-connection node keyed by the row `ID` (attributes built by
`mkR`) and a bidirectional neighbor-edge pair with every referenced
node, in the source's order. -/
def processConnection [Inhabited α] (mkR : ConnectionRow → α) (g : Graph α)
    (r : ConnectionRow) : Graph α × List Warning :=
  let miss := missingList g r
  if miss.isEmpty then
    if r.connection_type = "contains" then
      match r.node_id1, r.node_id2 with
      | some a, some b => (add_edge g a b (.containsRel r.ID), [])
      | _, _ => (g, [])
    else
      let g1 := add_node g r.ID (mkR r)
      let g2 := match r.node_id1 with
        | some p => add_edge (add_edge g1 p r.ID .neighborRole) r.ID p .neighborRole
        | none => g1
      let g3 := match r.node_id2 with
        | some p => add_edge (add_edge g2 r.ID p .neighborRole) p r.ID .neighborRole
        | none => g2
      let g4 := match r.node_id3 with
        | some p => add_edge (add_edge g3 r.ID p .neighborRole) p r.ID .neighborRole
        | none => g3
      (g4, [])
  else (g, miss)

/-- Second pass of the builder: process the connection rows in input
order, accumulating the graph and the emitted warnings. -/
def processAll [Inhabited α] (mkR : ConnectionRow → α) (g : Graph α)
    (rs : List ConnectionRow) : Graph α × List Warning :=
  rs.foldl (fun gw r =>
    let p := processConnection mkR gw.1 r
    (p.1, gw.2 ++ p.2)) (g, [])

/-- Concept attribute record stored by `create_knowledge_graph`. -/
def mkConceptAttrs (c : ConceptRow) : NodeAttrs :=
  .concept c.node_name c.complexity

/-- Reified-connection attribute record stored by
`create_knowledge_graph` (`type='reified_connection'`,
`connection_type`). -/
def mkReifiedAttrs (r : ConnectionRow) : NodeAttrs :=
  .reified r.connection_type

/-- `create_knowledge_graph` of `KG_creator_networkx.py`, with the CSV
loading factored out: build the graph from the two row collections and
return it together with the warnings printed along the way. -/
def create_knowledge_graph (cs : List ConceptRow) (rs : List ConnectionRow) :
    Graph NodeAttrs × List Warning :=
  processAll mkReifiedAttrs (addConceptNodes mkConceptAttrs (Graph.empty NodeAttrs) cs) rs

/-- Test of an edge attribute record for `'relationship' in data and
data['relationship'] == 'contains'`. -/
def isContainsAttr : EdgeAttrs → Bool
  | .containsRel _ => true
  | .neighborRole => false

/-- The containers of a node: sources of `contains` edges whose target
is the node, in `G.edges(data=True)` iteration order (the list the
loop at the top of `trace_container_path` builds). -/
def containersOf (g : Graph α) (n : String) : List String :=
  (edges g).filterMap (fun e =>
    if e.2.1 = n ∧ isContainsAttr e.2.2 then some e.1 else none)

/-- `trace_container_path` of the source: starting from `node_id` with
the accumulated `path` (the Python default argument is `[node_id]`),
move to the first container not already in the path, append it and
recurse; stop when none exists.  The loop in the source returns the
recursive result of the first unvisited container unconditionally (the
recursive result is a nonempty list, hence truthy), so it is exactly
this first-unvisited policy. -/
def trace_container_path (g : Graph α) (node_id : String) (path : List String) :
    List String :=
  match h : (containersOf g node_id).find? (fun c => !(path.contains c)) with
  | none => path
  | some c => trace_container_path g c (path ++ [c])
termination_by (((edges g).map (fun e => e.1)).toFinset.filter (fun x => x ∉ path)).card
decreasing_by
  have hc : c ∈ containersOf g node_id := List.mem_of_find?_eq_some h
  have hnp : c ∉ path := by
    have hp := List.find?_some h
    simp at hp
    exact hp
  have hsrc : c ∈ (edges g).map (fun e => e.1) := by
    rcases List.mem_filterMap.mp hc with ⟨e, he, hif⟩
    by_cases hcond : e.2.1 = node_id ∧ isContainsAttr e.2.2
    · rw [if_pos hcond] at hif
      cases hif
      exact List.mem_map_of_mem _ he
    · rw [if_neg hcond] at hif
      cases hif
  apply Finset.card_lt_card
  rw [Finset.ssubset_def]
  constructor
  · intro x hx
    simp only [Finset.mem_filter] at hx ⊢
    refine ⟨hx.1, fun hmem => hx.2 ?_⟩
    simp [hmem]
  · intro hsub
    have hcmem : c ∈ Finset.filter (fun x => x ∉ path)
        ((edges g).map (fun e => e.1)).toFinset := by
      simp only [Finset.mem_filter, List.mem_toFinset]
      exact ⟨hsrc, hnp⟩
    have := hsub hcmem
    simp at this

/-- Per-concept entry of the exported structure: the keys the source
gives each `graph_data["concepts"][node]` dictionary. -/
structure ConceptEntry where
  name : String
  complexity : String
  contains : List String
  contained_by : List String
  related : List (String × List String)
deriving DecidableEq, Repr

/-- The exported structure `graph_data`: its three top-level keys.
`relationships` is created as an empty list and never touched
afterwards. -/
structure ExportGraph where
  concepts : List (String × ConceptEntry)
  relationships : List String
  explanation : String
deriving DecidableEq, Repr

/-- The fixed explanation string the exporter attaches under
`graph_data["explanation"]`. -/
def explanation_text : String :=
  "\n    This knowledge graph shows concepts and their relationships.\n    - Each concept may contain other concepts (hierarchical relationship)\n    - Each concept may be related to other concepts in various ways\n    \n    To find relationships between concepts:\n    1. Check if one concept contains the other\n    2. Look for related concepts and the type of relationship\n    "

/-- `G.nodes[i].get('connection_type', 'related')` for a node known to
exist (in the exporter the argument is always an edge target, hence a
node). -/
def connTypeOf (g : Graph NodeAttrs) (i : String) : String :=
  match getNode g i with
  | some (.reified ct) => ct
  | _ => "related"

/-- Key membership test, e.g. `k in graph_data["concepts"]`. -/
def hasKey (m : List (String × β)) (k : String) : Bool :=
  (lookupAssoc m k).isSome

/-- In-place update of the value stored under an existing key (the
mutation a `graph_data["concepts"][k][...]` assignment performs);
leaves the list unchanged when the key is absent. -/
def updAssoc (m : List (String × β)) (k : String) (f : β → β) :
    List (String × β) :=
  m.map (fun p => if p.1 = k then (p.1, f p.2) else p)

/-- Extend the list under a type key, appending the key at the end when
it is new (the `if ct not in related: related[ct] = []` plus
`related[ct].extend(...)` idiom of the source). -/
def extendAssoc (l : List (String × List β)) (k : String) (ns : List β) :
    List (String × List β) :=
  if hasKey l k then updAssoc l k (fun v => v ++ ns) else l ++ [(k, ns)]

/-- First pass of `export_to_json`: one entry per `type='concept'`
node, with empty relationship lists. -/
def conceptEntries (g : Graph NodeAttrs) : List (String × ConceptEntry) :=
  g.cells.filterMap (fun c =>
    match c.attrs with
    | .concept n cx => some (c.id, ⟨n, cx, [], [], []⟩)
    | _ => none)

/-- Processing of one (source, target, attrs) edge in the exporter's
edge loop: a `contains` edge between two exported concepts appends to
the `contains` list of the source and the `contained_by` list of the
target; a neighbor edge whose source is an exported concept groups the
other concept neighbors of the target (the reified node) under the
target's connection type in the source's `related` mapping. -/
def exportEdgeStep (g : Graph NodeAttrs) (m : List (String × ConceptEntry))
    (e : String × String × EdgeAttrs) : List (String × ConceptEntry) :=
  match e.2.2 with
  | .containsRel _ =>
      if hasKey m e.1 && hasKey m e.2.1 then
        updAssoc
          (updAssoc m e.1 (fun en => { en with contains := en.contains ++ [e.2.1] }))
          e.2.1 (fun en => { en with contained_by := en.contained_by ++ [e.1] })
      else m
  | .neighborRole =>
      if hasKey m e.1 && hasNode g e.2.1 then
        let ct := connTypeOf g e.2.1
        let nbrs := (neighbors g e.2.1).filter (fun n => hasKey m n && n != e.1)
        if nbrs.isEmpty then m
        else updAssoc m e.1 (fun en => { en with related := extendAssoc en.related ct nbrs })
      else m

/-- Final deduplication pass: `list(set(...))` on every `related` list.
The Python set iteration order is unspecified; the model normalises
with `List.dedup`, which preserves membership (the only aspect the
source guarantees). -/
def dedupRelated (m : List (String × ConceptEntry)) : List (String × ConceptEntry) :=
  m.map (fun p => (p.1, { p.2 with related := p.2.related.map (fun q => (q.1, q.2.dedup)) }))

/-- `export_to_json` of the source with the file writing factored out:
build the concept entries, fold the edge loop over `G.edges(data=True)`,
deduplicate the `related` lists and attach the fixed explanation.
`relationships` stays the empty list it is initialised to. -/
def export_to_json (g : Graph NodeAttrs) : ExportGraph :=
  ⟨dedupRelated ((edges g).foldl (exportEdgeStep g) (conceptEntries g)), [], explanation_text⟩

/-- The `type` tag of a node attribute record,
`G.nodes[i].get('type', 'unknown')`. -/
def typeTag : NodeAttrs → String
  | .concept _ _ => "concept"
  | .reified _ => "reified_connection"
  | .blank => "unknown"

/-- Fallible attribute access `G.nodes[i]`: raises `KeyError` (here: an
`Except.error` naming the identifier) when the node is absent. -/
def getAttrsE (g : Graph α) (i : String) : Except String α :=
  match getNode g i with
  | some a => .ok a
  | none => .error ("KeyError: " ++ i)

/-- What `explore_node` computes (and prints) about one node inside its
`try` block. -/
structure ExploreReport where
  type_tag : String
  container_path : List String
  contains_list : List String
  contained_by_list : List String
  related_groups : List (String × List (String × String))
  connected : List String
deriving DecidableEq, Repr

/-- The related-concept grouping of `explore_node`'s concept branch:
for every neighbor that is a reified connection, the other concept
neighbors (with the reified identifier), grouped by connection type;
every node inspection goes through the fallible `G.nodes[...]`
access. -/
def exploreRelated (g : Graph NodeAttrs) (node_id : String) :
    Except String (List (String × List (String × String))) :=
  (neighbors g node_id).foldlM (fun acc nb => do
    let a ← getAttrsE g nb
    match a with
    | .reified ct => do
        let rel ← (neighbors g nb).foldlM (fun l n => do
          let an ← getAttrsE g n
          pure (if typeTag an = "concept" ∧ n ≠ node_id then l ++ [(n, nb)] else l)) []
        pure (if rel.isEmpty then acc else extendAssoc acc ct rel)
    | _ => pure acc) []

/-- The connected-concepts list of `explore_node`'s reified branch. -/
def exploreConnected (g : Graph NodeAttrs) (node_id : String) :
    Except String (List String) :=
  (neighbors g node_id).foldlM (fun l n => do
    let an ← getAttrsE g n
    pure (if typeTag an = "concept" then l ++ [n] else l)) []

/-- Body of `explore_node`'s `try` block: the attribute inspections in
source order; any failed node access aborts the block with an error
(the `except` clause of the source catches it). -/
def exploreBody (g : Graph NodeAttrs) (node_id : String) :
    Except String ExploreReport := do
  let a ← getAttrsE g node_id
  let tt := typeTag a
  let cpath := trace_container_path g node_id [node_id]
  let _ ← (if cpath.length > 1 then cpath.mapM (fun n => getAttrsE g n) else pure [])
  let containsL := (edges g).filterMap (fun e =>
    if isContainsAttr e.2.2 ∧ e.1 = node_id then some e.2.1 else none)
  let containedL := (edges g).filterMap (fun e =>
    if isContainsAttr e.2.2 ∧ e.1 ≠ node_id ∧ e.2.1 = node_id then some e.1 else none)
  let _ ← containsL.mapM (fun n => getAttrsE g n)
  let _ ← containedL.mapM (fun n => getAttrsE g n)
  if tt = "concept" then do
    let rel ← exploreRelated g node_id
    pure ⟨tt, cpath, containsL, containedL, rel, []⟩
  else if tt = "reified_connection" then do
    let conn ← exploreConnected g node_id
    pure ⟨tt, cpath, containsL, containedL, [], conn⟩
  else
    pure ⟨tt, cpath, containsL, containedL, [], []⟩

/-- Outcome of `explore_node`: the early `not found` return, a
successful exploration, or the message printed by the `except` clause
(which names the offending identifier). -/
inductive ExploreResult where
  | notFound (id : String)
  | explored (r : ExploreReport)
  | failed (id : String) (msg : String)
deriving DecidableEq, Repr

/-- `explore_node` of the source: report `notFound` when the
identifier names no node, otherwise run the body and catch any failure
at the query boundary. -/
def explore_node (g : Graph NodeAttrs) (node_id : String) : ExploreResult :=
  if hasNode g node_id then
    match exploreBody g node_id with
    | .ok r => .explored r
    | .error e => .failed node_id e
  else .notFound node_id

/-- Row of the skills table: owning concept identifier (may be
missing), skill identifier and free-text description. -/
structure SkillRow where
  concept_id : Option String
  skill_id : String
  description : String
deriving DecidableEq, Repr

/-- Modelled from the spec: node attribute records of the second
graph-construction module (`knowledge_graph.py`, imported by
`run_knowledge_graph.py` but not part of this snapshot).  Per the spec
its concept nodes additionally carry their skill list and its
reified-connection nodes carry a display name. -/
inductive SNodeAttrs where
  | concept (name : String) (complexity : String) (skills : List (String × String))
  | reified (name : String) (connection_type : String)
  | blank
deriving DecidableEq, Repr

instance : Inhabited SNodeAttrs := ⟨.blank⟩

/-- Modelled from the spec: group the skill rows by owning concept
identifier into an ordered list (rows lacking a concept identifier are
dropped). -/
def skillsFor (sk : List SkillRow) (i : String) : List (String × String) :=
  (sk.filter (fun s => s.concept_id == some i)).map (fun s => (s.skill_id, s.description))

/-- Modelled from the spec: the concept attribute record of the missing
builder — name, complexity and the row's skill list (empty when no
skill row names the concept). -/
def mkSConceptAttrs (sk : List SkillRow) (c : ConceptRow) : SNodeAttrs :=
  .concept c.node_name c.complexity
    (match c.node_id with
     | some i => skillsFor sk i
     | none => [])

/-- Modelled from the spec: the reified attribute record of the missing
builder — the display name comes from a concept row whose identifier
equals the connection identifier, falling back to the connection-type
string. -/
def mkSReifiedAttrs (cs : List ConceptRow) (r : ConnectionRow) : SNodeAttrs :=
  .reified
    (match cs.find? (fun c => c.node_id == some r.ID) with
     | some c => c.node_name
     | none => r.connection_type)
    r.connection_type

/-- Modelled from the spec: `build(concepts, connections, skills)` of
the missing module — identical row processing to
`create_knowledge_graph` (same existence check, same `contains`
special case, same reification edges) with the richer attribute
records. -/
def build (cs : List ConceptRow) (rs : List ConnectionRow) (sk : List SkillRow) :
    Graph SNodeAttrs × List Warning :=
  processAll (mkSReifiedAttrs cs)
    (addConceptNodes (mkSConceptAttrs sk) (Graph.empty SNodeAttrs) cs) rs

/-- Per-concept entry of the spec's `ExportGraph`: the six keys of
§4.4, including the stored skill list. -/
structure SConceptEntry where
  name : String
  complexity : String
  skills : List (String × String)
  contains : List String
  contained_by : List String
  related : List (String × List String)
deriving DecidableEq, Repr

/-- Whether a node of the spec-modelled store is a concept node. -/
def sIsConcept (g : Graph SNodeAttrs) (i : String) : Bool :=
  match getNode g i with
  | some (.concept _ _ _) => true
  | _ => false

/-- Modelled from the spec: the `related` projection of one concept —
for each reified-connection neighbor, the other concept neighbors
grouped under its connection type, deduplicated. -/
def sRelatedOf (g : Graph SNodeAttrs) (i : String) : List (String × List String) :=
  ((neighbors g i).foldl (fun acc nb =>
    match getNode g nb with
    | some (.reified _ ct) =>
        let others := (neighbors g nb).filter (fun n => sIsConcept g n && n != i)
        if others.isEmpty then acc else extendAssoc acc ct others
    | _ => acc) []).map (fun q => (q.1, q.2.dedup))

/-- Modelled from the spec: `project(store)` of the missing module —
one entry per concept node carrying name, complexity, the stored skill
list, the direct `contains` / `contained_by` neighborhoods (both ends
concepts) and the `related` grouping; reified-connection nodes get no
entry of their own. -/
def project (g : Graph SNodeAttrs) : List (String × SConceptEntry) :=
  g.cells.filterMap (fun c =>
    match c.attrs with
    | .concept n cx sks =>
        some (c.id,
          ⟨n, cx, sks,
           (edges g).filterMap (fun e =>
             if isContainsAttr e.2.2 ∧ e.1 = c.id ∧ sIsConcept g e.2.1
             then some e.2.1 else none),
           (edges g).filterMap (fun e =>
             if isContainsAttr e.2.2 ∧ e.2.1 = c.id ∧ sIsConcept g e.1
             then some e.1 else none),
           sRelatedOf g c.id⟩)
    | _ => none)

/-- Proof-side normal form of the reification branch: add the
bidirectional neighbor-edge pair for every participant, uniformly in
the order (participant → reified, reified → participant).  The source
emits the two edges of `node_id1` in this order and those of
`node_id2` / `node_id3` in the swapped order; since both endpoints
exist, the two orders produce the same graph (proved below). -/
def reifyEdges [Inhabited α] (cid : String) (g : Graph α) (ps : List String) : Graph α :=
  ps.foldl (fun gg p => add_edge (add_edge gg p cid .neighborRole) cid p .neighborRole) g

/-! ### Infrastructure: identifiers and lookups -/

/-- Identifier list of a graph, in cell order. -/
def idsOf (g : Graph α) : List String := g.cells.map (fun c => c.id)

/-- Uniqueness of stored identifiers (holds for every graph the
builder reaches from the empty one). -/
def NodupIds (g : Graph α) : Prop := (idsOf g).Nodup

/-- The non-missing identifiers of the concept rows. -/
def conceptIds (cs : List ConceptRow) : List String :=
  cs.filterMap (fun c => c.node_id)

/-- Key uniqueness of every stored out-adjacency list (each target at
most once, as in a dictionary). -/
def OutsNodup (g : Graph α) : Prop :=
  ∀ c ∈ g.cells, ((c.out.map (fun p => p.1)).Nodup)

/-- Every edge target names an existing node (the `networkx` guarantee
that `add_edge` creates missing endpoints). -/
def TargetsExist (g : Graph α) : Prop :=
  ∀ c ∈ g.cells, ∀ q ∈ c.out, hasNode g q.1 = true

/-- The structural well-formedness every graph reachable from the
empty one enjoys. -/
def GraphWF (g : Graph α) : Prop :=
  NodupIds g ∧ OutsNodup g ∧ TargetsExist g

/-- Well-formedness of the tabular input assumed by the specification
(§3: "node identifiers are unique across both variants combined"; §4.2:
edges reference existing nodes): connection identifiers are pairwise
distinct, disjoint from the concept identifiers, and every referenced
node identifier names a concept row. -/
def WFInput (cs : List ConceptRow) (rs : List ConnectionRow) : Prop :=
  (rs.map (fun r => r.ID)).Nodup ∧
  (∀ r ∈ rs, r.ID ∉ conceptIds cs) ∧
  (∀ r ∈ rs, ∀ p ∈ refIds r, p ∈ conceptIds cs)

/-- The `related` list of one concept entry of the export, for one
connection type (empty when the concept or the type is absent). -/
def relatedList (eg : ExportGraph) (i ct : String) : List String :=
  match lookupAssoc eg.concepts i with
  | some en => (lookupAssoc en.related ct).getD []
  | none => []

/-- The `contains` list of one concept entry of the export. -/
def containsList (eg : ExportGraph) (i : String) : List String :=
  match lookupAssoc eg.concepts i with
  | some en => en.contains
  | none => []

/-- The `contained_by` list of one concept entry of the export. -/
def containedByList (eg : ExportGraph) (i : String) : List String :=
  match lookupAssoc eg.concepts i with
  | some en => en.contained_by
  | none => []

/-- Invariant carried through the rows processed after a reified
connection row `r`: the reified node keeps its attributes (`A`), its
out-adjacency stays exactly one neighbor entry per distinct referenced
identifier, every referenced identifier keeps its incoming neighbor
edge from the reification and its original concept attributes (relative
to the post-concepts graph `g0`), and no other node points at the
reified node. -/
structure ReifiedState (cs : List ConceptRow) (r : ConnectionRow) (A : α)
    (g0 g : Graph α) : Prop where
  wf : GraphWF g
  cpres : ∀ x ∈ conceptIds cs, hasNode g x = true
  cattr : ∀ p ∈ refIds r, getNode g p = getNode g0 p
  cid_node : getNode g r.ID = some A
  cid_out : outOf g r.ID = (refIds r).foldl (fun l p => upsert l p .neighborRole) []
  mem_in : ∀ p ∈ refIds r, (r.ID, EdgeAttrs.neighborRole) ∈ outOf g p
  no_in : ∀ x, x ≠ r.ID → x ∉ refIds r → ∀ a, (r.ID, a) ∉ outOf g x

theorem lookupCell_append (l1 l2 : List (Cell α)) (i : String) :
    lookupCell (l1 ++ l2) i =
      match lookupCell l1 i with
      | some c => some c
      | none => lookupCell l2 i := by
  induction l1 with
  | nil => rfl
  | cons c t ih => by_cases h : c.id = i <;> simp [lookupCell, h, ih]

theorem lookupCell_map_of_id (l : List (Cell α)) (f : Cell α → Cell α)
    (hf : ∀ c, (f c).id = c.id) (j : String) :
    lookupCell (l.map f) j = (lookupCell l j).map f := by
  induction l with
  | nil => rfl
  | cons c t ih =>
      by_cases h : c.id = j <;> simp [lookupCell, hf, h, ih]

theorem lookupCell_id_eq (l : List (Cell α)) (i : String) (c : Cell α)
    (h : lookupCell l i = some c) : c.id = i := by
  induction l with
  | nil => cases h
  | cons d t ih =>
      unfold lookupCell at h
      split at h
      · cases h
        assumption
      · exact ih h

theorem lookupCell_eq_none_iff (l : List (Cell α)) (i : String) :
    lookupCell l i = none ↔ i ∉ l.map (fun c => c.id) := by
  induction l with
  | nil => simp [lookupCell]
  | cons c t ih =>
      unfold lookupCell
      by_cases h : c.id = i
      · simp [h]
      · rw [if_neg h, ih]
        simp only [List.map_cons, List.mem_cons, not_or]
        constructor
        · intro hni
          exact ⟨fun he => h he.symm, hni⟩
        · intro hni
          exact hni.2

theorem hasNode_eq_isSome (g : Graph α) (j : String) :
    hasNode g j = (getNode g j).isSome := by
  unfold hasNode getNode
  cases lookupCell g.cells j <;> simp

theorem hasNode_iff_mem_ids (g : Graph α) (i : String) :
    hasNode g i = true ↔ i ∈ idsOf g := by
  unfold hasNode idsOf
  rw [Option.isSome_iff_ne_none]
  rw [Ne, lookupCell_eq_none_iff]
  simp

theorem hasNode_eq_false_iff (g : Graph α) (i : String) :
    hasNode g i = false ↔ lookupCell g.cells i = none := by
  unfold hasNode
  cases h : lookupCell g.cells i <;> simp [h]

/-! ### Effect of `add_node`, `ensure_node`, `add_edge` -/

theorem getNode_add_node (g : Graph α) (i : String) (a : α) (j : String) :
    getNode (add_node g i a) j = if j = i then some a else getNode g j := by
  unfold add_node
  by_cases hp : hasNode g i
  · rw [if_pos hp]
    show (lookupCell (g.cells.map _) j).map _ = _
    rw [lookupCell_map_of_id _ _ (fun c => by by_cases h : c.id = i <;> simp [h])]
    by_cases hj : j = i
    · subst hj
      unfold hasNode at hp
      cases hl : lookupCell g.cells j with
      | none => rw [hl] at hp; simp at hp
      | some c =>
          have hid := lookupCell_id_eq _ _ _ hl
          simp [hl, hid]
    · rw [if_neg hj]
      cases hl : lookupCell g.cells j with
      | none => simp [getNode, hl]
      | some c =>
          have hid := lookupCell_id_eq _ _ _ hl
          have hne : ¬ c.id = i := by rw [hid]; exact hj
          simp [getNode, hl, hne]
  · rw [if_neg hp]
    show (lookupCell (g.cells ++ _) j).map _ = _
    rw [lookupCell_append]
    rw [Bool.not_eq_true, hasNode_eq_false_iff] at hp
    by_cases hj : j = i
    · subst hj
      rw [hp]
      simp [lookupCell]
    · cases hl : lookupCell g.cells j with
      | none =>
          have hone : lookupCell [(⟨i, a, []⟩ : Cell α)] j = none := by
            unfold lookupCell
            rw [if_neg (fun h => hj h.symm)]
            rfl
          rw [hone]
          simp [getNode, hl, hj]
      | some c =>
          simp [getNode, hl, hj]

theorem outOf_add_node (g : Graph α) (i : String) (a : α) (j : String) :
    outOf (add_node g i a) j = outOf g j := by
  unfold add_node
  by_cases hp : hasNode g i
  · rw [if_pos hp]
    show outOf ⟨g.cells.map _⟩ j = _
    unfold outOf
    rw [lookupCell_map_of_id _ _ (fun c => by by_cases h : c.id = i <;> simp [h])]
    cases hl : lookupCell g.cells j with
    | none => rfl
    | some c => by_cases h : c.id = i <;> simp [h]
  · rw [if_neg hp]
    show outOf ⟨g.cells ++ _⟩ j = _
    unfold outOf
    rw [lookupCell_append]
    rw [Bool.not_eq_true, hasNode_eq_false_iff] at hp
    cases hl : lookupCell g.cells j with
    | none =>
        by_cases hj : j = i
        · subst hj
          simp [lookupCell]
        · have hone : lookupCell [(⟨i, a, []⟩ : Cell α)] j = none := by
            unfold lookupCell
            rw [if_neg (fun h => hj h.symm)]
            rfl
          rw [hone]
    | some c => rfl

theorem hasNode_add_node (g : Graph α) (i : String) (a : α) (j : String) :
    hasNode (add_node g i a) j = (hasNode g j || decide (j = i)) := by
  rw [hasNode_eq_isSome, getNode_add_node, hasNode_eq_isSome]
  by_cases hj : j = i <;> simp [hj]

theorem getNode_ensure_node [Inhabited α] (g : Graph α) (i j : String)
    (h : hasNode g j = true) : getNode (ensure_node g i) j = getNode g j := by
  unfold ensure_node
  by_cases hp : hasNode g i
  · rw [if_pos hp]
  · rw [if_neg hp]
    show (lookupCell (g.cells ++ _) j).map _ = _
    rw [lookupCell_append]
    unfold hasNode at h
    cases hl : lookupCell g.cells j with
    | none => rw [hl] at h; simp at h
    | some c => simp [getNode, hl]

theorem outOf_ensure_node [Inhabited α] (g : Graph α) (i j : String) :
    outOf (ensure_node g i) j = outOf g j := by
  unfold ensure_node
  by_cases hp : hasNode g i
  · rw [if_pos hp]
  · rw [if_neg hp]
    show outOf ⟨g.cells ++ _⟩ j = _
    unfold outOf
    rw [lookupCell_append]
    cases hl : lookupCell g.cells j with
    | none =>
        by_cases hj : j = i
        · subst hj
          simp [lookupCell]
        · have hone : lookupCell [(⟨i, default, []⟩ : Cell α)] j = none := by
            unfold lookupCell
            rw [if_neg (fun h => hj h.symm)]
            rfl
          rw [hone]
    | some c => rfl

theorem hasNode_ensure_node [Inhabited α] (g : Graph α) (i j : String) :
    hasNode (ensure_node g i) j = (hasNode g j || decide (j = i)) := by
  unfold ensure_node
  by_cases hp : hasNode g i
  · rw [if_pos hp]
    by_cases hj : j = i
    · subst hj
      simp [hp]
    · simp [hj]
  · rw [if_neg hp]
    show (lookupCell (g.cells ++ _) j).isSome = _
    rw [lookupCell_append]
    cases hl : lookupCell g.cells j with
    | none =>
        by_cases hj : j = i
        · subst hj
          simp [lookupCell, hasNode, hl]
        · have hone : lookupCell [(⟨i, default, []⟩ : Cell α)] j = none := by
            unfold lookupCell
            rw [if_neg (fun h => hj h.symm)]
            rfl
          simp [hone, hasNode, hl, hj]
    | some c => simp [hasNode, hl]

theorem outOf_add_edge [Inhabited α] (g : Graph α) (u v : String) (a : EdgeAttrs)
    (j : String) :
    outOf (add_edge g u v a) j =
      if j = u then upsert (outOf g u) v a else outOf g j := by
  have h2u : outOf (ensure_node (ensure_node g u) v) u = outOf g u := by
    rw [outOf_ensure_node, outOf_ensure_node]
  have h2j : outOf (ensure_node (ensure_node g u) v) j = outOf g j := by
    rw [outOf_ensure_node, outOf_ensure_node]
  have hhas : hasNode (ensure_node (ensure_node g u) v) u = true := by
    rw [hasNode_ensure_node, hasNode_ensure_node]
    simp
  have lhs : outOf (add_edge g u v a) j =
      match (lookupCell (ensure_node (ensure_node g u) v).cells j).map
        (fun c => if c.id = u then { c with out := upsert c.out v a } else c) with
      | some c => c.out
      | none => [] := by
    show outOf ⟨(ensure_node (ensure_node g u) v).cells.map _⟩ j = _
    unfold outOf
    rw [lookupCell_map_of_id _ _ (fun c => by by_cases h : c.id = u <;> simp [h])]
  rw [lhs]
  cases hl : lookupCell (ensure_node (ensure_node g u) v).cells j with
  | none =>
      rw [Option.map_none']
      by_cases hj : j = u
      · exfalso
        subst hj
        unfold hasNode at hhas
        rw [hl] at hhas
        simp at hhas
      · rw [if_neg hj, ← h2j]
        unfold outOf
        rw [hl]
  | some c =>
      rw [Option.map_some']
      have hcid := lookupCell_id_eq _ _ _ hl
      have hout : outOf (ensure_node (ensure_node g u) v) j = c.out := by
        unfold outOf
        rw [hl]
      by_cases hj : j = u
      · subst hj
        rw [if_pos rfl]
        show (if c.id = j then { c with out := upsert c.out v a } else c).out =
          upsert (outOf g j) v a
        rw [if_pos hcid]
        show upsert c.out v a = upsert (outOf g j) v a
        rw [← h2u, hout]
      · have hne : ¬ c.id = u := by rw [hcid]; exact hj
        rw [if_neg hj]
        show (if c.id = u then { c with out := upsert c.out v a } else c).out = outOf g j
        rw [if_neg hne, ← h2j, hout]

theorem getNode_add_edge [Inhabited α] (g : Graph α) (u v : String) (a : EdgeAttrs)
    (j : String) (h : hasNode g j = true) :
    getNode (add_edge g u v a) j = getNode g j := by
  have hh1 : hasNode (ensure_node g u) j = true := by
    rw [hasNode_ensure_node, h]
    rfl
  have h2 : getNode (ensure_node (ensure_node g u) v) j = getNode g j := by
    rw [getNode_ensure_node _ _ _ hh1, getNode_ensure_node _ _ _ h]
  have lhs : getNode (add_edge g u v a) j =
      ((lookupCell (ensure_node (ensure_node g u) v).cells j).map
        (fun c => if c.id = u then { c with out := upsert c.out v a } else c)).map
        (fun c => c.attrs) := by
    show (lookupCell ((ensure_node (ensure_node g u) v).cells.map _) j).map _ = _
    rw [lookupCell_map_of_id _ _ (fun c => by by_cases h : c.id = u <;> simp [h])]
  rw [lhs, ← h2]
  unfold getNode
  cases hl : lookupCell (ensure_node (ensure_node g u) v).cells j with
  | none => rfl
  | some c =>
      rw [Option.map_some', Option.map_some', Option.map_some']
      by_cases hc : c.id = u <;> simp [hc]

theorem hasNode_add_edge [Inhabited α] (g : Graph α) (u v : String) (a : EdgeAttrs)
    (j : String) :
    hasNode (add_edge g u v a) j = (hasNode g j || decide (j = u) || decide (j = v)) := by
  have h2 : hasNode (ensure_node (ensure_node g u) v) j =
      (hasNode g j || decide (j = u) || decide (j = v)) := by
    rw [hasNode_ensure_node, hasNode_ensure_node]
  have lhs : hasNode (add_edge g u v a) j =
      ((lookupCell (ensure_node (ensure_node g u) v).cells j).map
        (fun c => if c.id = u then { c with out := upsert c.out v a } else c)).isSome := by
    show (lookupCell ((ensure_node (ensure_node g u) v).cells.map _) j).isSome = _
    rw [lookupCell_map_of_id _ _ (fun c => by by_cases h : c.id = u <;> simp [h])]
  rw [lhs, ← h2]
  unfold hasNode
  cases hl : lookupCell (ensure_node (ensure_node g u) v).cells j <;> simp

/-! ### Preservation of identifier uniqueness -/

theorem nodupIds_add_node (g : Graph α) (i : String) (a : α) (h : NodupIds g) :
    NodupIds (add_node g i a) := by
  unfold add_node
  by_cases hp : hasNode g i
  · rw [if_pos hp]
    unfold NodupIds idsOf at *
    have heq : (g.cells.map (fun c => if c.id = i then { c with attrs := a } else c)).map
        (fun c => c.id) = g.cells.map (fun c => c.id) := by
      rw [List.map_map]
      apply List.map_congr_left
      intro c _
      by_cases hc : c.id = i <;> simp [hc]
    show ((g.cells.map (fun c => if c.id = i then { c with attrs := a } else c)).map
        (fun c => c.id)).Nodup
    rw [heq]
    exact h
  · rw [if_neg hp]
    unfold NodupIds idsOf at *
    rw [Bool.not_eq_true, hasNode_eq_false_iff, lookupCell_eq_none_iff] at hp
    simp [List.nodup_append, h, hp]

theorem nodupIds_ensure_node [Inhabited α] (g : Graph α) (i : String) (h : NodupIds g) :
    NodupIds (ensure_node g i) := by
  unfold ensure_node
  by_cases hp : hasNode g i
  · rw [if_pos hp]
    exact h
  · rw [if_neg hp]
    unfold NodupIds idsOf at *
    rw [Bool.not_eq_true, hasNode_eq_false_iff, lookupCell_eq_none_iff] at hp
    simp [List.nodup_append, h, hp]

theorem nodupIds_add_edge [Inhabited α] (g : Graph α) (u v : String) (a : EdgeAttrs)
    (h : NodupIds g) : NodupIds (add_edge g u v a) := by
  have h2 : NodupIds (ensure_node (ensure_node g u) v) :=
    nodupIds_ensure_node _ _ (nodupIds_ensure_node _ _ h)
  show NodupIds ⟨(ensure_node (ensure_node g u) v).cells.map _⟩
  set g2 := ensure_node (ensure_node g u) v with hg2
  unfold NodupIds idsOf at *
  rw [List.map_map]
  have : (g2.cells.map ((fun c => c.id) ∘
      (fun c => if c.id = u then { c with out := upsert c.out v a } else c))) =
      g2.cells.map (fun c => c.id) := by
    apply List.map_congr_left
    intro c _
    by_cases hc : c.id = u <;> simp [hc]
  rw [this]
  exact h2

/-! ### Facts about `upsert` -/

theorem upsert_keys_mem (l : List (String × EdgeAttrs)) (v : String) (a : EdgeAttrs)
    (x : String) :
    (x ∈ (upsert l v a).map (fun p => p.1)) ↔ x = v ∨ x ∈ l.map (fun p => p.1) := by
  induction l with
  | nil => simp [upsert]
  | cons p t ih =>
      by_cases h : p.1 = v
      · subst h
        simp [upsert]
      · unfold upsert
        rw [if_neg h]
        simp only [List.map_cons, List.mem_cons, ih]
        tauto

theorem upsert_keys_nodup (l : List (String × EdgeAttrs)) (v : String) (a : EdgeAttrs)
    (h : (l.map (fun p => p.1)).Nodup) : ((upsert l v a).map (fun p => p.1)).Nodup := by
  induction l with
  | nil => simp [upsert]
  | cons p t ih =>
      simp only [List.map_cons, List.nodup_cons] at h
      by_cases hp : p.1 = v
      · subst hp
        unfold upsert
        rw [if_pos rfl]
        simp only [List.map_cons, List.nodup_cons]
        exact h
      · unfold upsert
        rw [if_neg hp]
        simp only [List.map_cons, List.nodup_cons]
        refine ⟨?_, ih h.2⟩
        rw [upsert_keys_mem]
        rintro (he | hm)
        · exact hp he
        · exact h.1 hm

theorem upsert_attr (l : List (String × EdgeAttrs)) (v : String) (a : EdgeAttrs)
    (h : ∀ p ∈ l, p.2 = a) : ∀ p ∈ upsert l v a, p.2 = a := by
  induction l with
  | nil =>
      intro p hp
      simp [upsert] at hp
      rw [hp]
  | cons q t ih =>
      intro p hp
      unfold upsert at hp
      by_cases hq : q.1 = v
      · rw [if_pos hq] at hp
        rcases List.mem_cons.mp hp with he | hm
        · rw [he]
        · exact h p (List.mem_cons_of_mem _ hm)
      · rw [if_neg hq] at hp
        rcases List.mem_cons.mp hp with he | hm
        · rw [he]
          exact h q (List.mem_cons_self _ _)
        · exact ih (fun p hp => h p (List.mem_cons_of_mem _ hp)) p hm

theorem upsert_upsert (l : List (String × EdgeAttrs)) (v : String) (a : EdgeAttrs) :
    upsert (upsert l v a) v a = upsert l v a := by
  induction l with
  | nil => simp [upsert]
  | cons p t ih =>
      by_cases h : p.1 = v
      · simp [upsert, h]
      · simp [upsert, h, ih]

theorem upsert_length_of_mem (l : List (String × EdgeAttrs)) (v : String) (a : EdgeAttrs)
    (h : v ∈ l.map (fun p => p.1)) : (upsert l v a).length = l.length := by
  induction l with
  | nil => simp at h
  | cons p t ih =>
      by_cases hp : p.1 = v
      · unfold upsert
        rw [if_pos hp]
        simp
      · unfold upsert
        rw [if_neg hp]
        simp only [List.map_cons, List.mem_cons] at h
        rcases h with he | hm
        · exact absurd he.symm hp
        · simp [ih hm]

theorem upsert_length_of_not_mem (l : List (String × EdgeAttrs)) (v : String)
    (a : EdgeAttrs) (h : v ∉ l.map (fun p => p.1)) :
    (upsert l v a).length = l.length + 1 := by
  induction l with
  | nil => simp [upsert]
  | cons p t ih =>
      simp only [List.map_cons, List.mem_cons, not_or] at h
      unfold upsert
      rw [if_neg (fun he => h.1 he.symm)]
      simp [ih h.2]

/-! ### Facts about `addConceptNodes` -/

theorem addConceptNodes_cons (mkC : ConceptRow → α) (g : Graph α) (c : ConceptRow)
    (t : List ConceptRow) :
    addConceptNodes mkC g (c :: t) =
      addConceptNodes mkC
        (match c.node_id with
         | none => g
         | some i => add_node g i (mkC c)) t := rfl

theorem conceptIds_cons_none (c : ConceptRow) (t : List ConceptRow)
    (h : c.node_id = none) : conceptIds (c :: t) = conceptIds t := by
  simp [conceptIds, h]

theorem conceptIds_cons_some (c : ConceptRow) (t : List ConceptRow) (i : String)
    (h : c.node_id = some i) : conceptIds (c :: t) = i :: conceptIds t := by
  simp [conceptIds, h]

theorem outOf_addConceptNodes (mkC : ConceptRow → α) (g : Graph α)
    (cs : List ConceptRow) (j : String) :
    outOf (addConceptNodes mkC g cs) j = outOf g j := by
  induction cs generalizing g with
  | nil => rfl
  | cons c t ih =>
      rw [addConceptNodes_cons]
      cases h : c.node_id with
      | none => exact ih g
      | some i => rw [ih, outOf_add_node]

theorem getNode_addConceptNodes_not_mem (mkC : ConceptRow → α) (g : Graph α)
    (cs : List ConceptRow) (j : String) (h : j ∉ conceptIds cs) :
    getNode (addConceptNodes mkC g cs) j = getNode g j := by
  induction cs generalizing g with
  | nil => rfl
  | cons c t ih =>
      rw [addConceptNodes_cons]
      cases hc : c.node_id with
      | none =>
          rw [conceptIds_cons_none _ _ hc] at h
          exact ih _ h
      | some i =>
          rw [conceptIds_cons_some _ _ _ hc] at h
          simp only [List.mem_cons, not_or] at h
          rw [ih _ h.2, getNode_add_node, if_neg h.1]

theorem hasNode_addConceptNodes (mkC : ConceptRow → α) (g : Graph α)
    (cs : List ConceptRow) (j : String) :
    hasNode (addConceptNodes mkC g cs) j = true ↔
      hasNode g j = true ∨ j ∈ conceptIds cs := by
  induction cs generalizing g with
  | nil => simp [addConceptNodes, conceptIds]
  | cons c t ih =>
      rw [addConceptNodes_cons]
      cases hc : c.node_id with
      | none =>
          rw [conceptIds_cons_none _ _ hc, ih]
      | some i =>
          rw [conceptIds_cons_some _ _ _ hc, ih, hasNode_add_node]
          simp only [Bool.or_eq_true, decide_eq_true_eq, List.mem_cons]
          tauto

theorem getNode_addConceptNodes_mem (mkC : ConceptRow → α) (g : Graph α)
    (cs : List ConceptRow) (j : String) (c : ConceptRow)
    (hnd : (conceptIds cs).Nodup) (hc : c ∈ cs) (hid : c.node_id = some j) :
    getNode (addConceptNodes mkC g cs) j = some (mkC c) := by
  induction cs generalizing g with
  | nil => cases hc
  | cons d t ih =>
      rw [addConceptNodes_cons]
      rcases List.mem_cons.mp hc with he | hm
      · subst he
        rw [conceptIds_cons_some _ _ _ hid] at hnd
        simp only [List.nodup_cons] at hnd
        rw [hid]
        rw [getNode_addConceptNodes_not_mem _ _ _ _ hnd.1, getNode_add_node, if_pos rfl]
      · cases hd : d.node_id with
        | none =>
            rw [conceptIds_cons_none _ _ hd] at hnd
            exact ih _ hnd hm
        | some i =>
            rw [conceptIds_cons_some _ _ _ hd] at hnd
            simp only [List.nodup_cons] at hnd
            exact ih _ hnd.2 hm

theorem nodupIds_addConceptNodes (mkC : ConceptRow → α) (g : Graph α)
    (cs : List ConceptRow) (h : NodupIds g) : NodupIds (addConceptNodes mkC g cs) := by
  induction cs generalizing g with
  | nil => exact h
  | cons c t ih =>
      rw [addConceptNodes_cons]
      cases hc : c.node_id with
      | none => exact ih _ h
      | some i => exact ih _ (nodupIds_add_node _ _ _ h)

/-! ### Row-level lemmas about `processConnection` -/

theorem missingList_eq_nil_iff (g : Graph α) (r : ConnectionRow) :
    missingList g r = [] ↔ ∀ p ∈ refIds r, hasNode g p = true := by
  unfold missingList
  rw [List.map_eq_nil_iff, List.filter_eq_nil_iff]
  constructor
  · intro h p hp
    have := h p hp
    simpa using this
  · intro h p hp
    simp [h p hp]

theorem outOf_of_not_hasNode (g : Graph α) (i : String) (h : hasNode g i = false) :
    outOf g i = [] := by
  rw [hasNode_eq_false_iff] at h
  unfold outOf
  rw [h]

theorem ensure_node_of_hasNode [Inhabited α] (g : Graph α) (i : String)
    (h : hasNode g i = true) : ensure_node g i = g := by
  unfold ensure_node
  rw [if_pos h]

theorem add_edge_of_hasNode [Inhabited α] (g : Graph α) (u v : String) (a : EdgeAttrs)
    (hu : hasNode g u = true) (hv : hasNode g v = true) :
    add_edge g u v a =
      ⟨g.cells.map (fun c => if c.id = u then { c with out := upsert c.out v a } else c)⟩ := by
  unfold add_edge
  rw [ensure_node_of_hasNode _ _ hu, ensure_node_of_hasNode _ _ hv]

theorem hasNode_map_update [Inhabited α] (w z : String) (a : EdgeAttrs)
    (l : List (Cell α)) (x : String) :
    hasNode ⟨l.map (fun c => if c.id = w then { c with out := upsert c.out z a } else c)⟩ x
      = hasNode ⟨l⟩ x := by
  unfold hasNode
  rw [lookupCell_map_of_id _ _ (fun c => by by_cases h : c.id = w <;> simp [h])]
  cases lookupCell l x <;> simp

theorem add_edge_swap [Inhabited α] (g : Graph α) (u v : String) (a : EdgeAttrs)
    (hne : u ≠ v) (hu : hasNode g u = true) (hv : hasNode g v = true) :
    add_edge (add_edge g u v a) v u a = add_edge (add_edge g v u a) u v a := by
  rw [add_edge_of_hasNode g u v a hu hv, add_edge_of_hasNode g v u a hv hu]
  rw [add_edge_of_hasNode _ v u a (by rw [hasNode_map_update]; exact hv)
    (by rw [hasNode_map_update]; exact hu)]
  rw [add_edge_of_hasNode _ u v a (by rw [hasNode_map_update]; exact hu)
    (by rw [hasNode_map_update]; exact hv)]
  show Graph.mk ((g.cells.map _).map _) = Graph.mk ((g.cells.map _).map _)
  rw [List.map_map, List.map_map]
  apply congrArg
  apply List.map_congr_left
  intro c _
  simp only [Function.comp]
  by_cases hcu : c.id = u <;> by_cases hcv : c.id = v <;> simp_all

/-! ### Lemmas about the bidirectional neighbor-edge pairs -/

theorem getNode_add_edge2 [Inhabited α] (g : Graph α) (u1 v1 u2 v2 : String)
    (a : EdgeAttrs) (x : String) (hx : hasNode g x = true) :
    getNode (add_edge (add_edge g u1 v1 a) u2 v2 a) x = getNode g x := by
  have h1 : hasNode (add_edge g u1 v1 a) x = true := by
    rw [hasNode_add_edge, hx]
    rfl
  rw [getNode_add_edge _ _ _ _ _ h1, getNode_add_edge _ _ _ _ _ hx]

theorem hasNode_add_edge2 [Inhabited α] (g : Graph α) (u1 v1 u2 v2 : String)
    (a : EdgeAttrs) (x : String) :
    hasNode (add_edge (add_edge g u1 v1 a) u2 v2 a) x =
      (hasNode g x || decide (x = u1) || decide (x = v1) ||
        decide (x = u2) || decide (x = v2)) := by
  rw [hasNode_add_edge, hasNode_add_edge]

theorem outOf_pairA [Inhabited α] (g : Graph α) (cid p : String) (hne : p ≠ cid)
    (x : String) :
    outOf (add_edge (add_edge g p cid .neighborRole) cid p .neighborRole) x =
      if x = cid then upsert (outOf g cid) p .neighborRole
      else if x = p then upsert (outOf g p) cid .neighborRole
      else outOf g x := by
  simp only [outOf_add_edge]
  by_cases hx : x = cid
  · subst hx
    simp [Ne.symm hne]
  · by_cases hxp : x = p
    · simp [hx, hxp, Ne.symm hne]
    · simp [hx, hxp]

theorem outOf_pairB [Inhabited α] (g : Graph α) (cid p : String) (hne : p ≠ cid)
    (x : String) :
    outOf (add_edge (add_edge g cid p .neighborRole) p cid .neighborRole) x =
      if x = cid then upsert (outOf g cid) p .neighborRole
      else if x = p then upsert (outOf g p) cid .neighborRole
      else outOf g x := by
  simp only [outOf_add_edge]
  by_cases hx : x = cid
  · subst hx
    simp [Ne.symm hne, hne]
  · by_cases hxp : x = p
    · simp [hx, hxp, Ne.symm hne, hne]
    · simp [hx, hxp]

/-! ### More `upsert` facts: membership and key counts -/

theorem upsert_self_mem (l : List (String × EdgeAttrs)) (v : String) (a : EdgeAttrs) :
    (v, a) ∈ upsert l v a := by
  induction l with
  | nil => simp [upsert]
  | cons p t ih =>
      by_cases h : p.1 = v
      · unfold upsert
        rw [if_pos h]
        exact List.mem_cons_self _ _
      · unfold upsert
        rw [if_neg h]
        exact List.mem_cons_of_mem _ ih

theorem mem_upsert_of_key_ne (l : List (String × EdgeAttrs)) (v : String) (a : EdgeAttrs)
    (q : String × EdgeAttrs) (hq : q ∈ l) (hne : q.1 ≠ v) : q ∈ upsert l v a := by
  induction l with
  | nil => cases hq
  | cons p t ih =>
      unfold upsert
      by_cases h : p.1 = v
      · rw [if_pos h]
        rcases List.mem_cons.mp hq with he | hm
        · exact absurd (he ▸ h) hne
        · exact List.mem_cons_of_mem _ hm
      · rw [if_neg h]
        rcases List.mem_cons.mp hq with he | hm
        · rw [he]
          exact List.mem_cons_self _ _
        · exact List.mem_cons_of_mem _ (ih hm)

theorem countP_key_zero (l : List (String × EdgeAttrs)) (v : String) (a : EdgeAttrs)
    (h : v ∉ l.map (fun p => p.1)) :
    l.countP (fun q => decide (q.1 = v ∧ q.2 = a)) = 0 := by
  induction l with
  | nil => rfl
  | cons p t ih =>
      simp only [List.map_cons, List.mem_cons, not_or] at h
      rw [List.countP_cons]
      rw [ih h.2]
      have : ¬ (p.1 = v ∧ p.2 = a) := fun hc => h.1 hc.1.symm
      simp [this]

theorem countP_key_one (l : List (String × EdgeAttrs)) (v : String) (a : EdgeAttrs)
    (hnd : (l.map (fun p => p.1)).Nodup) (hm : (v, a) ∈ l) :
    l.countP (fun q => decide (q.1 = v ∧ q.2 = a)) = 1 := by
  induction l with
  | nil => cases hm
  | cons p t ih =>
      simp only [List.map_cons, List.nodup_cons] at hnd
      rw [List.countP_cons]
      rcases List.mem_cons.mp hm with he | hmt
      · have hv : p.1 = v := by rw [← he]
        have h0 : t.countP (fun q => decide (q.1 = v ∧ q.2 = a)) = 0 :=
          countP_key_zero _ _ a (hv ▸ hnd.1)
        rw [h0, ← he]
        simp
      · have hkey : p.1 ≠ v := by
          intro he
          apply hnd.1
          rw [he]
          exact List.mem_map_of_mem (fun p => p.1) hmt
        rw [ih hnd.2 hmt]
        have : ¬ (p.1 = v ∧ p.2 = a) := fun hc => hkey hc.1
        simp [this]

/-! ### Preservation of structural well-formedness -/

theorem mem_upsert_cases (l : List (String × EdgeAttrs)) (v : String) (a : EdgeAttrs)
    (q : String × EdgeAttrs) (h : q ∈ upsert l v a) : q ∈ l ∨ q = (v, a) := by
  induction l with
  | nil =>
      simp [upsert] at h
      exact Or.inr h
  | cons p t ih =>
      unfold upsert at h
      by_cases hp : p.1 = v
      · rw [if_pos hp] at h
        rcases List.mem_cons.mp h with he | hm
        · exact Or.inr he
        · exact Or.inl (List.mem_cons_of_mem _ hm)
      · rw [if_neg hp] at h
        rcases List.mem_cons.mp h with he | hm
        · exact Or.inl (he ▸ List.mem_cons_self _ _)
        · rcases ih hm with h1 | h2
          · exact Or.inl (List.mem_cons_of_mem _ h1)
          · exact Or.inr h2

theorem mem_ensure_cells [Inhabited α] (g : Graph α) (i : String) (c : Cell α)
    (h : c ∈ (ensure_node g i).cells) : c ∈ g.cells ∨ c = ⟨i, default, []⟩ := by
  unfold ensure_node at h
  by_cases hp : hasNode g i
  · rw [if_pos hp] at h
    exact Or.inl h
  · rw [if_neg hp] at h
    simp only at h
    rcases List.mem_append.mp h with h1 | h2
    · exact Or.inl h1
    · exact Or.inr (by simpa using h2)

theorem outsNodup_add_node (g : Graph α) (i : String) (a : α) (h : OutsNodup g) :
    OutsNodup (add_node g i a) := by
  intro c' hc'
  unfold add_node at hc'
  by_cases hp : hasNode g i
  · rw [if_pos hp] at hc'
    simp only at hc'
    rcases List.mem_map.mp hc' with ⟨c, hc, he⟩
    rw [← he]
    by_cases hcc : c.id = i
    · rw [if_pos hcc]
      exact h c hc
    · rw [if_neg hcc]
      exact h c hc
  · rw [if_neg hp] at hc'
    simp only at hc'
    rcases List.mem_append.mp hc' with h1 | h2
    · exact h c' h1
    · have : c' = ⟨i, a, []⟩ := by simpa using h2
      rw [this]
      simp

theorem outsNodup_ensure_node [Inhabited α] (g : Graph α) (i : String)
    (h : OutsNodup g) : OutsNodup (ensure_node g i) := by
  intro c' hc'
  rcases mem_ensure_cells _ _ _ hc' with h1 | h2
  · exact h c' h1
  · rw [h2]
    simp

theorem outsNodup_add_edge [Inhabited α] (g : Graph α) (u v : String) (a : EdgeAttrs)
    (h : OutsNodup g) : OutsNodup (add_edge g u v a) := by
  have h2 : OutsNodup (ensure_node (ensure_node g u) v) :=
    outsNodup_ensure_node _ _ (outsNodup_ensure_node _ _ h)
  intro c' hc'
  unfold add_edge at hc'
  simp only at hc'
  rcases List.mem_map.mp hc' with ⟨c, hc, he⟩
  rw [← he]
  by_cases hcc : c.id = u
  · rw [if_pos hcc]
    exact upsert_keys_nodup _ _ _ (h2 c hc)
  · rw [if_neg hcc]
    exact h2 c hc

theorem hasNode_mono_add_node (g : Graph α) (i : String) (a : α) (x : String)
    (h : hasNode g x = true) : hasNode (add_node g i a) x = true := by
  rw [hasNode_add_node, h]
  rfl

theorem hasNode_mono_ensure_node [Inhabited α] (g : Graph α) (i : String) (x : String)
    (h : hasNode g x = true) : hasNode (ensure_node g i) x = true := by
  rw [hasNode_ensure_node, h]
  rfl

theorem hasNode_mono_add_edge [Inhabited α] (g : Graph α) (u v : String) (a : EdgeAttrs)
    (x : String) (h : hasNode g x = true) : hasNode (add_edge g u v a) x = true := by
  rw [hasNode_add_edge, h]
  rfl

theorem targetsExist_add_node (g : Graph α) (i : String) (a : α) (h : TargetsExist g) :
    TargetsExist (add_node g i a) := by
  intro c' hc' q hq
  have base : ∀ c ∈ g.cells, ∀ q ∈ c.out, hasNode (add_node g i a) q.1 = true :=
    fun c hc q hq => hasNode_mono_add_node _ _ _ _ (h c hc q hq)
  unfold add_node at hc'
  by_cases hp : hasNode g i
  · rw [if_pos hp] at hc'
    simp only at hc'
    rcases List.mem_map.mp hc' with ⟨c, hc, he⟩
    have hout : c'.out = c.out := by
      rw [← he]
      by_cases hcc : c.id = i
      · rw [if_pos hcc]
      · rw [if_neg hcc]
    rw [hout] at hq
    exact base c hc q hq
  · rw [if_neg hp] at hc'
    simp only at hc'
    rcases List.mem_append.mp hc' with h1 | h2
    · exact base c' h1 q hq
    · have : c' = ⟨i, a, []⟩ := by simpa using h2
      rw [this] at hq
      cases hq

theorem targetsExist_ensure_node [Inhabited α] (g : Graph α) (i : String)
    (h : TargetsExist g) : TargetsExist (ensure_node g i) := by
  intro c' hc' q hq
  rcases mem_ensure_cells _ _ _ hc' with h1 | h2
  · exact hasNode_mono_ensure_node _ _ _ (h c' h1 q hq)
  · rw [h2] at hq
    cases hq

theorem targetsExist_add_edge [Inhabited α] (g : Graph α) (u v : String) (a : EdgeAttrs)
    (h : TargetsExist g) : TargetsExist (add_edge g u v a) := by
  have h2 : TargetsExist (ensure_node (ensure_node g u) v) :=
    targetsExist_ensure_node _ _ (targetsExist_ensure_node _ _ h)
  have hv : hasNode (add_edge g u v a) v = true := by
    rw [hasNode_add_edge]
    simp
  have hmono : ∀ x, hasNode (ensure_node (ensure_node g u) v) x = true →
      hasNode (add_edge g u v a) x = true := by
    intro x hx
    rw [hasNode_ensure_node, hasNode_ensure_node] at hx
    rw [hasNode_add_edge]
    rcases Bool.or_eq_true_iff.mp hx with h1 | h1
    · rcases Bool.or_eq_true_iff.mp h1 with h3 | h3
      · rw [h3]
        rfl
      · rw [h3]
        simp
    · rw [h1]
      simp
  intro c' hc' q hq
  unfold add_edge at hc'
  simp only at hc'
  rcases List.mem_map.mp hc' with ⟨c, hc, he⟩
  by_cases hcc : c.id = u
  · have hout : c'.out = upsert c.out v a := by
      rw [← he, if_pos hcc]
    rw [hout] at hq
    rcases mem_upsert_cases _ _ _ _ hq with h1 | h1
    · exact hmono _ (h2 c hc q h1)
    · rw [h1]
      exact hv
  · have hout : c'.out = c.out := by
      rw [← he, if_neg hcc]
    rw [hout] at hq
    exact hmono _ (h2 c hc q hq)

theorem graphWF_add_node (g : Graph α) (i : String) (a : α) (h : GraphWF g) :
    GraphWF (add_node g i a) :=
  ⟨nodupIds_add_node _ _ _ h.1, outsNodup_add_node _ _ _ h.2.1,
    targetsExist_add_node _ _ _ h.2.2⟩

theorem graphWF_add_edge [Inhabited α] (g : Graph α) (u v : String) (a : EdgeAttrs)
    (h : GraphWF g) : GraphWF (add_edge g u v a) :=
  ⟨nodupIds_add_edge _ _ _ _ h.1, outsNodup_add_edge _ _ _ _ h.2.1,
    targetsExist_add_edge _ _ _ _ h.2.2⟩

theorem graphWF_empty (α : Type) : GraphWF (Graph.empty α) := by
  refine ⟨by simp [NodupIds, idsOf, Graph.empty], ?_, ?_⟩
  · intro c hc
    cases hc
  · intro c hc
    cases hc

/-! ### Row-level shape of `processConnection` -/

theorem processConnection_skip [Inhabited α] (mkR : ConnectionRow → α) (g : Graph α)
    (r : ConnectionRow) (h : missingList g r ≠ []) :
    processConnection mkR g r = (g, missingList g r) := by
  unfold processConnection
  cases m : missingList g r with
  | nil => exact absurd m h
  | cons w t =>
      rw [if_neg (by simp)]

theorem processConnection_body [Inhabited α] (mkR : ConnectionRow → α) (g : Graph α)
    (r : ConnectionRow) (hm : missingList g r = []) (ht : r.connection_type ≠ "contains") :
    processConnection mkR g r =
      (let g1 := add_node g r.ID (mkR r)
       let g2 := match r.node_id1 with
         | some p => add_edge (add_edge g1 p r.ID .neighborRole) r.ID p .neighborRole
         | none => g1
       let g3 := match r.node_id2 with
         | some p => add_edge (add_edge g2 r.ID p .neighborRole) p r.ID .neighborRole
         | none => g2
       let g4 := match r.node_id3 with
         | some p => add_edge (add_edge g3 r.ID p .neighborRole) p r.ID .neighborRole
         | none => g3
       (g4, [])) := by
  unfold processConnection
  rw [hm, if_pos (by rfl), if_neg ht]

theorem processConnection_contains [Inhabited α] (mkR : ConnectionRow → α) (g : Graph α)
    (r : ConnectionRow) (a b : String) (hm : missingList g r = [])
    (ht : r.connection_type = "contains") (h1 : r.node_id1 = some a)
    (h2 : r.node_id2 = some b) :
    processConnection mkR g r = (add_edge g a b (.containsRel r.ID), []) := by
  unfold processConnection
  rw [hm, if_pos (by rfl), if_pos ht, h1, h2]

theorem processConnection_contains_degenerate [Inhabited α] (mkR : ConnectionRow → α)
    (g : Graph α) (r : ConnectionRow) (hm : missingList g r = [])
    (ht : r.connection_type = "contains")
    (hor : r.node_id1 = none ∨ r.node_id2 = none) :
    processConnection mkR g r = (g, []) := by
  unfold processConnection
  rw [hm, if_pos (by rfl), if_pos ht]
  rcases hor with h1 | h2
  · rw [h1]
  · rw [h2]
    cases h1 : r.node_id1 <;> rfl

theorem processConnection_reified [Inhabited α] (mkR : ConnectionRow → α) (g : Graph α)
    (r : ConnectionRow) (hm : missingList g r = [])
    (ht : r.connection_type ≠ "contains")
    (hne : ∀ p ∈ refIds r, p ≠ r.ID) :
    processConnection mkR g r =
      (reifyEdges r.ID (add_node g r.ID (mkR r)) (refIds r), []) := by
  have hpres : ∀ p ∈ refIds r, hasNode g p = true := (missingList_eq_nil_iff g r).mp hm
  have hcid1 : hasNode (add_node g r.ID (mkR r)) r.ID = true := by
    rw [hasNode_add_node]
    simp
  rw [processConnection_body mkR g r hm ht]
  cases h1 : r.node_id1 with
  | none =>
      cases h2 : r.node_id2 with
      | none =>
          cases h3 : r.node_id3 with
          | none =>
              have hr : refIds r = [] := by simp [refIds, h1, h2, h3]
              rw [hr]
              rfl
          | some p3 =>
              have hr : refIds r = [p3] := by simp [refIds, h1, h2, h3]
              have hmem : p3 ∈ refIds r := by rw [hr]; simp
              have hp : hasNode (add_node g r.ID (mkR r)) p3 = true :=
                hasNode_mono_add_node _ _ _ _ (hpres _ hmem)
              rw [hr]
              simp only [reifyEdges, List.foldl_cons, List.foldl_nil]
              rw [add_edge_swap _ _ _ _ (fun he => hne _ hmem he.symm) hcid1 hp]
      | some p2 =>
          have hmem2 : p2 ∈ refIds r := by simp [refIds, h1, h2]
          have hp2 : hasNode (add_node g r.ID (mkR r)) p2 = true :=
            hasNode_mono_add_node _ _ _ _ (hpres _ hmem2)
          cases h3 : r.node_id3 with
          | none =>
              have hr : refIds r = [p2] := by simp [refIds, h1, h2, h3]
              rw [hr]
              simp only [reifyEdges, List.foldl_cons, List.foldl_nil]
              rw [add_edge_swap _ _ _ _ (fun he => hne _ hmem2 he.symm) hcid1 hp2]
          | some p3 =>
              have hr : refIds r = [p2, p3] := by simp [refIds, h1, h2, h3]
              have hmem3 : p3 ∈ refIds r := by rw [hr]; simp
              have hp3 : hasNode (add_node g r.ID (mkR r)) p3 = true :=
                hasNode_mono_add_node _ _ _ _ (hpres _ hmem3)
              rw [hr]
              simp only [reifyEdges, List.foldl_cons, List.foldl_nil]
              rw [add_edge_swap _ _ _ _ (fun he => hne _ hmem2 he.symm) hcid1 hp2]
              rw [add_edge_swap _ _ _ _ (fun he => hne _ hmem3 he.symm)
                (by rw [hasNode_add_edge2, hcid1]; rfl)
                (by rw [hasNode_add_edge2, hp3]; rfl)]
  | some p1 =>
      have hmem1 : p1 ∈ refIds r := by simp [refIds, h1]
      have hp1 : hasNode (add_node g r.ID (mkR r)) p1 = true :=
        hasNode_mono_add_node _ _ _ _ (hpres _ hmem1)
      cases h2 : r.node_id2 with
      | none =>
          cases h3 : r.node_id3 with
          | none =>
              have hr : refIds r = [p1] := by simp [refIds, h1, h2, h3]
              rw [hr]
              rfl
          | some p3 =>
              have hr : refIds r = [p1, p3] := by simp [refIds, h1, h2, h3]
              have hmem3 : p3 ∈ refIds r := by rw [hr]; simp
              have hp3 : hasNode (add_node g r.ID (mkR r)) p3 = true :=
                hasNode_mono_add_node _ _ _ _ (hpres _ hmem3)
              rw [hr]
              simp only [reifyEdges, List.foldl_cons, List.foldl_nil]
              rw [add_edge_swap _ _ _ _ (fun he => hne _ hmem3 he.symm)
                (by rw [hasNode_add_edge2, hcid1]; rfl)
                (by rw [hasNode_add_edge2, hp3]; rfl)]
      | some p2 =>
          have hmem2 : p2 ∈ refIds r := by simp [refIds, h1, h2]
          have hp2 : hasNode (add_node g r.ID (mkR r)) p2 = true :=
            hasNode_mono_add_node _ _ _ _ (hpres _ hmem2)
          cases h3 : r.node_id3 with
          | none =>
              have hr : refIds r = [p1, p2] := by simp [refIds, h1, h2, h3]
              rw [hr]
              simp only [reifyEdges, List.foldl_cons, List.foldl_nil]
              rw [add_edge_swap _ _ _ _ (fun he => hne _ hmem2 he.symm)
                (by rw [hasNode_add_edge2, hcid1]; rfl)
                (by rw [hasNode_add_edge2, hp2]; rfl)]
          | some p3 =>
              have hr : refIds r = [p1, p2, p3] := by simp [refIds, h1, h2, h3]
              have hmem3 : p3 ∈ refIds r := by rw [hr]; simp
              have hp3 : hasNode (add_node g r.ID (mkR r)) p3 = true :=
                hasNode_mono_add_node _ _ _ _ (hpres _ hmem3)
              rw [hr]
              simp only [reifyEdges, List.foldl_cons, List.foldl_nil]
              rw [add_edge_swap _ _ _ _ (fun he => hne _ hmem2 he.symm)
                (by rw [hasNode_add_edge2, hcid1]; rfl)
                (by rw [hasNode_add_edge2, hp2]; rfl)]
              rw [add_edge_swap _ _ _ _ (fun he => hne _ hmem3 he.symm)
                (by rw [hasNode_add_edge2, hasNode_add_edge2, hcid1]; rfl)
                (by rw [hasNode_add_edge2, hasNode_add_edge2, hp3]; rfl)]

/-! ### Facts about `reifyEdges` -/

theorem reifyEdges_cons [Inhabited α] (cid : String) (g : Graph α) (p : String)
    (ps : List String) :
    reifyEdges cid g (p :: ps) =
      reifyEdges cid (add_edge (add_edge g p cid .neighborRole) cid p .neighborRole) ps :=
  rfl

theorem hasNode_pair_mono [Inhabited α] (g : Graph α) (u1 v1 u2 v2 : String)
    (a : EdgeAttrs) (x : String) (hx : hasNode g x = true) :
    hasNode (add_edge (add_edge g u1 v1 a) u2 v2 a) x = true := by
  rw [hasNode_add_edge2, hx]
  rfl

theorem hasNode_reifyEdges_eq [Inhabited α] (cid : String) (g : Graph α)
    (ps : List String) (x : String) (hcid : hasNode g cid = true)
    (hps : ∀ p ∈ ps, hasNode g p = true) :
    hasNode (reifyEdges cid g ps) x = hasNode g x := by
  induction ps generalizing g with
  | nil => rfl
  | cons p t ih =>
      have hstep : ∀ y,
          hasNode (add_edge (add_edge g p cid .neighborRole) cid p .neighborRole) y =
            hasNode g y := by
        intro y
        rw [hasNode_add_edge2]
        by_cases hy : hasNode g y = true
        · rw [hy]
          rfl
        · rw [Bool.not_eq_true] at hy
          have hyp : y ≠ p := fun he => by
            rw [he, hps p (List.mem_cons_self _ _)] at hy
            cases hy
          have hyc : y ≠ cid := fun he => by
            rw [he, hcid] at hy
            cases hy
          simp [hy, hyp, hyc]
      rw [reifyEdges_cons, ih _ (by rw [hstep]; exact hcid)
        (fun q hq => by rw [hstep]; exact hps q (List.mem_cons_of_mem _ hq)), hstep]

theorem getNode_reifyEdges_pres [Inhabited α] (cid : String) (g : Graph α)
    (ps : List String) (x : String) (hx : hasNode g x = true) :
    getNode (reifyEdges cid g ps) x = getNode g x := by
  induction ps generalizing g with
  | nil => rfl
  | cons p t ih =>
      rw [reifyEdges_cons, ih _ (hasNode_pair_mono _ _ _ _ _ _ _ hx),
        getNode_add_edge2 _ _ _ _ _ _ _ hx]

theorem outOf_reifyEdges_cid [Inhabited α] (cid : String) (g : Graph α)
    (ps : List String) (hne : ∀ p ∈ ps, p ≠ cid) :
    outOf (reifyEdges cid g ps) cid =
      ps.foldl (fun l p => upsert l p .neighborRole) (outOf g cid) := by
  induction ps generalizing g with
  | nil => rfl
  | cons p t ih =>
      rw [reifyEdges_cons, ih _ (fun q hq => hne q (List.mem_cons_of_mem _ hq))]
      rw [outOf_pairA _ _ _ (hne p (List.mem_cons_self _ _)), if_pos rfl]
      rfl

theorem outOf_reifyEdges_not_mem [Inhabited α] (cid : String) (g : Graph α)
    (ps : List String) (x : String) (hx1 : x ∉ ps) (hx2 : x ≠ cid)
    (hne : ∀ p ∈ ps, p ≠ cid) :
    outOf (reifyEdges cid g ps) x = outOf g x := by
  induction ps generalizing g with
  | nil => rfl
  | cons p t ih =>
      have hxp : x ≠ p := fun he => hx1 (he ▸ List.mem_cons_self _ _)
      rw [reifyEdges_cons,
        ih _ (fun hm => hx1 (List.mem_cons_of_mem _ hm))
          (fun q hq => hne q (List.mem_cons_of_mem _ hq))]
      rw [outOf_pairA _ _ _ (hne p (List.mem_cons_self _ _)), if_neg hx2, if_neg hxp]

theorem mem_outOf_reifyEdges_mem [Inhabited α] (cid : String) (g : Graph α)
    (ps : List String) (q : String) (hne : ∀ p ∈ ps, p ≠ cid) (hq : q ∈ ps) :
    (cid, EdgeAttrs.neighborRole) ∈ outOf (reifyEdges cid g ps) q := by
  induction ps generalizing g with
  | nil => cases hq
  | cons p t ih =>
      rw [reifyEdges_cons]
      by_cases hqt : q ∈ t
      · exact ih _ (fun z hz => hne z (List.mem_cons_of_mem _ hz)) hqt
      · have hqp : q = p := by
          rcases List.mem_cons.mp hq with he | hm
          · exact he
          · exact absurd hm hqt
        subst hqp
        rw [outOf_reifyEdges_not_mem _ _ _ _ hqt (hne q (List.mem_cons_self _ _))
          (fun z hz => hne z (List.mem_cons_of_mem _ hz))]
        rw [outOf_pairA _ _ _ (hne q (List.mem_cons_self _ _)),
          if_neg (hne q (List.mem_cons_self _ _)), if_pos rfl]
        exact upsert_self_mem _ _ _

theorem mem_outOf_reifyEdges_pres [Inhabited α] (cid : String) (g : Graph α)
    (ps : List String) (x : String) (q : String × EdgeAttrs)
    (hne : ∀ p ∈ ps, p ≠ cid) (hx : x ≠ cid) (hqk : q.1 ≠ cid)
    (hq : q ∈ outOf g x) : q ∈ outOf (reifyEdges cid g ps) x := by
  induction ps generalizing g with
  | nil => exact hq
  | cons p t ih =>
      rw [reifyEdges_cons]
      apply ih _ (fun z hz => hne z (List.mem_cons_of_mem _ hz))
      rw [outOf_pairA _ _ _ (hne p (List.mem_cons_self _ _)), if_neg hx]
      by_cases hxp : x = p
      · rw [if_pos hxp]
        subst hxp
        exact mem_upsert_of_key_ne _ _ _ _ hq hqk
      · rw [if_neg hxp]
        exact hq

theorem mem_outOf_reifyEdges_cases [Inhabited α] (cid : String) (g : Graph α)
    (ps : List String) (x : String) (q : String × EdgeAttrs)
    (hne : ∀ p ∈ ps, p ≠ cid)
    (hq : q ∈ outOf (reifyEdges cid g ps) x) :
    q ∈ outOf g x ∨ q.1 = cid ∨ q.1 ∈ ps := by
  induction ps generalizing g with
  | nil => exact Or.inl hq
  | cons p t ih =>
      rw [reifyEdges_cons] at hq
      rcases ih _ (fun z hz => hne z (List.mem_cons_of_mem _ hz)) hq with h1 | h2 | h3
      · rw [outOf_pairA _ _ _ (hne p (List.mem_cons_self _ _))] at h1
        by_cases hx : x = cid
        · rw [if_pos hx] at h1
          rcases mem_upsert_cases _ _ _ _ h1 with hm | he
          · exact Or.inl (hx ▸ hm)
          · exact Or.inr (Or.inr (by rw [he]; exact List.mem_cons_self _ _))
        · rw [if_neg hx] at h1
          by_cases hxp : x = p
          · rw [if_pos hxp] at h1
            rcases mem_upsert_cases _ _ _ _ h1 with hm | he
            · exact Or.inl (hxp ▸ hm)
            · exact Or.inr (Or.inl (by rw [he]))
          · rw [if_neg hxp] at h1
            exact Or.inl h1
      · exact Or.inr (Or.inl h2)
      · exact Or.inr (Or.inr (List.mem_cons_of_mem _ h3))

theorem graphWF_reifyEdges [Inhabited α] (cid : String) (g : Graph α) (ps : List String)
    (h : GraphWF g) : GraphWF (reifyEdges cid g ps) := by
  induction ps generalizing g with
  | nil => exact h
  | cons p t ih =>
      rw [reifyEdges_cons]
      exact ih _ (graphWF_add_edge _ _ _ _ (graphWF_add_edge _ _ _ _ h))

/-! ### Row-level preservation lemmas -/

theorem hasNode_processConnection_mono [Inhabited α] (mkR : ConnectionRow → α)
    (g : Graph α) (r : ConnectionRow) (x : String)
    (hne : ∀ p ∈ refIds r, p ≠ r.ID) (hx : hasNode g x = true) :
    hasNode (processConnection mkR g r).1 x = true := by
  by_cases hm : missingList g r = []
  · by_cases ht : r.connection_type = "contains"
    · cases h1 : r.node_id1 with
      | none =>
          rw [processConnection_contains_degenerate mkR g r hm ht (Or.inl h1)]
          exact hx
      | some a =>
          cases h2 : r.node_id2 with
          | none =>
              rw [processConnection_contains_degenerate mkR g r hm ht (Or.inr h2)]
              exact hx
          | some b =>
              rw [processConnection_contains mkR g r a b hm ht h1 h2]
              exact hasNode_mono_add_edge _ _ _ _ _ hx
    · have hpres : ∀ p ∈ refIds r, hasNode g p = true := (missingList_eq_nil_iff g r).mp hm
      rw [processConnection_reified mkR g r hm ht hne]
      show hasNode (reifyEdges r.ID (add_node g r.ID (mkR r)) (refIds r)) x = true
      rw [hasNode_reifyEdges_eq _ _ _ _ (by rw [hasNode_add_node]; simp)
        (fun p hp => hasNode_mono_add_node _ _ _ _ (hpres p hp))]
      exact hasNode_mono_add_node _ _ _ _ hx
  · rw [processConnection_skip mkR g r hm]
    exact hx

theorem processConnection_getNode_pres [Inhabited α] (mkR : ConnectionRow → α)
    (g : Graph α) (r : ConnectionRow) (x : String) (hx : hasNode g x = true)
    (hne : ∀ p ∈ refIds r, p ≠ r.ID)
    (hid : r.connection_type = "contains" ∨ r.ID ≠ x) :
    getNode (processConnection mkR g r).1 x = getNode g x := by
  by_cases hm : missingList g r = []
  · by_cases ht : r.connection_type = "contains"
    · cases h1 : r.node_id1 with
      | none =>
          rw [processConnection_contains_degenerate mkR g r hm ht (Or.inl h1)]
      | some a =>
          cases h2 : r.node_id2 with
          | none =>
              rw [processConnection_contains_degenerate mkR g r hm ht (Or.inr h2)]
          | some b =>
              rw [processConnection_contains mkR g r a b hm ht h1 h2]
              exact getNode_add_edge _ _ _ _ _ hx
    · have hnid : ¬ (x = r.ID) := fun he => (hid.resolve_left ht) he.symm
      rw [processConnection_reified mkR g r hm ht hne]
      show getNode (reifyEdges r.ID (add_node g r.ID (mkR r)) (refIds r)) x = _
      rw [getNode_reifyEdges_pres _ _ _ _ (hasNode_mono_add_node _ _ _ _ hx),
        getNode_add_node, if_neg hnid]
  · rw [processConnection_skip mkR g r hm]

theorem processConnection_hasNode_char [Inhabited α] (mkR : ConnectionRow → α)
    (g : Graph α) (r : ConnectionRow) (x : String)
    (hm : missingList g r = []) (hne : ∀ p ∈ refIds r, p ≠ r.ID) :
    hasNode (processConnection mkR g r).1 x =
      (hasNode g x || (decide (r.connection_type ≠ "contains") && decide (x = r.ID))) := by
  have hpres : ∀ p ∈ refIds r, hasNode g p = true := (missingList_eq_nil_iff g r).mp hm
  by_cases hhx : hasNode g x = true
  · rw [hhx, hasNode_processConnection_mono mkR g r x hne hhx]
    rfl
  · rw [Bool.not_eq_true] at hhx
    rw [hhx]
    by_cases ht : r.connection_type = "contains"
    · have htd : decide (r.connection_type ≠ "contains") = false := by
        simp [ht]
      rw [htd]
      cases h1 : r.node_id1 with
      | none =>
          rw [processConnection_contains_degenerate mkR g r hm ht (Or.inl h1), hhx]
          rfl
      | some a =>
          cases h2 : r.node_id2 with
          | none =>
              rw [processConnection_contains_degenerate mkR g r hm ht (Or.inr h2), hhx]
              rfl
          | some b =>
              rw [processConnection_contains mkR g r a b hm ht h1 h2]
              have hna : ¬ (x = a) := fun he => by
                rw [he, hpres a (by simp [refIds, h1])] at hhx
                cases hhx
              have hnb : ¬ (x = b) := fun he => by
                rw [he, hpres b (by simp [refIds, h1, h2])] at hhx
                cases hhx
              rw [hasNode_add_edge, hhx]
              simp [hna, hnb]
    · have htd : decide (r.connection_type ≠ "contains") = true := by
        simp [ht]
      rw [htd]
      rw [processConnection_reified mkR g r hm ht hne]
      have hcid1 : hasNode (add_node g r.ID (mkR r)) r.ID = true := by
        rw [hasNode_add_node]
        simp
      have hps1 : ∀ p ∈ refIds r, hasNode (add_node g r.ID (mkR r)) p = true :=
        fun p hp => hasNode_mono_add_node _ _ _ _ (hpres p hp)
      show hasNode (reifyEdges r.ID (add_node g r.ID (mkR r)) (refIds r)) x = _
      rw [hasNode_reifyEdges_eq _ _ _ _ hcid1 hps1, hasNode_add_node, hhx]
      simp
  
theorem processConnection_outOf_pres [Inhabited α] (mkR : ConnectionRow → α)
    (g : Graph α) (r : ConnectionRow) (x : String)
    (hm : missingList g r = []) (hne : ∀ p ∈ refIds r, p ≠ r.ID)
    (hx1 : x ∉ refIds r) (hx2 : x ≠ r.ID) :
    outOf (processConnection mkR g r).1 x = outOf g x := by
  by_cases ht : r.connection_type = "contains"
  · cases h1 : r.node_id1 with
    | none => rw [processConnection_contains_degenerate mkR g r hm ht (Or.inl h1)]
    | some a =>
        cases h2 : r.node_id2 with
        | none => rw [processConnection_contains_degenerate mkR g r hm ht (Or.inr h2)]
        | some b =>
            rw [processConnection_contains mkR g r a b hm ht h1 h2]
            rw [outOf_add_edge, if_neg (fun he => hx1 (by rw [he]; simp [refIds, h1]))]
  · rw [processConnection_reified mkR g r hm ht hne]
    show outOf (reifyEdges r.ID (add_node g r.ID (mkR r)) (refIds r)) x = _
    rw [outOf_reifyEdges_not_mem _ _ _ _ hx1 hx2 hne, outOf_add_node]

theorem processConnection_mem_out_pres [Inhabited α] (mkR : ConnectionRow → α)
    (g : Graph α) (r : ConnectionRow) (x : String) (q : String × EdgeAttrs)
    (hm : missingList g r = []) (hne : ∀ p ∈ refIds r, p ≠ r.ID)
    (hqk1 : q.1 ≠ r.ID) (hqk2 : q.1 ∉ refIds r) (hx : x ≠ r.ID)
    (hq : q ∈ outOf g x) : q ∈ outOf (processConnection mkR g r).1 x := by
  by_cases ht : r.connection_type = "contains"
  · cases h1 : r.node_id1 with
    | none =>
        rw [processConnection_contains_degenerate mkR g r hm ht (Or.inl h1)]
        exact hq
    | some a =>
        cases h2 : r.node_id2 with
        | none =>
            rw [processConnection_contains_degenerate mkR g r hm ht (Or.inr h2)]
            exact hq
        | some b =>
            rw [processConnection_contains mkR g r a b hm ht h1 h2]
            rw [outOf_add_edge]
            by_cases hxa : x = a
            · rw [if_pos hxa]
              subst hxa
              exact mem_upsert_of_key_ne _ _ _ _ hq
                (fun he => hqk2 (by rw [he]; simp [refIds, h1, h2]))
            · rw [if_neg hxa]
              exact hq
  · rw [processConnection_reified mkR g r hm ht hne]
    show q ∈ outOf (reifyEdges r.ID (add_node g r.ID (mkR r)) (refIds r)) x
    apply mem_outOf_reifyEdges_pres _ _ _ _ _ hne hx hqk1
    rw [outOf_add_node]
    exact hq

theorem processConnection_mem_out_cases [Inhabited α] (mkR : ConnectionRow → α)
    (g : Graph α) (r : ConnectionRow) (x : String) (q : String × EdgeAttrs)
    (hm : missingList g r = []) (hne : ∀ p ∈ refIds r, p ≠ r.ID)
    (hq : q ∈ outOf (processConnection mkR g r).1 x) :
    q ∈ outOf g x ∨ q.1 = r.ID ∨ q.1 ∈ refIds r := by
  by_cases ht : r.connection_type = "contains"
  · cases h1 : r.node_id1 with
    | none =>
        rw [processConnection_contains_degenerate mkR g r hm ht (Or.inl h1)] at hq
        exact Or.inl hq
    | some a =>
        cases h2 : r.node_id2 with
        | none =>
            rw [processConnection_contains_degenerate mkR g r hm ht (Or.inr h2)] at hq
            exact Or.inl hq
        | some b =>
            rw [processConnection_contains mkR g r a b hm ht h1 h2] at hq
            rw [outOf_add_edge] at hq
            by_cases hxa : x = a
            · rw [if_pos hxa] at hq
              rcases mem_upsert_cases _ _ _ _ hq with hh | hh
              · exact Or.inl (by rw [hxa]; exact hh)
              · exact Or.inr (Or.inr (by rw [hh]; simp [refIds, h1, h2]))
            · rw [if_neg hxa] at hq
              exact Or.inl hq
  · rw [processConnection_reified mkR g r hm ht hne] at hq
    have hq2 : q ∈ outOf (reifyEdges r.ID (add_node g r.ID (mkR r)) (refIds r)) x := hq
    rcases mem_outOf_reifyEdges_cases _ _ _ _ _ hne hq2 with h1 | h2 | h3
    · rw [outOf_add_node] at h1
      exact Or.inl h1
    · exact Or.inr (Or.inl h2)
    · exact Or.inr (Or.inr h3)

theorem graphWF_processConnection [Inhabited α] (mkR : ConnectionRow → α)
    (g : Graph α) (r : ConnectionRow) (hne : ∀ p ∈ refIds r, p ≠ r.ID)
    (h : GraphWF g) : GraphWF (processConnection mkR g r).1 := by
  by_cases hm : missingList g r = []
  · by_cases ht : r.connection_type = "contains"
    · cases h1 : r.node_id1 with
      | none =>
          rw [processConnection_contains_degenerate mkR g r hm ht (Or.inl h1)]
          exact h
      | some a =>
          cases h2 : r.node_id2 with
          | none =>
              rw [processConnection_contains_degenerate mkR g r hm ht (Or.inr h2)]
              exact h
          | some b =>
              rw [processConnection_contains mkR g r a b hm ht h1 h2]
              exact graphWF_add_edge _ _ _ _ h
    · rw [processConnection_reified mkR g r hm ht hne]
      exact graphWF_reifyEdges _ _ _ (graphWF_add_node _ _ _ h)
  · rw [processConnection_skip mkR g r hm]
    exact h

/-! ### Decomposition of `processAll` -/

theorem processAll_acc [Inhabited α] (mkR : ConnectionRow → α) (rs : List ConnectionRow) :
    ∀ (g : Graph α) (w : List Warning),
    rs.foldl (fun gw r =>
        let p := processConnection mkR gw.1 r
        (p.1, gw.2 ++ p.2)) (g, w)
      = ((processAll mkR g rs).1, w ++ (processAll mkR g rs).2) := by
  induction rs with
  | nil =>
      intro g w
      simp [processAll]
  | cons r t ih =>
      intro g w
      show t.foldl _ ((processConnection mkR g r).1, w ++ (processConnection mkR g r).2) = _
      rw [ih]
      have h2 : processAll mkR g (r :: t) =
          ((processAll mkR (processConnection mkR g r).1 t).1,
            (processConnection mkR g r).2 ++
              (processAll mkR (processConnection mkR g r).1 t).2) := by
        show t.foldl _ ((processConnection mkR g r).1, [] ++ (processConnection mkR g r).2) = _
        rw [List.nil_append, ih]
      rw [h2]
      simp

theorem processAll_cons [Inhabited α] (mkR : ConnectionRow → α) (g : Graph α)
    (r : ConnectionRow) (t : List ConnectionRow) :
    processAll mkR g (r :: t) =
      ((processAll mkR (processConnection mkR g r).1 t).1,
        (processConnection mkR g r).2 ++
          (processAll mkR (processConnection mkR g r).1 t).2) := by
  show t.foldl _ ((processConnection mkR g r).1, [] ++ (processConnection mkR g r).2) = _
  rw [List.nil_append, processAll_acc]

theorem processAll_append [Inhabited α] (mkR : ConnectionRow → α) (g : Graph α)
    (xs ys : List ConnectionRow) :
    processAll mkR g (xs ++ ys) =
      ((processAll mkR (processAll mkR g xs).1 ys).1,
        (processAll mkR g xs).2 ++ (processAll mkR (processAll mkR g xs).1 ys).2) := by
  induction xs generalizing g with
  | nil =>
      simp [processAll]
  | cons r t ih =>
      rw [List.cons_append, processAll_cons, ih, processAll_cons]
      simp

theorem rowOK_of [Inhabited α] (g : Graph α) (r' : ConnectionRow) (cs : List ConceptRow)
    (hcp : ∀ x ∈ conceptIds cs, hasNode g x = true)
    (hrefs : ∀ p ∈ refIds r', p ∈ conceptIds cs)
    (hid : r'.ID ∉ conceptIds cs) :
    missingList g r' = [] ∧ (∀ p ∈ refIds r', p ≠ r'.ID) :=
  ⟨(missingList_eq_nil_iff g r').mpr (fun p hp => hcp p (hrefs p hp)),
   fun p hp he => hid (he ▸ hrefs p hp)⟩

/-! ### Claim C2: skip on missing reference -/

theorem missingList_ne_nil_of_absent (g : Graph α) (r : ConnectionRow)
    (h : ∃ p ∈ refIds r, hasNode g p = false) : missingList g r ≠ [] := by
  intro hnil
  rcases h with ⟨p, hp, hf⟩
  have := (missingList_eq_nil_iff g r).mp hnil p hp
  rw [this] at hf
  cases hf

/-- Claim C2: a connection row in which some non-missing referenced
identifier does not name a node present in the store (at its processing
time) leaves the store unchanged, contributes exactly its
missing-reference warnings — each naming the row's connection
identifier — and the rows after it are processed exactly as if the
offending row were not there (the anomaly is non-fatal). -/
theorem C2_skip_on_missing (cs : List ConceptRow) (pre post : List ConnectionRow)
    (r : ConnectionRow)
    (habs : ∃ p ∈ refIds r, hasNode (create_knowledge_graph cs pre).1 p = false) :
    (create_knowledge_graph cs (pre ++ r :: post)).1 =
      (create_knowledge_graph cs (pre ++ post)).1 ∧
    (create_knowledge_graph cs (pre ++ r :: post)).2 =
      (create_knowledge_graph cs pre).2 ++
        missingList (create_knowledge_graph cs pre).1 r ++
        (processAll mkReifiedAttrs (create_knowledge_graph cs pre).1 post).2 ∧
    (create_knowledge_graph cs (pre ++ post)).2 =
      (create_knowledge_graph cs pre).2 ++
        (processAll mkReifiedAttrs (create_knowledge_graph cs pre).1 post).2 ∧
    missingList (create_knowledge_graph cs pre).1 r ≠ [] ∧
    (∀ w ∈ missingList (create_knowledge_graph cs pre).1 r, w.connection_id = r.ID) := by
  have hne := missingList_ne_nil_of_absent _ _ habs
  unfold create_knowledge_graph at *
  rw [processAll_append, processAll_append, processAll_cons,
    processConnection_skip _ _ _ hne]
  refine ⟨rfl, ?_, rfl, hne, ?_⟩
  · simp
  · intro w hw
    unfold missingList at hw
    rcases List.mem_map.mp hw with ⟨nid, _, he⟩
    rw [← he]

/-- Witness for C2 on the spec's worked example: a `related` row
referencing the undefined node `Z`. -/
theorem C2_skip_on_missing_witness :
    (create_knowledge_graph
        [⟨some "A", "Alpha", "1"⟩, ⟨some "B", "Beta", "2"⟩]
        ([] ++ (⟨"9", "related", some "A", some "Z", none⟩ : ConnectionRow) ::
          [⟨"1", "related", some "A", some "B", none⟩])).1 =
      (create_knowledge_graph
        [⟨some "A", "Alpha", "1"⟩, ⟨some "B", "Beta", "2"⟩]
        ([] ++ [⟨"1", "related", some "A", some "B", none⟩])).1 ∧
    (∀ w ∈ missingList
        (create_knowledge_graph [⟨some "A", "Alpha", "1"⟩, ⟨some "B", "Beta", "2"⟩] []).1
        (⟨"9", "related", some "A", some "Z", none⟩ : ConnectionRow),
      w.connection_id = "9") := by
  have h := C2_skip_on_missing
    [⟨some "A", "Alpha", "1"⟩, ⟨some "B", "Beta", "2"⟩]
    [] [⟨"1", "related", some "A", some "B", none⟩]
    ⟨"9", "related", some "A", some "Z", none⟩
    ⟨"Z", by decide, by decide⟩
  exact ⟨h.1, h.2.2.2.2⟩

/-! ### Claim C10: degenerate contains rows are skipped silently -/

/-- Claim C10: a `contains` connection row whose `node_id1` or
`node_id2` is missing — while every non-missing referenced identifier
exists in the store — adds no node and no edge and emits no warning:
the build result is identical to the one without the row. -/
theorem C10_degenerate_contains_silent (cs : List ConceptRow)
    (pre post : List ConnectionRow) (r : ConnectionRow)
    (ht : r.connection_type = "contains")
    (hdeg : r.node_id1 = none ∨ r.node_id2 = none)
    (hpres : ∀ p ∈ refIds r, hasNode (create_knowledge_graph cs pre).1 p = true) :
    create_knowledge_graph cs (pre ++ r :: post) =
      create_knowledge_graph cs (pre ++ post) := by
  have hm : missingList (create_knowledge_graph cs pre).1 r = [] :=
    (missingList_eq_nil_iff _ _).mpr hpres
  unfold create_knowledge_graph at *
  rw [processAll_append, processAll_append, processAll_cons,
    processConnection_contains_degenerate _ _ _ hm ht hdeg]
  simp

/-- Witness for C10: a `contains` row with a missing `node_id2` whose
present references (`A`, and `B` in `node_id3`) exist. -/
theorem C10_degenerate_contains_silent_witness :
    create_knowledge_graph
        [⟨some "A", "Alpha", "1"⟩, ⟨some "B", "Beta", "2"⟩]
        ([] ++ (⟨"7", "contains", some "A", none, some "B"⟩ : ConnectionRow) ::
          [⟨"1", "related", some "A", some "B", none⟩]) =
      create_knowledge_graph
        [⟨some "A", "Alpha", "1"⟩, ⟨some "B", "Beta", "2"⟩]
        ([] ++ [⟨"1", "related", some "A", some "B", none⟩]) :=
  C10_degenerate_contains_silent
    [⟨some "A", "Alpha", "1"⟩, ⟨some "B", "Beta", "2"⟩]
    [] [⟨"1", "related", some "A", some "B", none⟩]
    ⟨"7", "contains", some "A", none, some "B"⟩
    (by decide) (Or.inr (by decide)) (by decide)

/-! ### Claim C9: query boundary of `explore_node` -/

/-- Claim C9: exploring an identifier absent from the store is reported
as `notFound` — no exception escapes and, the function being a pure
read, the store is untouched — and every failure raised while
inspecting node attributes inside the body is caught at the query
boundary and reported as a `failed` message naming the offending
identifier. -/
theorem C9_explore_node_boundary (g : Graph NodeAttrs) (i : String) :
    (hasNode g i = false → explore_node g i = .notFound i) ∧
    (∀ j m, explore_node g i = .failed j m → j = i) := by
  constructor
  · intro h
    unfold explore_node
    rw [h]
    rfl
  · intro j m h
    unfold explore_node at h
    by_cases hh : hasNode g i = true
    · rw [if_pos hh] at h
      cases hb : exploreBody g i with
      | ok r =>
          rw [hb] at h
          cases h
      | error e =>
          rw [hb] at h
          cases h
          rfl
    · rw [if_neg hh] at h
      cases h

/-- Witness for C9 on a node identifier absent from a one-concept
store. -/
theorem C9_explore_node_boundary_witness :
    (hasNode (create_knowledge_graph [⟨some "A", "Alpha", "1"⟩] []).1 "Z" = false →
      explore_node (create_knowledge_graph [⟨some "A", "Alpha", "1"⟩] []).1 "Z" =
        .notFound "Z") ∧
    (∀ j m,
      explore_node (create_knowledge_graph [⟨some "A", "Alpha", "1"⟩] []).1 "Z" =
        .failed j m → j = "Z") :=
  C9_explore_node_boundary (create_knowledge_graph [⟨some "A", "Alpha", "1"⟩] []).1 "Z"

/-! ### Claim C8: shape of the exported structure -/

theorem keys_updAssoc (m : List (String × β)) (k : String) (f : β → β) :
    (updAssoc m k f).map (fun p => p.1) = m.map (fun p => p.1) := by
  unfold updAssoc
  rw [List.map_map]
  apply List.map_congr_left
  intro p _
  by_cases h : p.1 = k <;> simp [h]

theorem keys_exportEdgeStep (g : Graph NodeAttrs) (m : List (String × ConceptEntry))
    (e : String × String × EdgeAttrs) :
    (exportEdgeStep g m e).map (fun p => p.1) = m.map (fun p => p.1) := by
  rcases e with ⟨s, te⟩
  rcases te with ⟨t, a⟩
  cases a with
  | containsRel c =>
      show (if hasKey m s && hasKey m t then _ else m).map _ = _
      split
      · rw [keys_updAssoc, keys_updAssoc]
      · rfl
  | neighborRole =>
      show (if hasKey m s && hasNode g t then _ else m).map _ = _
      split
      · split
        · rfl
        · rw [keys_updAssoc]
      · rfl

theorem keys_export_fold (g : Graph NodeAttrs) (es : List (String × String × EdgeAttrs)) :
    ∀ m : List (String × ConceptEntry),
    ((es.foldl (exportEdgeStep g) m).map (fun p => p.1)) = m.map (fun p => p.1) := by
  induction es with
  | nil => intro m; rfl
  | cons e t ih =>
      intro m
      show ((t.foldl (exportEdgeStep g) (exportEdgeStep g m e)).map _) = _
      rw [ih, keys_exportEdgeStep]

theorem keys_dedupRelated (m : List (String × ConceptEntry)) :
    (dedupRelated m).map (fun p => p.1) = m.map (fun p => p.1) := by
  unfold dedupRelated
  rw [List.map_map]
  rfl

theorem keys_conceptEntries_aux (l : List (Cell NodeAttrs)) :
    ((l.filterMap (fun c =>
        match c.attrs with
        | .concept n cx => some (c.id, (⟨n, cx, [], [], []⟩ : ConceptEntry))
        | _ => none)).map (fun p => p.1)) =
      l.filterMap (fun c =>
        match c.attrs with
        | .concept _ _ => some c.id
        | _ => none) := by
  induction l with
  | nil => rfl
  | cons c t ih =>
      cases h : c.attrs <;> simp [h, ih]

/-- Claim C8: for every built graph the export has exactly the three
top-level keys modelled by `ExportGraph`: `concepts`, keyed exactly by
the identifiers of the `type='concept'` nodes in store order (so
reified-connection nodes never appear as entries), `relationships`,
always the empty array, and `explanation`, the fixed explanatory
string. -/
theorem C8_export_top_level (g : Graph NodeAttrs) :
    (export_to_json g).relationships = [] ∧
    (export_to_json g).explanation = explanation_text ∧
    (export_to_json g).concepts.map (fun p => p.1) =
      g.cells.filterMap (fun c =>
        match c.attrs with
        | .concept _ _ => some c.id
        | _ => none) := by
  refine ⟨rfl, rfl, ?_⟩
  show (dedupRelated ((edges g).foldl (exportEdgeStep g) (conceptEntries g))).map _ = _
  rw [keys_dedupRelated, keys_export_fold]
  exact keys_conceptEntries_aux g.cells

/-! ### Claim C6: `trace_container_path` -/

theorem trace_step_none (g : Graph α) (n : String) (path : List String)
    (h : (containersOf g n).find? (fun c => !(path.contains c)) = none) :
    trace_container_path g n path = path := by
  rw [trace_container_path.eq_def]
  split
  · rfl
  · next c hsome =>
      rw [h] at hsome
      cases hsome

theorem trace_step_some (g : Graph α) (n : String) (path : List String) (c : String)
    (h : (containersOf g n).find? (fun c => !(path.contains c)) = some c) :
    trace_container_path g n path = trace_container_path g c (path ++ [c]) := by
  rw [trace_container_path.eq_def]
  split
  · next hnone =>
      rw [h] at hnone
      cases hnone
  · next c2 hsome =>
      rw [h] at hsome
      cases hsome
      rfl

theorem trace_spec (g : Graph α) : ∀ (n : String) (path : List String),
    path ≠ [] → path.getLast? = some n →
    (∃ s, trace_container_path g n path = path ++ s) ∧
    (path.Nodup → (trace_container_path g n path).Nodup) ∧
    (∀ pre x y suf, trace_container_path g n path = pre ++ x :: y :: suf →
      path.length ≤ pre.length + 1 →
      (containersOf g x).find? (fun c => !((pre ++ [x]).contains c)) = some y) ∧
    (∀ pre x, trace_container_path g n path = pre ++ [x] →
      (containersOf g x).find?
        (fun c => !((trace_container_path g n path).contains c)) = none) := by
  apply trace_container_path.induct g
  · intro n path h
    intro hnil hlast
    have hstep := trace_step_none g n path h
    rw [hstep]
    refine ⟨⟨[], by simp⟩, fun hd => hd, ?_, ?_⟩
    · intro pre x y suf he hlen
      exfalso
      have : path.length = pre.length + (2 + suf.length) := by
        rw [he]
        simp
        omega
      omega
    · intro pre x he
      have hx : x = n := by
        have h1 : path.getLast? = some x := by
          rw [he]
          simp
        rw [hlast] at h1
        cases h1
        rfl
      rw [hx]
      exact h
  · intro n path c h ih
    intro hnil hlast
    have hcnp : c ∉ path := by
      have hp := List.find?_some h
      simp at hp
      exact hp
    have hstep := trace_step_some g n path c h
    obtain ⟨iha, ihb, ihc, ihd⟩ := ih (by simp) (by simp)
    rw [hstep]
    refine ⟨?_, ?_, ?_, ?_⟩
    · obtain ⟨s, hs⟩ := iha
      exact ⟨c :: s, by rw [hs]; simp⟩
    · intro hd
      apply ihb
      simp [List.nodup_append, hd]
      exact hcnp
    · intro pre x y suf he hlen
      by_cases hcase : path.length ≤ pre.length
      · exact ihc pre x y suf he (by simp; omega)
      · have hlen2 : pre.length + 1 = path.length := by omega
        obtain ⟨s, hs⟩ := iha
        have he2 : (pre ++ [x]) ++ (y :: suf) = path ++ (c :: s) := by
          have h1 : pre ++ x :: y :: suf = (pre ++ [x]) ++ (y :: suf) := by simp
          have h2 : path ++ [c] ++ s = path ++ (c :: s) := by simp
          rw [← h1, ← he, hs, h2]
        have hinj := List.append_inj he2 (by simp [hlen2])
        have hpx : pre ++ [x] = path := hinj.1
        have hy : y = c := by simpa using congrArg List.head? hinj.2
        have hx : x = n := by
          have h1 : (pre ++ [x]).getLast? = some x := by simp
          rw [hpx, hlast] at h1
          cases h1
          rfl
        rw [hpx, hx, hy]
        exact h
    · intro pre x he
      exact ihd pre x he

/-- Claim C6: on every graph — cyclic `contains` data included — and
every starting identifier, `trace_container_path` (a total function,
hence terminating) returns a path of length at least one that begins
with the starting node, repeats no node, follows the
first-unvisited-container policy at every step, and stops only when
the last node has no unvisited container. -/
theorem C6_trace_container_path (g : Graph α) (n : String) :
    trace_container_path g n [n] ≠ [] ∧
    (trace_container_path g n [n]).head? = some n ∧
    1 ≤ (trace_container_path g n [n]).length ∧
    (trace_container_path g n [n]).Nodup ∧
    (∀ pre x y suf, trace_container_path g n [n] = pre ++ x :: y :: suf →
      (containersOf g x).find? (fun c => !((pre ++ [x]).contains c)) = some y) ∧
    (∀ pre x, trace_container_path g n [n] = pre ++ [x] →
      (containersOf g x).find?
        (fun c => !((trace_container_path g n [n]).contains c)) = none) := by
  obtain ⟨⟨s, hs⟩, hnd, hpol, hlast⟩ := trace_spec g n [n] (by simp) (by simp)
  refine ⟨?_, ?_, ?_, hnd (by simp), ?_, hlast⟩
  · rw [hs]
    simp
  · rw [hs]
    simp
  · rw [hs]
    simp
  · intro pre x y suf he
    exact hpol pre x y suf he (by simp)

/-- Witness for C6 on the cyclic store of §8 (`A` contains `B`, `B`
contains `A`): the traced path from `A` is finite, duplicate-free and
starts at `A`. -/
theorem C6_trace_container_path_witness :
    trace_container_path
        (create_knowledge_graph
          [⟨some "A", "Alpha", "1"⟩, ⟨some "B", "Beta", "2"⟩]
          [⟨"1", "contains", some "A", some "B", none⟩,
           ⟨"2", "contains", some "B", some "A", none⟩]).1 "A" ["A"] ≠ [] ∧
    (trace_container_path
        (create_knowledge_graph
          [⟨some "A", "Alpha", "1"⟩, ⟨some "B", "Beta", "2"⟩]
          [⟨"1", "contains", some "A", some "B", none⟩,
           ⟨"2", "contains", some "B", some "A", none⟩]).1 "A" ["A"]).head? = some "A" ∧
    (trace_container_path
        (create_knowledge_graph
          [⟨some "A", "Alpha", "1"⟩, ⟨some "B", "Beta", "2"⟩]
          [⟨"1", "contains", some "A", some "B", none⟩,
           ⟨"2", "contains", some "B", some "A", none⟩]).1 "A" ["A"]).Nodup := by
  have h := C6_trace_container_path
    (create_knowledge_graph
      [⟨some "A", "Alpha", "1"⟩, ⟨some "B", "Beta", "2"⟩]
      [⟨"1", "contains", some "A", some "B", none⟩,
       ⟨"2", "contains", some "B", some "A", none⟩]).1 "A"
  exact ⟨h.1, h.2.1, h.2.2.2.1⟩

/-! ### Build-level preservation lemmas -/

theorem graphWF_addConceptNodes (mkC : ConceptRow → α) (g : Graph α)
    (cs : List ConceptRow) (h : GraphWF g) : GraphWF (addConceptNodes mkC g cs) := by
  induction cs generalizing g with
  | nil => exact h
  | cons c t ih =>
      rw [addConceptNodes_cons]
      cases hc : c.node_id with
      | none => exact ih g h
      | some i => exact ih _ (graphWF_add_node _ _ _ h)

theorem hasNode_processAll_mono [Inhabited α] (mkR : ConnectionRow → α)
    (g : Graph α) (rs : List ConnectionRow) (x : String) :
    (∀ r ∈ rs, ∀ p ∈ refIds r, p ≠ r.ID) → hasNode g x = true →
    hasNode (processAll mkR g rs).1 x = true := by
  induction rs generalizing g with
  | nil =>
      intro _ hx
      exact hx
  | cons r t ih =>
      intro hne hx
      rw [processAll_cons]
      exact ih _ (fun q hq => hne q (List.mem_cons_of_mem _ hq))
        (hasNode_processConnection_mono mkR g r x (hne r (List.mem_cons_self _ _)) hx)

theorem processAll_getNode_pres [Inhabited α] (mkR : ConnectionRow → α)
    (g : Graph α) (rs : List ConnectionRow) (x : String) :
    (∀ r ∈ rs, (∀ p ∈ refIds r, p ≠ r.ID) ∧
      (r.connection_type = "contains" ∨ r.ID ≠ x)) →
    hasNode g x = true →
    getNode (processAll mkR g rs).1 x = getNode g x := by
  induction rs generalizing g with
  | nil =>
      intro _ _
      rfl
  | cons r t ih =>
      intro h hx
      have hr := h r (List.mem_cons_self _ _)
      rw [processAll_cons,
        ih _ (fun q hq => h q (List.mem_cons_of_mem _ hq))
          (hasNode_processConnection_mono mkR g r x hr.1 hx)]
      exact processConnection_getNode_pres mkR g r x hx hr.1 hr.2

theorem graphWF_processAll [Inhabited α] (mkR : ConnectionRow → α)
    (g : Graph α) (rs : List ConnectionRow) :
    (∀ r ∈ rs, ∀ p ∈ refIds r, p ≠ r.ID) → GraphWF g →
    GraphWF (processAll mkR g rs).1 := by
  induction rs generalizing g with
  | nil =>
      intro _ h
      exact h
  | cons r t ih =>
      intro hne h
      rw [processAll_cons]
      exact ih _ (fun q hq => hne q (List.mem_cons_of_mem _ hq))
        (graphWF_processConnection mkR g r (hne r (List.mem_cons_self _ _)) h)

theorem wfInput_row (cs : List ConceptRow) (rs : List ConnectionRow)
    (hwf : WFInput cs rs) (r : ConnectionRow) (hr : r ∈ rs) :
    ∀ p ∈ refIds r, p ≠ r.ID :=
  fun p hp he => hwf.2.1 r hr (he ▸ hwf.2.2 r hr p hp)

theorem hasNode_concepts_of_mem (mkC : ConceptRow → α) (cs : List ConceptRow)
    (x : String) (hx : x ∈ conceptIds cs) :
    hasNode (addConceptNodes mkC (Graph.empty α) cs) x = true :=
  (hasNode_addConceptNodes mkC _ cs x).mpr (Or.inr hx)

theorem processConnection_getNode_cid [Inhabited α] (mkR : ConnectionRow → α)
    (g : Graph α) (r : ConnectionRow) (hm : missingList g r = [])
    (ht : r.connection_type ≠ "contains") (hne : ∀ p ∈ refIds r, p ≠ r.ID) :
    getNode (processConnection mkR g r).1 r.ID = some (mkR r) := by
  rw [processConnection_reified mkR g r hm ht hne]
  show getNode (reifyEdges r.ID (add_node g r.ID (mkR r)) (refIds r)) r.ID = _
  rw [getNode_reifyEdges_pres _ _ _ _ (by rw [hasNode_add_node]; simp),
    getNode_add_node, if_pos rfl]

theorem processConnection_hasNode_cid [Inhabited α] (mkR : ConnectionRow → α)
    (g : Graph α) (r : ConnectionRow) (hm : missingList g r = [])
    (ht : r.connection_type ≠ "contains") (hne : ∀ p ∈ refIds r, p ≠ r.ID) :
    hasNode (processConnection mkR g r).1 r.ID = true := by
  rw [processConnection_hasNode_char mkR g r r.ID hm hne]
  simp [ht]

theorem build_getNode_concept [Inhabited α] (mkC : ConceptRow → α)
    (mkR : ConnectionRow → α) (cs : List ConceptRow) (rs : List ConnectionRow)
    (i : String) (c : ConceptRow) (hwf : WFInput cs rs)
    (hnd : (conceptIds cs).Nodup) (hc : c ∈ cs) (hid : c.node_id = some i) :
    getNode (processAll mkR (addConceptNodes mkC (Graph.empty α) cs) rs).1 i =
      some (mkC c) := by
  have hin : i ∈ conceptIds cs := by
    unfold conceptIds
    exact List.mem_filterMap.mpr ⟨c, hc, hid⟩
  rw [processAll_getNode_pres mkR _ rs i
    (fun r hr => ⟨wfInput_row cs rs hwf r hr,
      Or.inr (fun he => hwf.2.1 r hr (he ▸ hin))⟩)
    (hasNode_concepts_of_mem mkC cs i hin)]
  exact getNode_addConceptNodes_mem mkC _ cs i c hnd hc hid

theorem wf_no_post_id (cs : List ConceptRow) (pre post : List ConnectionRow)
    (r : ConnectionRow) (hwf : WFInput cs (pre ++ r :: post)) :
    ∀ q ∈ post, q.ID ≠ r.ID := by
  have h := hwf.1
  rw [List.map_append, List.map_cons] at h
  have h2 := (List.nodup_append.mp h).2.1
  rw [List.nodup_cons] at h2
  intro q hq he
  exact h2.1 (he ▸ List.mem_map_of_mem _ hq)

theorem build_cpres [Inhabited α] (mkC : ConceptRow → α) (mkR : ConnectionRow → α)
    (cs : List ConceptRow) (rs rs0 : List ConnectionRow)
    (hsub : ∀ r ∈ rs, r ∈ rs0) (hwf : WFInput cs rs0) :
    ∀ x ∈ conceptIds cs,
      hasNode (processAll mkR (addConceptNodes mkC (Graph.empty α) cs) rs).1 x
        = true := by
  intro x hx
  exact hasNode_processAll_mono mkR _ rs x
    (fun q hq => wfInput_row cs rs0 hwf q (hsub q hq))
    (hasNode_concepts_of_mem mkC cs x hx)

theorem build_getNode_reified [Inhabited α] (mkC : ConceptRow → α)
    (mkR : ConnectionRow → α) (cs : List ConceptRow)
    (pre post : List ConnectionRow) (r : ConnectionRow)
    (hwf : WFInput cs (pre ++ r :: post))
    (ht : r.connection_type ≠ "contains") :
    getNode (processAll mkR (addConceptNodes mkC (Graph.empty α) cs)
      (pre ++ r :: post)).1 r.ID = some (mkR r) := by
  have hrmem : r ∈ pre ++ r :: post := by simp
  have hne := wfInput_row cs _ hwf r hrmem
  rw [processAll_append, processAll_cons]
  have hcp := build_cpres mkC mkR cs pre _ (fun q hq => by simp [hq]) hwf
  have hok := rowOK_of (processAll mkR (addConceptNodes mkC (Graph.empty α) cs) pre).1
    r cs hcp (fun p hp => hwf.2.2 r hrmem p hp) (hwf.2.1 r hrmem)
  rw [processAll_getNode_pres mkR _ post r.ID
    (fun q hq => ⟨wfInput_row cs _ hwf q (by simp [hq]),
      Or.inr (wf_no_post_id cs pre post r hwf q hq)⟩)
    (processConnection_hasNode_cid mkR _ r hok.1 ht hne)]
  exact processConnection_getNode_cid mkR _ r hok.1 ht hne

/-! ### Claim C7: identifier uniqueness across variants -/

/-- Claim C7, counterexample to the claim as stated: the uniqueness of
node identifiers across the two variants is an input-side obligation the
builder never checks, not a property of all built graphs.  With concept
rows `A`/`B` and one `related` connection row whose identifier is the
concept identifier `A`, the reification step re-keys `A`: the built
store maps `A` to a reified-connection record, and the concept node the
first row created is gone. -/
theorem C7_uniqueness_counterexample :
    ("A" ∈ conceptIds [⟨some "A", "Alpha", "1"⟩, ⟨some "B", "Beta", "2"⟩]) ∧
    getNode (create_knowledge_graph
        [⟨some "A", "Alpha", "1"⟩, ⟨some "B", "Beta", "2"⟩]
        [⟨"A", "related", some "B", none, none⟩]).1 "A" =
      some (NodeAttrs.reified "related") := by
  constructor
  · decide
  · rfl

/-- Claim C7 (corrected): the uniqueness invariant holds of every built
graph whose INPUT satisfies the §3 discipline — concept identifiers
pairwise distinct, connection identifiers pairwise distinct and
disjoint from the concept identifiers (`WFInput`); without that
precondition it fails (see the counterexample).  Under it, the store
keeps pairwise-distinct node identifiers, every concept row still owns
its concept node, and every non-`contains` connection row owns the
reified node keyed by its identifier — no collision materialises. -/
theorem C7_uniqueness (cs : List ConceptRow) (rs : List ConnectionRow)
    (hwf : WFInput cs rs) (hnd : (conceptIds cs).Nodup) :
    NodupIds (create_knowledge_graph cs rs).1 ∧
    (∀ c ∈ cs, ∀ i, c.node_id = some i →
      getNode (create_knowledge_graph cs rs).1 i = some (mkConceptAttrs c)) ∧
    (∀ pre r post, rs = pre ++ r :: post → r.connection_type ≠ "contains" →
      getNode (create_knowledge_graph cs rs).1 r.ID = some (mkReifiedAttrs r)) := by
  refine ⟨?_, ?_, ?_⟩
  · exact (graphWF_processAll mkReifiedAttrs _ rs
      (fun r hr => wfInput_row cs rs hwf r hr)
      (graphWF_addConceptNodes _ _ cs (graphWF_empty _))).1
  · intro c hc i hid
    exact build_getNode_concept mkConceptAttrs mkReifiedAttrs cs rs i c hwf hnd hc hid
  · intro pre r post hsplit ht
    subst hsplit
    exact build_getNode_reified mkConceptAttrs mkReifiedAttrs cs pre post r hwf ht

/-- Witness for the corrected C7 on the two-concept store with one
well-named `related` row. -/
theorem C7_uniqueness_witness :
    getNode (create_knowledge_graph
        [⟨some "A", "Alpha", "1"⟩, ⟨some "B", "Beta", "2"⟩]
        [⟨"R", "related", some "A", some "B", none⟩]).1 "R" =
      some (NodeAttrs.reified "related") :=
  (C7_uniqueness
      [⟨some "A", "Alpha", "1"⟩, ⟨some "B", "Beta", "2"⟩]
      [⟨"R", "related", some "A", some "B", none⟩]
      (by refine ⟨?_, ?_, ?_⟩ <;> decide) (by decide)).2.2
    [] ⟨"R", "related", some "A", some "B", none⟩ [] rfl (by decide)

/-! ### Claim C3: reified display name (spec-modelled builder) -/

theorem nodup_no_post_id (pre post : List ConnectionRow) (r : ConnectionRow)
    (h : (((pre ++ r :: post).map (fun q => q.ID))).Nodup) :
    ∀ q ∈ post, q.ID ≠ r.ID := by
  rw [List.map_append, List.map_cons] at h
  have h2 := (List.nodup_append.mp h).2.1
  rw [List.nodup_cons] at h2
  intro q hq he
  exact h2.1 (he ▸ List.mem_map_of_mem _ hq)

theorem build_getNode_reified_w [Inhabited α] (mkC : ConceptRow → α)
    (mkR : ConnectionRow → α) (cs : List ConceptRow)
    (pre post : List ConnectionRow) (r : ConnectionRow)
    (hids : (((pre ++ r :: post).map (fun q => q.ID))).Nodup)
    (hne : ∀ q ∈ pre ++ r :: post, ∀ p ∈ refIds q, p ≠ q.ID)
    (hrefs : ∀ p ∈ refIds r, p ∈ conceptIds cs)
    (ht : r.connection_type ≠ "contains") :
    getNode (processAll mkR (addConceptNodes mkC (Graph.empty α) cs)
      (pre ++ r :: post)).1 r.ID = some (mkR r) := by
  have hner := hne r (by simp)
  rw [processAll_append, processAll_cons]
  have hcp : ∀ x ∈ conceptIds cs,
      hasNode (processAll mkR (addConceptNodes mkC (Graph.empty α) cs) pre).1 x
        = true := by
    intro x hx
    exact hasNode_processAll_mono mkR _ pre x
      (fun q hq => hne q (by simp [hq]))
      (hasNode_concepts_of_mem mkC cs x hx)
  have hm : missingList
      (processAll mkR (addConceptNodes mkC (Graph.empty α) cs) pre).1 r = [] :=
    (missingList_eq_nil_iff _ r).mpr (fun p hp => hcp p (hrefs p hp))
  rw [processAll_getNode_pres mkR _ post r.ID
    (fun q hq => ⟨hne q (by simp [hq]),
      Or.inr (nodup_no_post_id pre post r hids q hq)⟩)
    (processConnection_hasNode_cid mkR _ r hm ht hner)]
  exact processConnection_getNode_cid mkR _ r hm ht hner

/-- Claim C3 (spec-modelled, from the missing `knowledge_graph.py`
described by the spec): in the store built by the second builder, the
reified-connection node of every processed non-`contains` row carries a
display name obtained by looking up a concept row whose identifier
equals the connection identifier, with the connection-type string as
the fallback when no concept row matches. -/
theorem C3_reified_name (cs : List ConceptRow) (sk : List SkillRow)
    (pre post : List ConnectionRow) (r : ConnectionRow)
    (hids : (((pre ++ r :: post).map (fun q => q.ID))).Nodup)
    (hne : ∀ q ∈ pre ++ r :: post, ∀ p ∈ refIds q, p ≠ q.ID)
    (hrefs : ∀ p ∈ refIds r, p ∈ conceptIds cs)
    (ht : r.connection_type ≠ "contains") :
    getNode (build cs (pre ++ r :: post) sk).1 r.ID =
      some (SNodeAttrs.reified
        (match cs.find? (fun c => c.node_id == some r.ID) with
         | some c => c.node_name
         | none => r.connection_type)
        r.connection_type) :=
  build_getNode_reified_w (mkSConceptAttrs sk) (mkSReifiedAttrs cs) cs
    pre post r hids hne hrefs ht

/-- Witness for C3 on a store where the lookup succeeds: the concept
row `R` lends its name `RName` to the reified node of the connection
row with identifier `R`. -/
theorem C3_reified_name_witness :
    getNode (build [⟨some "A", "Alpha", "1"⟩, ⟨some "R", "RName", "2"⟩]
        [⟨"R", "related", some "A", none, none⟩] []).1 "R" =
      some (SNodeAttrs.reified "RName" "related") :=
  C3_reified_name [⟨some "A", "Alpha", "1"⟩, ⟨some "R", "RName", "2"⟩] []
    [] [] ⟨"R", "related", some "A", none, none⟩
    (by decide) (by decide) (by decide) (by decide)

/-! ### Claim C4: export entries of the spec-modelled projector -/

theorem lookupAssoc_filterMap (l : List (Cell α))
    (F : Cell α → Option (String × β))
    (hkey : ∀ c p, F c = some p → p.1 = c.id)
    (i : String) (cell : Cell α) (en : β)
    (hl : lookupCell l i = some cell)
    (hF : F cell = some (i, en)) :
    lookupAssoc (l.filterMap F) i = some en := by
  induction l with
  | nil => cases hl
  | cons c t ih =>
      unfold lookupCell at hl
      by_cases hci : c.id = i
      · rw [if_pos hci] at hl
        cases hl
        rw [List.filterMap_cons, hF]
        unfold lookupAssoc
        rw [if_pos rfl]
      · rw [if_neg hci] at hl
        rw [List.filterMap_cons]
        cases hFc : F c with
        | none => exact ih hl
        | some p =>
            unfold lookupAssoc
            rw [if_neg (fun he => hci (by rw [← hkey c p hFc, he]))]
            exact ih hl

/-- Claim C4 (spec-modelled, from the missing `knowledge_graph.py`
described by the spec): in the export of the second module, every
concept row owns an entry (keyed by its identifier) carrying the six
keys of the `SConceptEntry` record — `name`, `complexity`, `skills`,
`contains`, `contained_by`, `related` — where `name` and `complexity`
come from the row and `skills` is exactly the skill list stored on the
concept node at construction time, the empty list when no skill row
names the concept. -/
theorem C4_export_entry_skills (cs : List ConceptRow) (rs : List ConnectionRow)
    (sk : List SkillRow) (i : String) (c : ConceptRow)
    (hwf : WFInput cs rs) (hnd : (conceptIds cs).Nodup)
    (hc : c ∈ cs) (hid : c.node_id = some i) :
    ∃ en : SConceptEntry,
      lookupAssoc (project (build cs rs sk).1) i = some en ∧
      en.name = c.node_name ∧ en.complexity = c.complexity ∧
      en.skills = skillsFor sk i ∧
      ((∀ s ∈ sk, ¬ s.concept_id = some i) → en.skills = []) := by
  have hget := build_getNode_concept (mkSConceptAttrs sk) (mkSReifiedAttrs cs)
    cs rs i c hwf hnd hc hid
  have hget2 : getNode (build cs rs sk).1 i =
      some (SNodeAttrs.concept c.node_name c.complexity (skillsFor sk i)) := by
    rw [show (build cs rs sk).1 =
        (processAll (mkSReifiedAttrs cs)
          (addConceptNodes (mkSConceptAttrs sk) (Graph.empty SNodeAttrs) cs) rs).1
      from rfl, hget]
    unfold mkSConceptAttrs
    rw [hid]
  unfold getNode at hget2
  cases hcell : lookupCell (build cs rs sk).1.cells i with
  | none =>
      rw [hcell] at hget2
      exact absurd hget2 (fun h => Option.noConfusion h)
  | some cell =>
      rw [hcell] at hget2
      have hattr : cell.attrs =
          SNodeAttrs.concept c.node_name c.complexity (skillsFor sk i) :=
        Option.some.inj hget2
      have hcid : cell.id = i := lookupCell_id_eq _ _ _ hcell
      refine ⟨⟨c.node_name, c.complexity, skillsFor sk i,
        (edges (build cs rs sk).1).filterMap (fun e =>
          if isContainsAttr e.2.2 ∧ e.1 = cell.id ∧ sIsConcept (build cs rs sk).1 e.2.1
          then some e.2.1 else none),
        (edges (build cs rs sk).1).filterMap (fun e =>
          if isContainsAttr e.2.2 ∧ e.2.1 = cell.id ∧ sIsConcept (build cs rs sk).1 e.1
          then some e.1 else none),
        sRelatedOf (build cs rs sk).1 cell.id⟩, ?_, rfl, rfl, rfl, ?_⟩
      · unfold project
        apply lookupAssoc_filterMap _ _ ?_ i cell _ hcell
        · rw [hattr, ← hcid]
        · intro d p hp
          cases hd : d.attrs <;> rw [hd] at hp
          · cases hp
            rfl
          · cases hp
          · cases hp
      · intro h
        show skillsFor sk i = []
        unfold skillsFor
        rw [List.filter_eq_nil_iff.mpr (fun s hs => by simp [h s hs])]
        rfl

/-- Witness for C4: one concept `A` with one skill row; the exported
entry carries the stored skill list. -/
theorem C4_export_entry_skills_witness :
    ∃ en : SConceptEntry,
      lookupAssoc (project (build [⟨some "A", "Alpha", "1"⟩] []
          [⟨some "A", "S1", "use the concept"⟩]).1) "A" = some en ∧
      en.name = "Alpha" ∧ en.complexity = "1" ∧
      en.skills = skillsFor [⟨some "A", "S1", "use the concept"⟩] "A" ∧
      ((∀ s ∈ [(⟨some "A", "S1", "use the concept"⟩ : SkillRow)],
          ¬ s.concept_id = some "A") → en.skills = []) :=
  C4_export_entry_skills [⟨some "A", "Alpha", "1"⟩] []
    [⟨some "A", "S1", "use the concept"⟩] "A" ⟨some "A", "Alpha", "1"⟩
    (by refine ⟨?_, ?_, ?_⟩ <;> decide) (by decide)
    (List.mem_cons_self _ _) rfl

/-! ### Association-list and edge-list toolbox for the export claims -/

theorem lookupAssoc_isSome_eq (m : List (String × β)) (k : String) :
    (lookupAssoc m k).isSome = (m.map (fun p => p.1)).contains k := by
  induction m with
  | nil => rfl
  | cons p t ih =>
      unfold lookupAssoc
      by_cases h : p.1 = k
      · simp [h]
      · simp only [List.map_cons, List.contains_cons]
        rw [if_neg h, ih]
        simp [Ne.symm h]

theorem hasKey_exportEdgeStep (g : Graph NodeAttrs) (m : List (String × ConceptEntry))
    (e : String × String × EdgeAttrs) (k : String) :
    hasKey (exportEdgeStep g m e) k = hasKey m k := by
  unfold hasKey
  rw [lookupAssoc_isSome_eq, lookupAssoc_isSome_eq, keys_exportEdgeStep]

theorem export_fold_keys (g : Graph NodeAttrs) (es : List (String × String × EdgeAttrs))
    (m : List (String × ConceptEntry)) (k : String) :
    hasKey (es.foldl (exportEdgeStep g) m) k = hasKey m k := by
  unfold hasKey
  rw [lookupAssoc_isSome_eq, lookupAssoc_isSome_eq, keys_export_fold]

theorem lookupAssoc_cons (p : String × β) (t : List (String × β)) (k : String) :
    lookupAssoc (p :: t) k = if p.1 = k then some p.2 else lookupAssoc t k := rfl

theorem updAssoc_cons (p : String × β) (t : List (String × β)) (k : String)
    (f : β → β) :
    updAssoc (p :: t) k f =
      (if p.1 = k then (p.1, f p.2) else p) :: updAssoc t k f := rfl

theorem lookupAssoc_updAssoc (m : List (String × β)) (k : String) (f : β → β)
    (j : String) :
    lookupAssoc (updAssoc m k f) j =
      if j = k then (lookupAssoc m j).map f else lookupAssoc m j := by
  induction m with
  | nil =>
      by_cases h : j = k <;> simp [updAssoc, lookupAssoc, h]
  | cons p t ih =>
      rcases p with ⟨a, b⟩
      by_cases hak : a = k
      · subst hak
        by_cases hja : j = a
        · subst hja
          simp [updAssoc_cons, lookupAssoc_cons]
        · have haj : ¬ a = j := fun h => hja h.symm
          simp [updAssoc_cons, lookupAssoc_cons, haj, hja, ih]
      · by_cases hja : j = a
        · subst hja
          simp [updAssoc_cons, lookupAssoc_cons, hak]
        · have haj : ¬ a = j := fun h => hja h.symm
          simp [updAssoc_cons, lookupAssoc_cons, hak, haj, ih]

theorem lookupAssoc_map_val (m : List (String × β)) (f : β → γ) (k : String) :
    lookupAssoc (m.map (fun p => (p.1, f p.2))) k = (lookupAssoc m k).map f := by
  induction m with
  | nil => rfl
  | cons p t ih =>
      simp only [List.map_cons]
      unfold lookupAssoc
      by_cases h : p.1 = k
      · rw [if_pos h, if_pos h]
        rfl
      · rw [if_neg h, if_neg h, ih]

theorem lookupCell_mem (l : List (Cell α)) (i : String) (c : Cell α)
    (h : lookupCell l i = some c) : c ∈ l := by
  induction l with
  | nil => cases h
  | cons d t ih =>
      unfold lookupCell at h
      by_cases hd : d.id = i
      · rw [if_pos hd] at h
        cases h
        exact List.mem_cons_self _ _
      · rw [if_neg hd] at h
        exact List.mem_cons_of_mem _ (ih h)

theorem lookupCell_of_mem_nodup (l : List (Cell α)) (i : String) (c : Cell α)
    (hnd : (l.map (fun d => d.id)).Nodup) (hc : c ∈ l) (hid : c.id = i) :
    lookupCell l i = some c := by
  induction l with
  | nil => cases hc
  | cons d t ih =>
      simp only [List.map_cons, List.nodup_cons] at hnd
      unfold lookupCell
      rcases List.mem_cons.mp hc with he | hm
      · subst he
        rw [if_pos hid]
      · have hdi : d.id ≠ i := fun he => hnd.1 (by
          rw [he, ← hid]
          exact List.mem_map_of_mem _ hm)
        rw [if_neg hdi]
        exact ih hnd.2 hm

theorem mem_edges_iff_outOf (g : Graph α) (hnd : NodupIds g) (u v : String)
    (a : EdgeAttrs) : (u, v, a) ∈ edges g ↔ (v, a) ∈ outOf g u := by
  constructor
  · intro h
    rcases List.mem_flatMap.mp h with ⟨c, hc, hin⟩
    rcases List.mem_map.mp hin with ⟨q, hq, he⟩
    have hcu : c.id = u := congrArg Prod.fst he
    have hqv : q = (v, a) := by
      have h2 := congrArg Prod.snd he
      simpa using h2
    unfold outOf
    rw [lookupCell_of_mem_nodup g.cells u c hnd hc hcu]
    exact hqv ▸ hq
  · intro h
    unfold outOf at h
    cases hl : lookupCell g.cells u with
    | none =>
        rw [hl] at h
        cases h
    | some c =>
        rw [hl] at h
        apply List.mem_flatMap.mpr
        refine ⟨c, lookupCell_mem _ _ _ hl, ?_⟩
        apply List.mem_map.mpr
        exact ⟨(v, a), h, by rw [lookupCell_id_eq _ _ _ hl]⟩

theorem hasNode_of_getNode (g : Graph α) (i : String) (a : α)
    (h : getNode g i = some a) : hasNode g i = true := by
  unfold getNode at h
  unfold hasNode
  cases hl : lookupCell g.cells i with
  | none =>
      rw [hl] at h
      cases h
  | some c => rfl

theorem lookupAssoc_append_none (l1 l2 : List (String × β)) (k : String)
    (h : lookupAssoc l1 k = none) :
    lookupAssoc (l1 ++ l2) k = lookupAssoc l2 k := by
  induction l1 with
  | nil => rfl
  | cons p t ih =>
      rw [lookupAssoc_cons] at h
      simp only [List.cons_append]
      rw [lookupAssoc_cons]
      by_cases hp : p.1 = k
      · rw [if_pos hp] at h
        cases h
      · rw [if_neg hp] at h
        rw [if_neg hp]
        exact ih h

theorem lookupAssoc_append_some (l1 l2 : List (String × β)) (k : String) (v : β)
    (h : lookupAssoc l1 k = some v) :
    lookupAssoc (l1 ++ l2) k = some v := by
  induction l1 with
  | nil => cases h
  | cons p t ih =>
      rw [lookupAssoc_cons] at h
      simp only [List.cons_append]
      rw [lookupAssoc_cons]
      by_cases hp : p.1 = k
      · rw [if_pos hp] at h
        rw [if_pos hp]
        exact h
      · rw [if_neg hp] at h
        rw [if_neg hp]
        exact ih h

theorem mem_extendAssoc_self (l : List (String × List β)) (k : String)
    (ns : List β) (x : β) (hx : x ∈ ns) :
    x ∈ (lookupAssoc (extendAssoc l k ns) k).getD [] := by
  unfold extendAssoc
  by_cases h : hasKey l k
  · rw [if_pos h]
    rw [lookupAssoc_updAssoc, if_pos rfl]
    unfold hasKey at h
    cases hl : lookupAssoc l k with
    | none =>
        rw [hl] at h
        cases h
    | some v =>
        simp only [hl, Option.map_some']
        simp [hx]
  · rw [if_neg h]
    unfold hasKey at h
    have hnone : lookupAssoc l k = none := by
      cases hl : lookupAssoc l k with
      | none => rfl
      | some v =>
          rw [hl] at h
          cases h rfl
    rw [lookupAssoc_append_none _ _ _ hnone]
    unfold lookupAssoc
    rw [if_pos rfl]
    simpa using hx

theorem mem_extendAssoc_mono (l : List (String × List β)) (k : String)
    (ns : List β) (ct : String) (x : β)
    (hx : x ∈ (lookupAssoc l ct).getD []) :
    x ∈ (lookupAssoc (extendAssoc l k ns) ct).getD [] := by
  unfold extendAssoc
  by_cases h : hasKey l k
  · rw [if_pos h, lookupAssoc_updAssoc]
    by_cases hc : ct = k
    · rw [if_pos hc]
      cases hl : lookupAssoc l ct with
      | none =>
          rw [hl] at hx
          cases hx
      | some v =>
          rw [hl] at hx
          simp only [Option.getD_some] at hx
          simp [hx]
    · rw [if_neg hc]
      exact hx
  · rw [if_neg h]
    cases hl : lookupAssoc l ct with
    | none =>
        rw [hl] at hx
        cases hx
    | some v =>
        rw [lookupAssoc_append_some _ _ _ _ hl]
        rw [hl] at hx
        exact hx

theorem exportEdgeStep_mono (g : Graph NodeAttrs) (m : List (String × ConceptEntry))
    (e : String × String × EdgeAttrs) (y : String) (en0 : ConceptEntry)
    (h : lookupAssoc m y = some en0) :
    ∃ en, lookupAssoc (exportEdgeStep g m e) y = some en ∧
      (∀ x ∈ en0.contains, x ∈ en.contains) ∧
      (∀ x ∈ en0.contained_by, x ∈ en.contained_by) ∧
      (∀ ct x, x ∈ (lookupAssoc en0.related ct).getD [] →
        x ∈ (lookupAssoc en.related ct).getD []) := by
  rcases e with ⟨s, t, a⟩
  cases a with
  | containsRel cid =>
      have hstep : exportEdgeStep g m (s, t, .containsRel cid) =
          if hasKey m s && hasKey m t then
            updAssoc (updAssoc m s
                (fun en => { en with contains := en.contains ++ [t] }))
              t (fun en => { en with contained_by := en.contained_by ++ [s] })
          else m := rfl
      rw [hstep]
      by_cases hg : (hasKey m s && hasKey m t) = true
      · rw [if_pos hg, lookupAssoc_updAssoc, lookupAssoc_updAssoc]
        by_cases hyt : y = t
        · by_cases hys : y = s
          · rw [if_pos hyt, if_pos hys, Option.map_map, h]
            refine ⟨_, rfl, ?_, ?_, ?_⟩
            · intro x hx
              simp [hx]
            · intro x hx
              simp [hx]
            · intro ct x hx
              simpa using hx
          · rw [if_pos hyt, if_neg hys, h]
            refine ⟨_, rfl, ?_, ?_, ?_⟩
            · intro x hx
              simpa using hx
            · intro x hx
              simp [hx]
            · intro ct x hx
              simpa using hx
        · by_cases hys : y = s
          · rw [if_neg hyt, if_pos hys, h]
            refine ⟨_, rfl, ?_, ?_, ?_⟩
            · intro x hx
              simp [hx]
            · intro x hx
              simpa using hx
            · intro ct x hx
              simpa using hx
          · rw [if_neg hyt, if_neg hys, h]
            exact ⟨en0, rfl, fun x hx => hx, fun x hx => hx, fun ct x hx => hx⟩
      · rw [if_neg hg, h]
        exact ⟨en0, rfl, fun x hx => hx, fun x hx => hx, fun ct x hx => hx⟩
  | neighborRole =>
      have hstep : exportEdgeStep g m (s, t, .neighborRole) =
          if hasKey m s && hasNode g t then
            (if ((neighbors g t).filter (fun n => hasKey m n && n != s)).isEmpty
             then m
             else updAssoc m s (fun en =>
               { en with related := (extendAssoc en.related (connTypeOf g t) ((neighbors g t).filter (fun n => hasKey m n && n != s))) }))
          else m := rfl
      rw [hstep]
      by_cases hg : (hasKey m s && hasNode g t) = true
      · rw [if_pos hg]
        by_cases hn : ((neighbors g t).filter
            (fun n => hasKey m n && n != s)).isEmpty = true
        · rw [if_pos hn, h]
          exact ⟨en0, rfl, fun x hx => hx, fun x hx => hx, fun ct x hx => hx⟩
        · rw [if_neg hn, lookupAssoc_updAssoc]
          by_cases hys : y = s
          · rw [if_pos hys, h]
            refine ⟨_, rfl, fun x hx => hx, fun x hx => hx, ?_⟩
            intro ct x hx
            exact mem_extendAssoc_mono _ _ _ _ _ hx
          · rw [if_neg hys, h]
            exact ⟨en0, rfl, fun x hx => hx, fun x hx => hx, fun ct x hx => hx⟩
      · rw [if_neg hg, h]
        exact ⟨en0, rfl, fun x hx => hx, fun x hx => hx, fun ct x hx => hx⟩

theorem exportEdgeStep_cases (g : Graph NodeAttrs) (m : List (String × ConceptEntry))
    (e : String × String × EdgeAttrs) (y : String) (en : ConceptEntry)
    (h : lookupAssoc (exportEdgeStep g m e) y = some en) :
    ∃ en0, lookupAssoc m y = some en0 ∧
      (en.contains = en0.contains ∨
        (en.contains = en0.contains ++ [e.2.1] ∧ e.1 = y ∧
          ∃ cid, e.2.2 = EdgeAttrs.containsRel cid)) ∧
      (en.contained_by = en0.contained_by ∨
        (en.contained_by = en0.contained_by ++ [e.1] ∧ e.2.1 = y ∧
          ∃ cid, e.2.2 = EdgeAttrs.containsRel cid)) := by
  rcases e with ⟨s, t, a⟩
  cases a with
  | containsRel cid =>
      have hstep : exportEdgeStep g m (s, t, .containsRel cid) =
          if hasKey m s && hasKey m t then
            updAssoc (updAssoc m s
                (fun en => { en with contains := en.contains ++ [t] }))
              t (fun en => { en with contained_by := en.contained_by ++ [s] })
          else m := rfl
      rw [hstep] at h
      by_cases hg : (hasKey m s && hasKey m t) = true
      · rw [if_pos hg, lookupAssoc_updAssoc, lookupAssoc_updAssoc] at h
        by_cases hyt : y = t
        · by_cases hys : y = s
          · rw [if_pos hyt, if_pos hys, Option.map_map] at h
            rcases Option.map_eq_some'.mp h with ⟨en0, hm, he⟩
            refine ⟨en0, hm, ?_, ?_⟩
            · exact Or.inr ⟨by rw [← he]; rfl, hys.symm, cid, rfl⟩
            · exact Or.inr ⟨by rw [← he]; rfl, hyt.symm, cid, rfl⟩
          · rw [if_pos hyt, if_neg hys] at h
            rcases Option.map_eq_some'.mp h with ⟨en0, hm, he⟩
            refine ⟨en0, hm, ?_, ?_⟩
            · exact Or.inl (by rw [← he])
            · exact Or.inr ⟨by rw [← he], hyt.symm, cid, rfl⟩
        · by_cases hys : y = s
          · rw [if_neg hyt, if_pos hys] at h
            rcases Option.map_eq_some'.mp h with ⟨en0, hm, he⟩
            refine ⟨en0, hm, ?_, ?_⟩
            · exact Or.inr ⟨by rw [← he], hys.symm, cid, rfl⟩
            · exact Or.inl (by rw [← he])
          · rw [if_neg hyt, if_neg hys] at h
            exact ⟨en, h, Or.inl rfl, Or.inl rfl⟩
      · rw [if_neg hg] at h
        exact ⟨en, h, Or.inl rfl, Or.inl rfl⟩
  | neighborRole =>
      have hstep : exportEdgeStep g m (s, t, .neighborRole) =
          if hasKey m s && hasNode g t then
            (if ((neighbors g t).filter (fun n => hasKey m n && n != s)).isEmpty
             then m
             else updAssoc m s (fun en =>
               { en with related := (extendAssoc en.related (connTypeOf g t) ((neighbors g t).filter (fun n => hasKey m n && n != s))) }))
          else m := rfl
      rw [hstep] at h
      by_cases hg : (hasKey m s && hasNode g t) = true
      · rw [if_pos hg] at h
        by_cases hn : ((neighbors g t).filter
            (fun n => hasKey m n && n != s)).isEmpty = true
        · rw [if_pos hn] at h
          exact ⟨en, h, Or.inl rfl, Or.inl rfl⟩
        · rw [if_neg hn, lookupAssoc_updAssoc] at h
          by_cases hys : y = s
          · rw [if_pos hys] at h
            rcases Option.map_eq_some'.mp h with ⟨en0, hm, he⟩
            exact ⟨en0, hm, Or.inl (by rw [← he]), Or.inl (by rw [← he])⟩
          · rw [if_neg hys] at h
            exact ⟨en, h, Or.inl rfl, Or.inl rfl⟩
      · rw [if_neg hg] at h
        exact ⟨en, h, Or.inl rfl, Or.inl rfl⟩

theorem export_fold_entry_mono (g : Graph NodeAttrs)
    (es : List (String × String × EdgeAttrs)) (m : List (String × ConceptEntry))
    (y : String) (en0 : ConceptEntry) :
    lookupAssoc m y = some en0 →
    ∃ en, lookupAssoc (es.foldl (exportEdgeStep g) m) y = some en ∧
      (∀ x ∈ en0.contains, x ∈ en.contains) ∧
      (∀ x ∈ en0.contained_by, x ∈ en.contained_by) ∧
      (∀ ct x, x ∈ (lookupAssoc en0.related ct).getD [] →
        x ∈ (lookupAssoc en.related ct).getD []) := by
  induction es generalizing m en0 with
  | nil =>
      intro h
      exact ⟨en0, h, fun x hx => hx, fun x hx => hx, fun ct x hx => hx⟩
  | cons e t ih =>
      intro h
      rcases exportEdgeStep_mono g m e y en0 h with ⟨en1, h1, hc1, hb1, hr1⟩
      rcases ih _ _ h1 with ⟨en, h2, hc2, hb2, hr2⟩
      exact ⟨en, h2, fun x hx => hc2 x (hc1 x hx), fun x hx => hb2 x (hb1 x hx),
        fun ct x hx => hr2 ct x (hr1 ct x hx)⟩

theorem export_fold_contains_complete (g : Graph NodeAttrs)
    (es : List (String × String × EdgeAttrs)) (m : List (String × ConceptEntry))
    (y x : String) :
    (∃ en, lookupAssoc (es.foldl (exportEdgeStep g) m) y = some en ∧
      x ∈ en.contains) →
    (∃ en0, lookupAssoc m y = some en0 ∧ x ∈ en0.contains) ∨
      ∃ cid, (y, x, EdgeAttrs.containsRel cid) ∈ es := by
  induction es generalizing m with
  | nil =>
      intro h
      exact Or.inl h
  | cons e t ih =>
      intro h
      rcases ih _ h with h1 | h2
      · rcases h1 with ⟨en1, hl, hx⟩
        rcases exportEdgeStep_cases g m e y en1 hl with ⟨en0, hm, hc, _⟩
        rcases hc with hcc | ⟨happ, hey, cid, hattr⟩
        · exact Or.inl ⟨en0, hm, hcc ▸ hx⟩
        · rw [happ] at hx
          rcases List.mem_append.mp hx with hin | hone
          · exact Or.inl ⟨en0, hm, hin⟩
          · have hxe : x = e.2.1 := by simpa using hone
            have hE : e = (y, x, EdgeAttrs.containsRel cid) :=
              Prod.ext hey (Prod.ext hxe.symm hattr)
            refine Or.inr ⟨cid, ?_⟩
            rw [← hE]
            exact List.mem_cons_self _ _
      · exact Or.inr (h2.elim fun cid hc => ⟨cid, List.mem_cons_of_mem _ hc⟩)

theorem export_fold_containedBy_complete (g : Graph NodeAttrs)
    (es : List (String × String × EdgeAttrs)) (m : List (String × ConceptEntry))
    (y x : String) :
    (∃ en, lookupAssoc (es.foldl (exportEdgeStep g) m) y = some en ∧
      x ∈ en.contained_by) →
    (∃ en0, lookupAssoc m y = some en0 ∧ x ∈ en0.contained_by) ∨
      ∃ cid, (x, y, EdgeAttrs.containsRel cid) ∈ es := by
  induction es generalizing m with
  | nil =>
      intro h
      exact Or.inl h
  | cons e t ih =>
      intro h
      rcases ih _ h with h1 | h2
      · rcases h1 with ⟨en1, hl, hx⟩
        rcases exportEdgeStep_cases g m e y en1 hl with ⟨en0, hm, _, hb⟩
        rcases hb with hbb | ⟨happ, hey, cid, hattr⟩
        · exact Or.inl ⟨en0, hm, hbb ▸ hx⟩
        · rw [happ] at hx
          rcases List.mem_append.mp hx with hin | hone
          · exact Or.inl ⟨en0, hm, hin⟩
          · have hxe : x = e.1 := by simpa using hone
            have hE : e = (x, y, EdgeAttrs.containsRel cid) :=
              Prod.ext hxe.symm (Prod.ext hey hattr)
            refine Or.inr ⟨cid, ?_⟩
            rw [← hE]
            exact List.mem_cons_self _ _
      · exact Or.inr (h2.elim fun cid hc => ⟨cid, List.mem_cons_of_mem _ hc⟩)

theorem export_fold_contains_intro (g : Graph NodeAttrs)
    (es : List (String × String × EdgeAttrs)) (m : List (String × ConceptEntry))
    (a b cid : String) :
    (a, b, EdgeAttrs.containsRel cid) ∈ es → hasKey m a = true → hasKey m b = true →
    (∃ en, lookupAssoc (es.foldl (exportEdgeStep g) m) a = some en ∧
      b ∈ en.contains) ∧
    (∃ en, lookupAssoc (es.foldl (exportEdgeStep g) m) b = some en ∧
      a ∈ en.contained_by) := by
  induction es generalizing m with
  | nil =>
      intro h _ _
      cases h
  | cons e t ih =>
      intro hmem hka hkb
      rcases List.mem_cons.mp hmem with he | hm2
      · have hena : ∃ en, lookupAssoc m a = some en := by
          unfold hasKey at hka
          cases hl : lookupAssoc m a with
          | none =>
              rw [hl] at hka
              exact absurd hka (by simp)
          | some v => exact ⟨v, rfl⟩
        have henb : ∃ en, lookupAssoc m b = some en := by
          unfold hasKey at hkb
          cases hl : lookupAssoc m b with
          | none =>
              rw [hl] at hkb
              exact absurd hkb (by simp)
          | some v => exact ⟨v, rfl⟩
        rcases hena with ⟨ena, hena⟩
        rcases henb with ⟨enb, henb⟩
        have hg : (hasKey m a && hasKey m b) = true := by
          rw [hka, hkb]
          rfl
        have hstep : exportEdgeStep g m (a, b, .containsRel cid) =
            updAssoc (updAssoc m a
                (fun en => { en with contains := en.contains ++ [b] }))
              b (fun en => { en with contained_by := en.contained_by ++ [a] }) := by
          show (if hasKey m a && hasKey m b then _ else m) = _
          rw [if_pos hg]
        have hfold : (e :: t).foldl (exportEdgeStep g) m =
            t.foldl (exportEdgeStep g) (exportEdgeStep g m e) := rfl
        rw [hfold, ← he, hstep]
        constructor
        · have hmid : ∃ en1,
              lookupAssoc (updAssoc (updAssoc m a
                  (fun en => { en with contains := en.contains ++ [b] }))
                b (fun en => { en with contained_by := en.contained_by ++ [a] }))
                a = some en1 ∧ b ∈ en1.contains := by
            rw [lookupAssoc_updAssoc, lookupAssoc_updAssoc]
            by_cases hab : a = b
            · rw [if_pos hab, if_pos rfl, hena]
              exact ⟨_, rfl, by simp⟩
            · rw [if_neg hab, if_pos rfl, hena]
              exact ⟨_, rfl, by simp⟩
          rcases hmid with ⟨en1, h1, hb1⟩
          rcases export_fold_entry_mono g t _ a en1 h1 with ⟨en, h2, hc2, _, _⟩
          exact ⟨en, h2, hc2 b hb1⟩
        · have hmid : ∃ en1,
              lookupAssoc (updAssoc (updAssoc m a
                  (fun en => { en with contains := en.contains ++ [b] }))
                b (fun en => { en with contained_by := en.contained_by ++ [a] }))
                b = some en1 ∧ a ∈ en1.contained_by := by
            rw [lookupAssoc_updAssoc, lookupAssoc_updAssoc, if_pos rfl]
            by_cases hba : b = a
            · rw [if_pos hba]
              rw [hba, hena]
              exact ⟨_, rfl, by simp⟩
            · rw [if_neg hba, henb]
              exact ⟨_, rfl, by simp⟩
          rcases hmid with ⟨en1, h1, hb1⟩
          rcases export_fold_entry_mono g t _ b en1 h1 with ⟨en, h2, _, hb2, _⟩
          exact ⟨en, h2, hb2 a hb1⟩
      · have hka2 : hasKey (exportEdgeStep g m e) a = true := by
          rw [hasKey_exportEdgeStep]
          exact hka
        have hkb2 : hasKey (exportEdgeStep g m e) b = true := by
          rw [hasKey_exportEdgeStep]
          exact hkb
        exact ih _ hm2 hka2 hkb2

theorem lookupAssoc_conceptEntries_aux (l : List (Cell NodeAttrs)) (k : String)
    (en : ConceptEntry)
    (h : lookupAssoc (l.filterMap (fun c =>
        match c.attrs with
        | .concept n cx => some (c.id, (⟨n, cx, [], [], []⟩ : ConceptEntry))
        | _ => none)) k = some en) :
    en.contains = [] ∧ en.contained_by = [] ∧ en.related = [] := by
  induction l with
  | nil => cases h
  | cons c t ih =>
      cases hc : c.attrs with
      | concept n cx =>
          simp only [List.filterMap_cons, hc] at h
          rw [lookupAssoc_cons] at h
          by_cases hk : c.id = k
          · rw [if_pos hk] at h
            have he := Option.some.inj h
            rw [← he]
            exact ⟨rfl, rfl, rfl⟩
          · rw [if_neg hk] at h
            exact ih h
      | reified ct =>
          simp only [List.filterMap_cons, hc] at h
          exact ih h
      | blank =>
          simp only [List.filterMap_cons, hc] at h
          exact ih h

theorem conceptEntries_entry (g : Graph NodeAttrs) (k : String) (en : ConceptEntry)
    (h : lookupAssoc (conceptEntries g) k = some en) :
    en.contains = [] ∧ en.contained_by = [] ∧ en.related = [] :=
  lookupAssoc_conceptEntries_aux g.cells k en h

theorem hasKey_conceptEntries (g : Graph NodeAttrs) (k : String) (n cx : String)
    (h : getNode g k = some (.concept n cx)) :
    hasKey (conceptEntries g) k = true := by
  unfold getNode at h
  cases hl : lookupCell g.cells k with
  | none =>
      rw [hl] at h
      exact absurd h (fun hh => Option.noConfusion hh)
  | some c =>
      rw [hl] at h
      have hattr : c.attrs = NodeAttrs.concept n cx := Option.some.inj h
      have hcm : c ∈ g.cells := lookupCell_mem _ _ _ hl
      have hcid : c.id = k := lookupCell_id_eq _ _ _ hl
      unfold hasKey
      rw [lookupAssoc_isSome_eq]
      rw [show (conceptEntries g).map (fun p => p.1) = _ from
        keys_conceptEntries_aux g.cells]
      have hm : k ∈ g.cells.filterMap (fun c =>
          match c.attrs with
          | NodeAttrs.concept _ _ => some c.id
          | _ => none) := by
        apply List.mem_filterMap.mpr
        refine ⟨c, hcm, ?_⟩
        rw [hattr]
        show some c.id = some k
        rw [hcid]
      exact List.elem_eq_true_of_mem hm

/-! ### Graph-level edge accounting -/

theorem mem_upsertFold_cases (ps : List String) (l : List (String × EdgeAttrs))
    (a : EdgeAttrs) (q : String × EdgeAttrs)
    (h : q ∈ ps.foldl (fun l p => upsert l p a) l) :
    q ∈ l ∨ (q.1 ∈ ps ∧ q.2 = a) := by
  induction ps generalizing l with
  | nil => exact Or.inl h
  | cons p t ih =>
      rcases ih _ h with h1 | h2
      · rcases mem_upsert_cases _ _ _ _ h1 with hl | he
        · exact Or.inl hl
        · refine Or.inr ⟨?_, by rw [he]⟩
          rw [he]
          exact List.mem_cons_self _ _
      · exact Or.inr ⟨List.mem_cons_of_mem _ h2.1, h2.2⟩

theorem mem_outOf_reifyEdges_cases_ne [Inhabited α] (cid : String) (g : Graph α)
    (ps : List String) (x : String) (q : String × EdgeAttrs)
    (hne : ∀ p ∈ ps, p ≠ cid) (hx : x ≠ cid)
    (hq : q ∈ outOf (reifyEdges cid g ps) x) :
    q ∈ outOf g x ∨ (q.1 = cid ∧ x ∈ ps ∧ q.2 = EdgeAttrs.neighborRole) := by
  induction ps generalizing g with
  | nil => exact Or.inl hq
  | cons p t ih =>
      rw [reifyEdges_cons] at hq
      rcases ih _ (fun z hz => hne z (List.mem_cons_of_mem _ hz)) hq with h1 | h2
      · rw [outOf_pairA _ _ _ (hne p (List.mem_cons_self _ _)), if_neg hx] at h1
        by_cases hxp : x = p
        · rw [if_pos hxp] at h1
          rcases mem_upsert_cases _ _ _ _ h1 with hm | he
          · exact Or.inl (hxp ▸ hm)
          · refine Or.inr ⟨by rw [he], ?_, by rw [he]⟩
            rw [hxp]
            exact List.mem_cons_self _ _
        · rw [if_neg hxp] at h1
          exact Or.inl h1
      · exact Or.inr ⟨h2.1, List.mem_cons_of_mem _ h2.2.1, h2.2.2⟩

theorem processConnection_out_new [Inhabited α] (mkR : ConnectionRow → α)
    (g : Graph α) (r : ConnectionRow) (x : String) (q : String × EdgeAttrs)
    (hne : ∀ p ∈ refIds r, p ≠ r.ID)
    (hq : q ∈ outOf (processConnection mkR g r).1 x) :
    q ∈ outOf g x ∨
    (r.connection_type = "contains" ∧ r.node_id1 = some x ∧
      r.node_id2 = some q.1 ∧ q.2 = EdgeAttrs.containsRel r.ID) ∨
    (q.1 = r.ID ∧ x ∈ refIds r ∧ q.2 = EdgeAttrs.neighborRole) ∨
    (x = r.ID ∧ q.1 ∈ refIds r ∧ q.2 = EdgeAttrs.neighborRole) := by
  by_cases hm : missingList g r = []
  · by_cases ht : r.connection_type = "contains"
    · cases h1 : r.node_id1 with
      | none =>
          rw [processConnection_contains_degenerate mkR g r hm ht (Or.inl h1)] at hq
          exact Or.inl hq
      | some a =>
          cases h2 : r.node_id2 with
          | none =>
              rw [processConnection_contains_degenerate mkR g r hm ht (Or.inr h2)] at hq
              exact Or.inl hq
          | some b =>
              rw [processConnection_contains mkR g r a b hm ht h1 h2] at hq
              rw [outOf_add_edge] at hq
              by_cases hxa : x = a
              · rw [if_pos hxa] at hq
                rcases mem_upsert_cases _ _ _ _ hq with hh | hh
                · exact Or.inl (hxa ▸ hh)
                · refine Or.inr (Or.inl ⟨ht, ?_, ?_, ?_⟩)
                  · rw [hxa]
                  · rw [hh]
                  · rw [hh]
              · rw [if_neg hxa] at hq
                exact Or.inl hq
    · rw [processConnection_reified mkR g r hm ht hne] at hq
      have hq2 : q ∈ outOf (reifyEdges r.ID (add_node g r.ID (mkR r)) (refIds r)) x :=
        hq
      by_cases hx : x = r.ID
      · rw [hx] at hq2
        rw [outOf_reifyEdges_cid _ _ _ hne] at hq2
        rcases mem_upsertFold_cases _ _ _ _ hq2 with hh | hh
        · rw [outOf_add_node] at hh
          refine Or.inl ?_
          rw [hx]
          exact hh
        · exact Or.inr (Or.inr (Or.inr ⟨hx, hh.1, hh.2⟩))
      · rcases mem_outOf_reifyEdges_cases_ne _ _ _ _ _ hne hx hq2 with hh | hh
        · rw [outOf_add_node] at hh
          exact Or.inl hh
        · exact Or.inr (Or.inr (Or.inl hh))
  · rw [processConnection_skip mkR g r hm] at hq
    exact Or.inl hq

theorem processAll_out_new [Inhabited α] (mkR : ConnectionRow → α) (g : Graph α)
    (rs : List ConnectionRow) (x : String) (q : String × EdgeAttrs) :
    (∀ r ∈ rs, ∀ p ∈ refIds r, p ≠ r.ID) →
    q ∈ outOf (processAll mkR g rs).1 x →
    q ∈ outOf g x ∨ ∃ r ∈ rs,
      (r.connection_type = "contains" ∧ r.node_id1 = some x ∧
        r.node_id2 = some q.1 ∧ q.2 = EdgeAttrs.containsRel r.ID) ∨
      (q.1 = r.ID ∧ x ∈ refIds r ∧ q.2 = EdgeAttrs.neighborRole) ∨
      (x = r.ID ∧ q.1 ∈ refIds r ∧ q.2 = EdgeAttrs.neighborRole) := by
  induction rs generalizing g with
  | nil =>
      intro _ hq
      exact Or.inl hq
  | cons r t ih =>
      intro hne hq
      rw [processAll_cons] at hq
      rcases ih _ (fun z hz => hne z (List.mem_cons_of_mem _ hz)) hq with h1 | h2
      · rcases processConnection_out_new mkR g r x q
            (hne r (List.mem_cons_self _ _)) h1 with hh | hh | hh | hh
        · exact Or.inl hh
        · exact Or.inr ⟨r, List.mem_cons_self _ _, Or.inl hh⟩
        · exact Or.inr ⟨r, List.mem_cons_self _ _, Or.inr (Or.inl hh)⟩
        · exact Or.inr ⟨r, List.mem_cons_self _ _, Or.inr (Or.inr hh)⟩
      · rcases h2 with ⟨r2, hr2, hd⟩
        exact Or.inr ⟨r2, List.mem_cons_of_mem _ hr2, hd⟩

theorem processConnection_entry_pres [Inhabited α] (mkR : ConnectionRow → α)
    (g : Graph α) (r : ConnectionRow) (a b : String) (att : EdgeAttrs)
    (hne : ∀ p ∈ refIds r, p ≠ r.ID)
    (hbid : b ≠ r.ID) (haid : a ≠ r.ID)
    (hnodup : ¬(r.connection_type = "contains" ∧ r.node_id1 = some a ∧
      r.node_id2 = some b))
    (h : (b, att) ∈ outOf g a) :
    (b, att) ∈ outOf (processConnection mkR g r).1 a := by
  by_cases hm : missingList g r = []
  · by_cases ht : r.connection_type = "contains"
    · cases h1 : r.node_id1 with
      | none =>
          rw [processConnection_contains_degenerate mkR g r hm ht (Or.inl h1)]
          exact h
      | some a2 =>
          cases h2 : r.node_id2 with
          | none =>
              rw [processConnection_contains_degenerate mkR g r hm ht (Or.inr h2)]
              exact h
          | some b2 =>
              rw [processConnection_contains mkR g r a2 b2 hm ht h1 h2, outOf_add_edge]
              by_cases hxa : a = a2
              · rw [if_pos hxa]
                rw [hxa] at h
                apply mem_upsert_of_key_ne _ _ _ _ h
                intro hbe
                refine hnodup ⟨ht, ?_, ?_⟩
                · rw [hxa]
                  exact h1
                · rw [h2, ← hbe]
              · rw [if_neg hxa]
                exact h
    · rw [processConnection_reified mkR g r hm ht hne]
      show (b, att) ∈ outOf (reifyEdges r.ID (add_node g r.ID (mkR r)) (refIds r)) a
      apply mem_outOf_reifyEdges_pres _ _ _ _ _ hne haid hbid
      rw [outOf_add_node]
      exact h
  · rw [processConnection_skip mkR g r hm]
    exact h

theorem processAll_entry_pres [Inhabited α] (mkR : ConnectionRow → α) (g : Graph α)
    (rs : List ConnectionRow) (a b : String) (att : EdgeAttrs) :
    (∀ r ∈ rs, (∀ p ∈ refIds r, p ≠ r.ID) ∧ b ≠ r.ID ∧ a ≠ r.ID ∧
      ¬(r.connection_type = "contains" ∧ r.node_id1 = some a ∧
        r.node_id2 = some b)) →
    (b, att) ∈ outOf g a →
    (b, att) ∈ outOf (processAll mkR g rs).1 a := by
  induction rs generalizing g with
  | nil =>
      intro _ h
      exact h
  | cons r t ih =>
      intro hall h
      rw [processAll_cons]
      have hr := hall r (List.mem_cons_self _ _)
      exact ih _ (fun z hz => hall z (List.mem_cons_of_mem _ hz))
        (processConnection_entry_pres mkR g r a b att hr.1 hr.2.1 hr.2.2.1
          hr.2.2.2 h)

theorem outOf_concepts_nil (mkC : ConceptRow → α) (cs : List ConceptRow)
    (x : String) : outOf (addConceptNodes mkC (Graph.empty α) cs) x = [] := by
  rw [outOf_addConceptNodes]
  rfl

theorem outsNodup_outOf (g : Graph α) (h : OutsNodup g) (x : String) :
    ((outOf g x).map (fun q => q.1)).Nodup := by
  unfold outOf
  cases hl : lookupCell g.cells x with
  | none => simp
  | some c => exact h c (lookupCell_mem _ _ _ hl)

theorem filter_key_eq_of_nodup (l : List (String × EdgeAttrs)) (b : String)
    (att : EdgeAttrs) (hnd : (l.map (fun q => q.1)).Nodup)
    (hmem : (b, att) ∈ l) :
    l.filter (fun q => q.1 == b) = [(b, att)] := by
  induction l with
  | nil => cases hmem
  | cons p t ih =>
      simp only [List.map_cons, List.nodup_cons] at hnd
      rcases List.mem_cons.mp hmem with he | hm
      · rw [← he]
        rw [List.filter_cons]
        have hcond : (((b, att).1 == b) = true) := by simp
        rw [if_pos hcond]
        have hnil : t.filter (fun q => q.1 == b) = [] := by
          apply List.filter_eq_nil_iff.mpr
          intro q hq
          have hqb : q.1 ≠ b := by
            intro he2
            apply hnd.1
            rw [← he]
            show b ∈ t.map (fun q => q.1)
            rw [← he2]
            exact List.mem_map_of_mem _ hq
          simp [hqb]
        rw [hnil]
      · have hpb : (p.1 == b) = false := by
          have : p.1 ≠ b := by
            intro he2
            apply hnd.1
            rw [he2]
            exact List.mem_map_of_mem (fun q => q.1) hm
          simp [this]
        rw [List.filter_cons, hpb]
        exact ih hnd.2 hm

theorem lookupAssoc_dedupRelated (m : List (String × ConceptEntry)) (k : String) :
    lookupAssoc (dedupRelated m) k = (lookupAssoc m k).map
      (fun en => { en with related := en.related.map (fun q => (q.1, q.2.dedup)) }) := by
  unfold dedupRelated
  exact lookupAssoc_map_val m (fun en => { en with related := (en.related.map (fun q : String × List String => (q.1, q.2.dedup))) }) k

theorem conceptIds_mem_row (cs : List ConceptRow) (i : String)
    (h : i ∈ conceptIds cs) : ∃ c ∈ cs, c.node_id = some i := by
  unfold conceptIds at h
  exact List.mem_filterMap.mp h

theorem hasKey_entries_of_conceptId (cs : List ConceptRow) (rs : List ConnectionRow)
    (i : String) (hwf : WFInput cs rs) (hnd : (conceptIds cs).Nodup)
    (hi : i ∈ conceptIds cs) :
    hasKey (conceptEntries (create_knowledge_graph cs rs).1) i = true := by
  rcases conceptIds_mem_row cs i hi with ⟨c, hc, hid⟩
  have hget := build_getNode_concept mkConceptAttrs mkReifiedAttrs cs rs i c
    hwf hnd hc hid
  exact hasKey_conceptEntries _ i c.node_name c.complexity hget

/-- Claim C5: a `contains` row linking existing concepts `a` (from
`node_id1`) to `b` (from `node_id2`) creates exactly one out-edge of
`a` keyed `b` — a `contains` edge carrying the row identifier (the
adjacency is a dictionary, so this is the one `a → b` edge of the
store); the store holds no edge `b → a` at all; in the export `b` is in
the `contains` list of `a` and `a` is in the `contained_by` list of
`b`, and never the reverse.  The two side conditions say no later row
re-creates the same directed pair (which would merely overwrite the
connection identifier) and no row of the input links `b → a` (the
claim is about data without such an explicit reverse row; the builder
itself never fabricates one). -/
theorem C5_contains_directional (cs : List ConceptRow)
    (pre post : List ConnectionRow) (r : ConnectionRow) (a b : String)
    (hwf : WFInput cs (pre ++ r :: post)) (hnd : (conceptIds cs).Nodup)
    (ht : r.connection_type = "contains")
    (h1 : r.node_id1 = some a) (h2 : r.node_id2 = some b)
    (hdup : ∀ q ∈ post, ¬(q.connection_type = "contains" ∧
      q.node_id1 = some a ∧ q.node_id2 = some b))
    (hrev : ∀ q ∈ pre ++ r :: post, ¬(q.connection_type = "contains" ∧
      q.node_id1 = some b ∧ q.node_id2 = some a)) :
    (outOf (create_knowledge_graph cs (pre ++ r :: post)).1 a).filter
        (fun q => q.1 == b) = [(b, EdgeAttrs.containsRel r.ID)] ∧
    (∀ att, (a, att) ∉ outOf (create_knowledge_graph cs (pre ++ r :: post)).1 b) ∧
    b ∈ containsList
      (export_to_json (create_knowledge_graph cs (pre ++ r :: post)).1) a ∧
    a ∈ containedByList
      (export_to_json (create_knowledge_graph cs (pre ++ r :: post)).1) b ∧
    a ∉ containsList
      (export_to_json (create_knowledge_graph cs (pre ++ r :: post)).1) b ∧
    b ∉ containedByList
      (export_to_json (create_knowledge_graph cs (pre ++ r :: post)).1) a := by
  have hrmem : r ∈ pre ++ r :: post := by simp
  have hamem : a ∈ conceptIds cs := hwf.2.2 r hrmem a (by simp [refIds, h1])
  have hbmem : b ∈ conceptIds cs := hwf.2.2 r hrmem b (by simp [refIds, h1, h2])
  have hwfG : GraphWF (create_knowledge_graph cs (pre ++ r :: post)).1 :=
    graphWF_processAll mkReifiedAttrs _ _ (fun q hq => wfInput_row cs _ hwf q hq)
      (graphWF_addConceptNodes _ _ cs (graphWF_empty _))
  have hcp := build_cpres mkConceptAttrs mkReifiedAttrs cs pre _
    (fun q hq => by simp [hq]) hwf
  have hok := rowOK_of (processAll mkReifiedAttrs
      (addConceptNodes mkConceptAttrs (Graph.empty NodeAttrs) cs) pre).1 r cs
    hcp (fun p hp => hwf.2.2 r hrmem p hp) (hwf.2.1 r hrmem)
  have hG1 : (create_knowledge_graph cs (pre ++ r :: post)).1 =
      (processAll mkReifiedAttrs
        (processConnection mkReifiedAttrs
          (processAll mkReifiedAttrs
            (addConceptNodes mkConceptAttrs (Graph.empty NodeAttrs) cs) pre).1 r).1
        post).1 := by
    show (processAll mkReifiedAttrs
      (addConceptNodes mkConceptAttrs (Graph.empty NodeAttrs) cs)
      (pre ++ r :: post)).1 = _
    rw [processAll_append, processAll_cons]
  have hrow := processConnection_contains mkReifiedAttrs
    (processAll mkReifiedAttrs
      (addConceptNodes mkConceptAttrs (Graph.empty NodeAttrs) cs) pre).1 r a b
    hok.1 ht h1 h2
  have hmem2 : (b, EdgeAttrs.containsRel r.ID) ∈
      outOf (processConnection mkReifiedAttrs
        (processAll mkReifiedAttrs
          (addConceptNodes mkConceptAttrs (Graph.empty NodeAttrs) cs) pre).1 r).1
        a := by
    rw [hrow]
    show (b, _) ∈ outOf (add_edge _ a b (.containsRel r.ID)) a
    rw [outOf_add_edge, if_pos rfl]
    exact upsert_self_mem _ _ _
  have hmemG : (b, EdgeAttrs.containsRel r.ID) ∈
      outOf (create_knowledge_graph cs (pre ++ r :: post)).1 a := by
    rw [hG1]
    refine processAll_entry_pres mkReifiedAttrs _ post a b _ ?_ hmem2
    intro q hq
    refine ⟨wfInput_row cs _ hwf q (by simp [hq]), ?_, ?_, hdup q hq⟩
    · exact fun he => hwf.2.1 q (by simp [hq]) (he ▸ hbmem)
    · exact fun he => hwf.2.1 q (by simp [hq]) (he ▸ hamem)
  have c2 : ∀ att, (a, att) ∉
      outOf (create_knowledge_graph cs (pre ++ r :: post)).1 b := by
    intro att hmem3
    have hcases := processAll_out_new mkReifiedAttrs
      (addConceptNodes mkConceptAttrs (Graph.empty NodeAttrs) cs)
      (pre ++ r :: post) b (a, att)
      (fun q hq => wfInput_row cs _ hwf q hq) hmem3
    rcases hcases with hh | ⟨q, hq, hh | hh | hh⟩
    · rw [outOf_concepts_nil] at hh
      cases hh
    · exact hrev q hq ⟨hh.1, hh.2.1, hh.2.2.1⟩
    · have hh2 : a = q.ID := hh.1
      exact hwf.2.1 q hq (hh2 ▸ hamem)
    · exact hwf.2.1 q hq (hh.1 ▸ hbmem)
  have hedge : (a, b, EdgeAttrs.containsRel r.ID) ∈
      edges (create_knowledge_graph cs (pre ++ r :: post)).1 :=
    (mem_edges_iff_outOf _ hwfG.1 a b _).mpr hmemG
  have hka : hasKey
      (conceptEntries (create_knowledge_graph cs (pre ++ r :: post)).1) a = true :=
    hasKey_entries_of_conceptId cs _ a hwf hnd hamem
  have hkb : hasKey
      (conceptEntries (create_knowledge_graph cs (pre ++ r :: post)).1) b = true :=
    hasKey_entries_of_conceptId cs _ b hwf hnd hbmem
  have hconc : (export_to_json (create_knowledge_graph cs (pre ++ r :: post)).1).concepts =
      dedupRelated ((edges (create_knowledge_graph cs (pre ++ r :: post)).1).foldl
        (exportEdgeStep (create_knowledge_graph cs (pre ++ r :: post)).1)
        (conceptEntries (create_knowledge_graph cs (pre ++ r :: post)).1)) := rfl
  rcases export_fold_contains_intro
      (create_knowledge_graph cs (pre ++ r :: post)).1
      (edges (create_knowledge_graph cs (pre ++ r :: post)).1)
      (conceptEntries (create_knowledge_graph cs (pre ++ r :: post)).1)
      a b r.ID hedge hka hkb with ⟨⟨ena, hea, hba⟩, ⟨enb, heb, hab2⟩⟩
  refine ⟨?_, c2, ?_, ?_, ?_, ?_⟩
  · exact filter_key_eq_of_nodup _ b _ (outsNodup_outOf _ hwfG.2.1 a) hmemG
  · unfold containsList
    rw [hconc, lookupAssoc_dedupRelated, hea]
    exact hba
  · unfold containedByList
    rw [hconc, lookupAssoc_dedupRelated, heb]
    exact hab2
  · intro hcon
    unfold containsList at hcon
    rw [hconc, lookupAssoc_dedupRelated] at hcon
    cases hl : lookupAssoc
        ((edges (create_knowledge_graph cs (pre ++ r :: post)).1).foldl
          (exportEdgeStep (create_knowledge_graph cs (pre ++ r :: post)).1)
          (conceptEntries (create_knowledge_graph cs (pre ++ r :: post)).1)) b with
    | none =>
        rw [hl, Option.map_none'] at hcon
        exact List.not_mem_nil a hcon
    | some en2 =>
        rw [hl, Option.map_some'] at hcon
        have hcon2 : a ∈ en2.contains := hcon
        rcases export_fold_contains_complete
            (create_knowledge_graph cs (pre ++ r :: post)).1 _ _ b a
            ⟨en2, hl, hcon2⟩ with ⟨en0, h0, hmm0⟩ | ⟨cid, hcid⟩
        · rw [(conceptEntries_entry _ b en0 h0).1] at hmm0
          cases hmm0
        · exact c2 _ ((mem_edges_iff_outOf _ hwfG.1 b a _).mp hcid)
  · intro hcon
    unfold containedByList at hcon
    rw [hconc, lookupAssoc_dedupRelated] at hcon
    cases hl : lookupAssoc
        ((edges (create_knowledge_graph cs (pre ++ r :: post)).1).foldl
          (exportEdgeStep (create_knowledge_graph cs (pre ++ r :: post)).1)
          (conceptEntries (create_knowledge_graph cs (pre ++ r :: post)).1)) a with
    | none =>
        rw [hl, Option.map_none'] at hcon
        exact List.not_mem_nil b hcon
    | some en2 =>
        rw [hl, Option.map_some'] at hcon
        have hcon2 : b ∈ en2.contained_by := hcon
        rcases export_fold_containedBy_complete
            (create_knowledge_graph cs (pre ++ r :: post)).1 _ _ a b
            ⟨en2, hl, hcon2⟩ with ⟨en0, h0, hmm0⟩ | ⟨cid, hcid⟩
        · rw [(conceptEntries_entry _ a en0 h0).2.1] at hmm0
          cases hmm0
        · exact c2 _ ((mem_edges_iff_outOf _ hwfG.1 b a _).mp hcid)

/-- Witness for C5 on the two-concept store with the single row
`1: A contains B`. -/
theorem C5_contains_directional_witness :
    (outOf (create_knowledge_graph
        [⟨some "A", "Alpha", "1"⟩, ⟨some "B", "Beta", "2"⟩]
        [⟨"1", "contains", some "A", some "B", none⟩]).1 "A").filter
          (fun q => q.1 == "B") = [("B", EdgeAttrs.containsRel "1")] ∧
    "B" ∈ containsList (export_to_json (create_knowledge_graph
        [⟨some "A", "Alpha", "1"⟩, ⟨some "B", "Beta", "2"⟩]
        [⟨"1", "contains", some "A", some "B", none⟩]).1) "A" ∧
    "A" ∉ containsList (export_to_json (create_knowledge_graph
        [⟨some "A", "Alpha", "1"⟩, ⟨some "B", "Beta", "2"⟩]
        [⟨"1", "contains", some "A", some "B", none⟩]).1) "B" := by
  have h := C5_contains_directional
    [⟨some "A", "Alpha", "1"⟩, ⟨some "B", "Beta", "2"⟩]
    [] [] ⟨"1", "contains", some "A", some "B", none⟩ "A" "B"
    (by refine ⟨?_, ?_, ?_⟩ <;> decide) (by decide) rfl rfl rfl
    (by intro q hq; cases hq) (by decide)
  exact ⟨h.1, h.2.2.1, h.2.2.2.2.1⟩

/-! ### Toward claim C1: the reified node of one row in the final store -/

theorem nodup_no_pre_id (pre post : List ConnectionRow) (r : ConnectionRow)
    (h : (((pre ++ r :: post).map (fun q => q.ID))).Nodup) :
    ∀ q ∈ pre, q.ID ≠ r.ID := by
  rw [List.map_append, List.map_cons] at h
  have hdisj := (List.nodup_append.mp h).2.2
  intro q hq he
  refine hdisj (List.mem_map_of_mem _ hq) ?_
  rw [he]
  exact List.mem_cons_self _ _

theorem processConnection_hasNode_inv [Inhabited α] (mkR : ConnectionRow → α)
    (g : Graph α) (r : ConnectionRow) (x : String)
    (hne : ∀ p ∈ refIds r, p ≠ r.ID)
    (h : hasNode (processConnection mkR g r).1 x = true) :
    hasNode g x = true ∨ x = r.ID := by
  by_cases hm : missingList g r = []
  · rw [processConnection_hasNode_char mkR g r x hm hne] at h
    rcases Bool.or_eq_true_iff.mp h with h1 | h2
    · exact Or.inl h1
    · rcases Bool.and_eq_true_iff.mp h2 with ⟨_, hx⟩
      exact Or.inr (of_decide_eq_true hx)
  · rw [processConnection_skip mkR g r hm] at h
    exact Or.inl h

theorem processAll_hasNode_inv [Inhabited α] (mkR : ConnectionRow → α)
    (g : Graph α) (rs : List ConnectionRow) (x : String) :
    (∀ r ∈ rs, ∀ p ∈ refIds r, p ≠ r.ID) →
    hasNode (processAll mkR g rs).1 x = true →
    hasNode g x = true ∨ ∃ r ∈ rs, x = r.ID := by
  induction rs generalizing g with
  | nil =>
      intro _ h
      exact Or.inl h
  | cons r t ih =>
      intro hne h
      rw [processAll_cons] at h
      rcases ih _ (fun z hz => hne z (List.mem_cons_of_mem _ hz)) h with h1 | h2
      · rcases processConnection_hasNode_inv mkR g r x
            (hne r (List.mem_cons_self _ _)) h1 with hh | hh
        · exact Or.inl hh
        · exact Or.inr ⟨r, List.mem_cons_self _ _, hh⟩
      · rcases h2 with ⟨q, hq, he⟩
        exact Or.inr ⟨q, List.mem_cons_of_mem _ hq, he⟩

theorem processAll_outOf_pres_strong [Inhabited α] (mkR : ConnectionRow → α)
    (cs : List ConceptRow) (g : Graph α) (rs : List ConnectionRow) (x : String) :
    (∀ i ∈ conceptIds cs, hasNode g i = true) →
    (∀ q ∈ rs, (∀ p ∈ refIds q, p ≠ q.ID) ∧
      (∀ p ∈ refIds q, p ∈ conceptIds cs) ∧ x ≠ q.ID) →
    x ∉ conceptIds cs →
    outOf (processAll mkR g rs).1 x = outOf g x := by
  induction rs generalizing g with
  | nil =>
      intro _ _ _
      rfl
  | cons q t ih =>
      intro hcp hall hxc
      have hq := hall q (List.mem_cons_self _ _)
      have hm : missingList g q = [] :=
        (missingList_eq_nil_iff g q).mpr (fun p hp => hcp p (hq.2.1 p hp))
      rw [processAll_cons,
        ih _ (fun i hi => hasNode_processConnection_mono mkR g q i hq.1 (hcp i hi))
          (fun z hz => hall z (List.mem_cons_of_mem _ hz)) hxc]
      exact processConnection_outOf_pres mkR g q x hm hq.1
        (fun hx => hxc (hq.2.1 x hx)) hq.2.2

theorem upsertFold_keys_mono (ps : List String) (l : List (String × EdgeAttrs))
    (a : EdgeAttrs) (x : String) (h : x ∈ l.map (fun q => q.1)) :
    x ∈ (ps.foldl (fun l p => upsert l p a) l).map (fun q => q.1) := by
  induction ps generalizing l with
  | nil => exact h
  | cons p t ih => exact ih _ ((upsert_keys_mem _ _ _ _).mpr (Or.inr h))

theorem mem_upsertFold_keys_of_mem (ps : List String)
    (l : List (String × EdgeAttrs)) (a : EdgeAttrs) (x : String) (h : x ∈ ps) :
    x ∈ (ps.foldl (fun l p => upsert l p a) l).map (fun q => q.1) := by
  induction ps generalizing l with
  | nil => cases h
  | cons p t ih =>
      rcases List.mem_cons.mp h with he | hm
      · exact upsertFold_keys_mono t _ a x
          ((upsert_keys_mem _ _ _ _).mpr (Or.inl he))
      · exact ih _ hm

theorem upsertFold_keys_nodup (ps : List String) (l : List (String × EdgeAttrs))
    (a : EdgeAttrs) (h : (l.map (fun q => q.1)).Nodup) :
    ((ps.foldl (fun l p => upsert l p a) l).map (fun q => q.1)).Nodup := by
  induction ps generalizing l with
  | nil => exact h
  | cons p t ih => exact ih _ (upsert_keys_nodup _ _ _ h)

theorem upsertFold_length (ps : List String) :
    ∀ (l : List (String × EdgeAttrs)) (a : EdgeAttrs),
    (l.map (fun q => q.1)).Nodup →
    (ps.foldl (fun l p => upsert l p a) l).length =
      ((l.map (fun q => q.1)) ++ ps).toFinset.card := by
  induction ps with
  | nil =>
      intro l a h
      rw [List.append_nil]
      rw [List.toFinset_card_of_nodup h]
      exact (List.length_map _ _).symm
  | cons p t ih =>
      intro l a h
      have hfin : ((upsert l p a).map (fun q => q.1) ++ t).toFinset =
          ((l.map (fun q => q.1)) ++ p :: t).toFinset := by
        ext x
        simp only [List.mem_toFinset, List.mem_append, upsert_keys_mem,
          List.mem_cons]
        tauto
      show (t.foldl (fun l p => upsert l p a) (upsert l p a)).length = _
      rw [ih _ a (upsert_keys_nodup _ _ _ h), hfin]

theorem edges_filter_source_aux (l : List (Cell α)) (u : String)
    (hnd : (l.map (fun c => c.id)).Nodup) :
    (l.flatMap (fun c => c.out.map (fun p => (c.id, p.1, p.2)))).filter
      (fun e => e.1 == u) =
    (match lookupCell l u with | some c => c.out | none => []).map
      (fun q : String × EdgeAttrs => (u, q.1, q.2)) := by
  induction l with
  | nil => rfl
  | cons c t ih =>
      simp only [List.map_cons, List.nodup_cons] at hnd
      rw [List.flatMap_cons, List.filter_append]
      unfold lookupCell
      by_cases hc : c.id = u
      · rw [if_pos hc]
        have h1 : (c.out.map (fun p => (c.id, p.1, p.2))).filter
            (fun e => e.1 == u) = c.out.map (fun q => (u, q.1, q.2)) := by
          rw [List.filter_map]
          have hp : ∀ q ∈ c.out,
              ((fun e : String × String × EdgeAttrs => e.1 == u) ∘
                (fun p => (c.id, p.1, p.2))) q = true := by
            intro q _
            simp [Function.comp, hc]
          rw [List.filter_eq_self.mpr hp, hc]
        have h2 : (t.flatMap (fun c => c.out.map (fun p =>
            (c.id, p.1, p.2)))).filter (fun e => e.1 == u) = [] := by
          rw [ih hnd.2, (lookupCell_eq_none_iff t u).mpr (hc ▸ hnd.1)]
          rfl
        rw [h1, h2, List.append_nil]
      · rw [if_neg hc]
        have h1 : (c.out.map (fun p => (c.id, p.1, p.2))).filter
            (fun e => e.1 == u) = [] := by
          rw [List.filter_map]
          have hp : ∀ q ∈ c.out, ¬ (((fun e : String × String × EdgeAttrs =>
              e.1 == u) ∘ (fun p => (c.id, p.1, p.2))) q = true) := by
            intro q _
            simp [Function.comp, hc]
          rw [List.filter_eq_nil_iff.mpr hp]
          rfl
        rw [h1, List.nil_append, ih hnd.2]

theorem edges_filter_source (g : Graph α) (hnd : NodupIds g) (u : String) :
    (edges g).filter (fun e => e.1 == u) =
      (outOf g u).map (fun q => (u, q.1, q.2)) :=
  edges_filter_source_aux g.cells u hnd

theorem length_filter_target_aux (l : List (Cell α)) (u : String) :
    ((l.flatMap (fun c => c.out.map (fun p => (c.id, p.1, p.2)))).filter
      (fun e => e.2.1 == u)).length =
    (l.map (fun c => ((c.out.filter (fun q => q.1 == u)).length))).sum := by
  induction l with
  | nil => rfl
  | cons c t ih =>
      rw [List.flatMap_cons, List.filter_append, List.length_append, ih]
      rw [List.map_cons, List.sum_cons]
      congr 1
      rw [List.filter_map, List.length_map]
      congr 1

theorem sum_ite_length (l : List γ) (p : γ → Bool) :
    (l.map (fun c => if p c then 1 else 0)).sum = (l.filter p).length := by
  induction l with
  | nil => rfl
  | cons c t ih =>
      rw [List.map_cons, List.sum_cons, List.filter_cons]
      by_cases h : p c = true
      · rw [if_pos h, if_pos h, List.length_cons, ih]
        omega
      · rw [if_neg h, if_neg h, ih]
        omega

theorem length_filter_ids (l : List (Cell α)) (p : String → Bool) :
    ((l.map (fun c => c.id)).filter p).length =
      (l.filter (fun c => p c.id)).length := by
  rw [List.filter_map, List.length_map]
  congr 1

theorem filter_ids_card (g : Graph α) (hnd : NodupIds g) (S : List String)
    (hsub : ∀ x ∈ S, x ∈ idsOf g) :
    ((idsOf g).filter (fun i => S.contains i)).length = S.dedup.length := by
  have hnd2 : ((idsOf g).filter (fun i => S.contains i)).Nodup := hnd.filter _
  have hfs : ((idsOf g).filter (fun i => S.contains i)).toFinset = S.toFinset := by
    ext x
    simp only [List.mem_toFinset, List.mem_filter]
    constructor
    · rintro ⟨h1, h2⟩
      exact List.mem_of_elem_eq_true h2
    · intro hx
      exact ⟨hsub x hx, List.elem_eq_true_of_mem hx⟩
  rw [← List.toFinset_card_of_nodup hnd2, hfs, List.card_toFinset]

theorem export_fold_related_intro (g : Graph NodeAttrs)
    (es : List (String × String × EdgeAttrs)) (m : List (String × ConceptEntry))
    (p cid p2 : String) :
    (p, cid, EdgeAttrs.neighborRole) ∈ es → hasKey m p = true →
    hasNode g cid = true → hasKey m p2 = true →
    p2 ∈ neighbors g cid → p2 ≠ p →
    ∃ en, lookupAssoc (es.foldl (exportEdgeStep g) m) p = some en ∧
      p2 ∈ (lookupAssoc en.related (connTypeOf g cid)).getD [] := by
  induction es generalizing m with
  | nil =>
      intro h _ _ _ _ _
      cases h
  | cons e t ih =>
      intro hmem hkp hnode hkp2 hnb hne2
      rcases List.mem_cons.mp hmem with he | hm2
      · have hgd : (hasKey m p && hasNode g cid) = true := by
          rw [hkp, hnode]
          rfl
        have hp2f : p2 ∈ (neighbors g cid).filter
            (fun n => hasKey m n && n != p) := by
          apply List.mem_filter.mpr
          refine ⟨hnb, ?_⟩
          rw [hkp2]
          simp [hne2]
        have hnonempty : ((neighbors g cid).filter
            (fun n => hasKey m n && n != p)).isEmpty = false := by
          cases hl : (neighbors g cid).filter (fun n => hasKey m n && n != p) with
          | nil =>
              rw [hl] at hp2f
              cases hp2f
          | cons x xs => rfl
        have hni : ¬ ((((neighbors g cid).filter
            (fun n => hasKey m n && n != p))).isEmpty = true) := by
          rw [hnonempty]
          exact Bool.false_ne_true
        have hstep : exportEdgeStep g m (p, cid, .neighborRole) =
            updAssoc m p (fun en => { en with related := (extendAssoc en.related (connTypeOf g cid) ((neighbors g cid).filter (fun n => hasKey m n && n != p))) }) := by
          show (if hasKey m p && hasNode g cid then (if (((neighbors g cid).filter (fun n => hasKey m n && n != p))).isEmpty then m else updAssoc m p (fun en => { en with related := (extendAssoc en.related (connTypeOf g cid) ((neighbors g cid).filter (fun n => hasKey m n && n != p))) })) else m) = _
          rw [if_pos hgd, if_neg hni]
        obtain ⟨enp, henp⟩ : ∃ en, lookupAssoc m p = some en := by
          unfold hasKey at hkp
          cases hl : lookupAssoc m p with
          | none =>
              rw [hl] at hkp
              exact absurd hkp (by simp)
          | some v => exact ⟨v, rfl⟩
        have hmid : ∃ en1, lookupAssoc (exportEdgeStep g m e) p = some en1 ∧
            p2 ∈ (lookupAssoc en1.related (connTypeOf g cid)).getD [] := by
          rw [← he, hstep, lookupAssoc_updAssoc, if_pos rfl, henp]
          refine ⟨_, rfl, ?_⟩
          exact mem_extendAssoc_self _ _ _ _ hp2f
        rcases hmid with ⟨en1, h1, hmm1⟩
        rcases export_fold_entry_mono g t _ p en1 h1 with ⟨en, h2, _, _, hr2⟩
        exact ⟨en, h2, hr2 _ _ hmm1⟩
      · have hkp3 : hasKey (exportEdgeStep g m e) p = true := by
          rw [hasKey_exportEdgeStep]
          exact hkp
        have hkp4 : hasKey (exportEdgeStep g m e) p2 = true := by
          rw [hasKey_exportEdgeStep]
          exact hkp2
        exact ih _ hm2 hkp3 hnode hkp4 hnb hne2

theorem reified_outOf_final (cs : List ConceptRow) (pre post : List ConnectionRow)
    (r : ConnectionRow) (hwf : WFInput cs (pre ++ r :: post))
    (ht : r.connection_type ≠ "contains") :
    outOf (create_knowledge_graph cs (pre ++ r :: post)).1 r.ID =
      (refIds r).foldl (fun l p => upsert l p EdgeAttrs.neighborRole) [] := by
  have hrmem : r ∈ pre ++ r :: post := by simp
  have hne := wfInput_row cs _ hwf r hrmem
  have hcp1 := build_cpres mkConceptAttrs mkReifiedAttrs cs pre _
    (fun q hq => by simp [hq]) hwf
  have hok := rowOK_of (processAll mkReifiedAttrs
      (addConceptNodes mkConceptAttrs (Graph.empty NodeAttrs) cs) pre).1 r cs
    hcp1 (fun p hp => hwf.2.2 r hrmem p hp) (hwf.2.1 r hrmem)
  have hno1 : hasNode (processAll mkReifiedAttrs
      (addConceptNodes mkConceptAttrs (Graph.empty NodeAttrs) cs) pre).1 r.ID
      = false := by
    rw [Bool.eq_false_iff]
    intro hh
    rcases processAll_hasNode_inv mkReifiedAttrs _ pre r.ID
        (fun q hq => wfInput_row cs _ hwf q (by simp [hq])) hh with h0 | ⟨q, hq, he⟩
    · rcases (hasNode_addConceptNodes _ _ _ _).mp h0 with he | hm
      · cases he
      · exact hwf.2.1 r hrmem hm
    · exact nodup_no_pre_id pre post r hwf.1 q hq he.symm
  have hcp2 : ∀ x ∈ conceptIds cs, hasNode (processConnection mkReifiedAttrs
      (processAll mkReifiedAttrs
        (addConceptNodes mkConceptAttrs (Graph.empty NodeAttrs) cs) pre).1 r).1 x
      = true :=
    fun x hx => hasNode_processConnection_mono mkReifiedAttrs _ r x hne (hcp1 x hx)
  have houtg2 : outOf (processConnection mkReifiedAttrs
      (processAll mkReifiedAttrs
        (addConceptNodes mkConceptAttrs (Graph.empty NodeAttrs) cs) pre).1 r).1
      r.ID = (refIds r).foldl (fun l p => upsert l p EdgeAttrs.neighborRole) [] := by
    rw [processConnection_reified mkReifiedAttrs _ r hok.1 ht hne]
    show outOf (reifyEdges r.ID (add_node _ r.ID (mkReifiedAttrs r)) (refIds r))
      r.ID = _
    rw [outOf_reifyEdges_cid _ _ _ hne, outOf_add_node,
      outOf_of_not_hasNode _ r.ID hno1]
  have hG1 : (create_knowledge_graph cs (pre ++ r :: post)).1 =
      (processAll mkReifiedAttrs
        (processConnection mkReifiedAttrs
          (processAll mkReifiedAttrs
            (addConceptNodes mkConceptAttrs (Graph.empty NodeAttrs) cs) pre).1 r).1
        post).1 := by
    show (processAll mkReifiedAttrs
      (addConceptNodes mkConceptAttrs (Graph.empty NodeAttrs) cs)
      (pre ++ r :: post)).1 = _
    rw [processAll_append, processAll_cons]
  rw [hG1, processAll_outOf_pres_strong mkReifiedAttrs cs _ post r.ID hcp2
    (fun q hq => ⟨wfInput_row cs _ hwf q (by simp [hq]),
      fun p hp => hwf.2.2 q (by simp [hq]) p hp,
      fun he => nodup_no_post_id pre post r hwf.1 q hq he.symm⟩)
    (hwf.2.1 r hrmem)]
  exact houtg2

theorem reified_mem_in (cs : List ConceptRow) (pre post : List ConnectionRow)
    (r : ConnectionRow) (hwf : WFInput cs (pre ++ r :: post))
    (ht : r.connection_type ≠ "contains") :
    ∀ p ∈ refIds r, (r.ID, EdgeAttrs.neighborRole) ∈
      outOf (create_knowledge_graph cs (pre ++ r :: post)).1 p := by
  intro p hp
  have hrmem : r ∈ pre ++ r :: post := by simp
  have hne := wfInput_row cs _ hwf r hrmem
  have hpmem : p ∈ conceptIds cs := hwf.2.2 r hrmem p hp
  have hcp1 := build_cpres mkConceptAttrs mkReifiedAttrs cs pre _
    (fun q hq => by simp [hq]) hwf
  have hok := rowOK_of (processAll mkReifiedAttrs
      (addConceptNodes mkConceptAttrs (Graph.empty NodeAttrs) cs) pre).1 r cs
    hcp1 (fun z hz => hwf.2.2 r hrmem z hz) (hwf.2.1 r hrmem)
  have hmem2 : (r.ID, EdgeAttrs.neighborRole) ∈
      outOf (processConnection mkReifiedAttrs
        (processAll mkReifiedAttrs
          (addConceptNodes mkConceptAttrs (Graph.empty NodeAttrs) cs) pre).1 r).1
        p := by
    rw [processConnection_reified mkReifiedAttrs _ r hok.1 ht hne]
    show _ ∈ outOf (reifyEdges r.ID (add_node _ r.ID (mkReifiedAttrs r))
      (refIds r)) p
    exact mem_outOf_reifyEdges_mem _ _ _ _ hne hp
  have hG1 : (create_knowledge_graph cs (pre ++ r :: post)).1 =
      (processAll mkReifiedAttrs
        (processConnection mkReifiedAttrs
          (processAll mkReifiedAttrs
            (addConceptNodes mkConceptAttrs (Graph.empty NodeAttrs) cs) pre).1 r).1
        post).1 := by
    show (processAll mkReifiedAttrs
      (addConceptNodes mkConceptAttrs (Graph.empty NodeAttrs) cs)
      (pre ++ r :: post)).1 = _
    rw [processAll_append, processAll_cons]
  rw [hG1]
  refine processAll_entry_pres mkReifiedAttrs _ post p r.ID _ ?_ hmem2
  intro q hq
  refine ⟨wfInput_row cs _ hwf q (by simp [hq]),
    fun he => nodup_no_post_id pre post r hwf.1 q hq he.symm,
    fun he => hwf.2.1 q (by simp [hq]) (he ▸ hpmem), ?_⟩
  rintro ⟨_, _, h2⟩
  have : r.ID ∈ refIds q := by simp [refIds, h2]
  exact hwf.2.1 r hrmem (hwf.2.2 q (by simp [hq]) r.ID this)

theorem reified_hasNode_final (cs : List ConceptRow) (pre post : List ConnectionRow)
    (r : ConnectionRow) (hwf : WFInput cs (pre ++ r :: post))
    (ht : r.connection_type ≠ "contains") :
    hasNode (create_knowledge_graph cs (pre ++ r :: post)).1 r.ID = true := by
  have hrmem : r ∈ pre ++ r :: post := by simp
  have hne := wfInput_row cs _ hwf r hrmem
  have hcp1 := build_cpres mkConceptAttrs mkReifiedAttrs cs pre _
    (fun q hq => by simp [hq]) hwf
  have hok := rowOK_of (processAll mkReifiedAttrs
      (addConceptNodes mkConceptAttrs (Graph.empty NodeAttrs) cs) pre).1 r cs
    hcp1 (fun z hz => hwf.2.2 r hrmem z hz) (hwf.2.1 r hrmem)
  have hG1 : (create_knowledge_graph cs (pre ++ r :: post)).1 =
      (processAll mkReifiedAttrs
        (processConnection mkReifiedAttrs
          (processAll mkReifiedAttrs
            (addConceptNodes mkConceptAttrs (Graph.empty NodeAttrs) cs) pre).1 r).1
        post).1 := by
    show (processAll mkReifiedAttrs
      (addConceptNodes mkConceptAttrs (Graph.empty NodeAttrs) cs)
      (pre ++ r :: post)).1 = _
    rw [processAll_append, processAll_cons]
  rw [hG1]
  exact hasNode_processAll_mono mkReifiedAttrs _ post r.ID
    (fun q hq => wfInput_row cs _ hwf q (by simp [hq]))
    (processConnection_hasNode_cid mkReifiedAttrs _ r hok.1 ht hne)

theorem reified_no_other_in (cs : List ConceptRow) (pre post : List ConnectionRow)
    (r : ConnectionRow) (hwf : WFInput cs (pre ++ r :: post)) (x : String)
    (hx1 : x ∉ refIds r) (hx2 : x ≠ r.ID) :
    ∀ a2, (r.ID, a2) ∉
      outOf (create_knowledge_graph cs (pre ++ r :: post)).1 x := by
  intro a2 hmem
  rcases processAll_out_new mkReifiedAttrs
      (addConceptNodes mkConceptAttrs (Graph.empty NodeAttrs) cs)
      (pre ++ r :: post) x (r.ID, a2)
      (fun q hq => wfInput_row cs _ hwf q hq) hmem with h0 | ⟨q, hq, hh | hh | hh⟩
  · rw [outOf_concepts_nil] at h0
    cases h0
  · have h2 : q.node_id2 = some r.ID := hh.2.2.1
    have hr : r.ID ∈ refIds q := by simp [refIds, h2]
    exact hwf.2.1 r (by simp) (hwf.2.2 q hq r.ID hr)
  · have hq1 : q.ID = r.ID := Eq.symm (hh.1 : r.ID = q.ID)
    rcases List.mem_append.mp hq with hqpre | hqrp
    · exact nodup_no_pre_id pre post r hwf.1 q hqpre hq1
    · rcases List.mem_cons.mp hqrp with he | hqpost
      · exact hx1 (he ▸ hh.2.1)
      · exact nodup_no_post_id pre post r hwf.1 q hqpost hq1
  · have hr : r.ID ∈ refIds q := hh.2.1
    exact hwf.2.1 r (by simp) (hwf.2.2 q hq r.ID hr)

theorem reified_in_attr (cs : List ConceptRow) (pre post : List ConnectionRow)
    (r : ConnectionRow) (hwf : WFInput cs (pre ++ r :: post)) :
    ∀ (x : String) (a2 : EdgeAttrs),
      (r.ID, a2) ∈ outOf (create_knowledge_graph cs (pre ++ r :: post)).1 x →
      a2 = EdgeAttrs.neighborRole := by
  intro x a2 hmem
  rcases processAll_out_new mkReifiedAttrs
      (addConceptNodes mkConceptAttrs (Graph.empty NodeAttrs) cs)
      (pre ++ r :: post) x (r.ID, a2)
      (fun q hq => wfInput_row cs _ hwf q hq) hmem with h0 | ⟨q, hq, hh | hh | hh⟩
  · rw [outOf_concepts_nil] at h0
    cases h0
  · have h2 : q.node_id2 = some r.ID := hh.2.2.1
    have hr : r.ID ∈ refIds q := by simp [refIds, h2]
    exact absurd (hwf.2.2 q hq r.ID hr) (hwf.2.1 r (by simp))
  · exact hh.2.2
  · have hr : r.ID ∈ refIds q := hh.2.1
    exact absurd (hwf.2.2 q hq r.ID hr) (hwf.2.1 r (by simp))

/-- Claim C1: for a non-`contains` row whose referenced identifiers all
name concept rows (guaranteed here by the §3 input discipline), with
`n` the number of distinct participants collected from
`node_id1..node_id3` (`1 ≤ n ≤ 3`), the built store holds the reified
node keyed by the row identifier with exactly `n` outgoing and `n`
incoming edges, all of them `Neighbor` edges (one bidirectional pair
per participant), and in the export every participant lists every
other participant under the row connection type in its `related`
mapping. -/
theorem C1_reification_symmetry (cs : List ConceptRow)
    (pre post : List ConnectionRow) (r : ConnectionRow)
    (hwf : WFInput cs (pre ++ r :: post)) (hnd : (conceptIds cs).Nodup)
    (ht : r.connection_type ≠ "contains") (href : refIds r ≠ []) :
    1 ≤ (refIds r).dedup.length ∧ (refIds r).dedup.length ≤ 3 ∧
    ((edges (create_knowledge_graph cs (pre ++ r :: post)).1).filter
      (fun e => e.1 == r.ID)).length = (refIds r).dedup.length ∧
    ((edges (create_knowledge_graph cs (pre ++ r :: post)).1).filter
      (fun e => e.2.1 == r.ID)).length = (refIds r).dedup.length ∧
    (∀ e ∈ edges (create_knowledge_graph cs (pre ++ r :: post)).1,
      e.1 = r.ID → e.2.2 = EdgeAttrs.neighborRole) ∧
    (∀ e ∈ edges (create_knowledge_graph cs (pre ++ r :: post)).1,
      e.2.1 = r.ID → e.2.2 = EdgeAttrs.neighborRole) ∧
    (∀ p ∈ refIds r, ∀ p2 ∈ refIds r, p ≠ p2 →
      p2 ∈ relatedList
        (export_to_json (create_knowledge_graph cs (pre ++ r :: post)).1)
        p r.connection_type) := by
  set G := (create_knowledge_graph cs (pre ++ r :: post)).1 with hGdef
  have hrmem : r ∈ pre ++ r :: post := by simp
  have hne := wfInput_row cs _ hwf r hrmem
  have hwfG : GraphWF G :=
    graphWF_processAll mkReifiedAttrs _ _ (fun q hq => wfInput_row cs _ hwf q hq)
      (graphWF_addConceptNodes _ _ cs (graphWF_empty _))
  have houtG : outOf G r.ID =
      (refIds r).foldl (fun l p => upsert l p EdgeAttrs.neighborRole) [] :=
    reified_outOf_final cs pre post r hwf ht
  have hmemin : ∀ p ∈ refIds r, (r.ID, EdgeAttrs.neighborRole) ∈ outOf G p :=
    reified_mem_in cs pre post r hwf ht
  have hinattr : ∀ (x : String) (a2 : EdgeAttrs),
      (r.ID, a2) ∈ outOf G x → a2 = EdgeAttrs.neighborRole :=
    reified_in_attr cs pre post r hwf
  have hn1 : 1 ≤ (refIds r).dedup.length := by
    have hdn : (refIds r).dedup ≠ [] := by
      intro h
      exact href ((List.dedup_eq_nil (refIds r)).mp h)
    exact List.length_pos.mpr hdn
  have hn3 : (refIds r).dedup.length ≤ 3 := by
    refine le_trans (List.Sublist.length_le (List.dedup_sublist _)) ?_
    have h3 := List.length_filterMap_le (fun x : Option String => x)
      [r.node_id1, r.node_id2, r.node_id3]
    simpa [refIds] using h3
  have hout_count : ((edges G).filter (fun e => e.1 == r.ID)).length =
      (refIds r).dedup.length := by
    rw [edges_filter_source _ hwfG.1 r.ID, List.length_map, houtG,
      upsertFold_length (refIds r) [] EdgeAttrs.neighborRole (by simp)]
    rw [show (([] : List (String × EdgeAttrs)).map (fun q => q.1)) ++ refIds r =
      refIds r from rfl]
    exact List.card_toFinset _
  have hout_attr : ∀ e ∈ edges G, e.1 = r.ID →
      e.2.2 = EdgeAttrs.neighborRole := by
    intro e he h1
    have hmm : (e.2.1, e.2.2) ∈ outOf G r.ID := by
      rw [← h1]
      exact (mem_edges_iff_outOf _ hwfG.1 e.1 e.2.1 e.2.2).mp he
    rw [houtG] at hmm
    rcases mem_upsertFold_cases _ _ _ _ hmm with h0 | h2
    · cases h0
    · exact h2.2
  have hin_attr : ∀ e ∈ edges G, e.2.1 = r.ID →
      e.2.2 = EdgeAttrs.neighborRole := by
    intro e he h1
    have hmm : (r.ID, e.2.2) ∈ outOf G e.1 := by
      rw [← h1]
      exact (mem_edges_iff_outOf _ hwfG.1 e.1 e.2.1 e.2.2).mp he
    exact hinattr e.1 e.2.2 hmm
  have hsubids : ∀ p ∈ refIds r, p ∈ idsOf G := by
    intro p hp
    have hh : hasNode G p = true := hasNode_processAll_mono mkReifiedAttrs _ _ p
      (fun q hq => wfInput_row cs _ hwf q hq)
      (hasNode_concepts_of_mem mkConceptAttrs cs p (hwf.2.2 r hrmem p hp))
    exact (hasNode_iff_mem_ids _ _).mp hh
  have hpercell : ∀ c ∈ G.cells,
      ((c.out.filter (fun q => q.1 == r.ID)).length) =
      (if (refIds r).contains c.id then 1 else 0) := by
    intro c hc
    have houtc : outOf G c.id = c.out := by
      unfold outOf
      rw [lookupCell_of_mem_nodup G.cells c.id c hwfG.1 hc rfl]
    by_cases hcid : (refIds r).contains c.id = true
    · rw [if_pos hcid]
      have hpm : c.id ∈ refIds r := List.mem_of_elem_eq_true hcid
      have hmm : (r.ID, EdgeAttrs.neighborRole) ∈ c.out := by
        rw [← houtc]
        exact hmemin c.id hpm
      rw [filter_key_eq_of_nodup c.out r.ID EdgeAttrs.neighborRole
        (hwfG.2.1 c hc) hmm]
      rfl
    · rw [if_neg hcid]
      have hpm : c.id ∉ refIds r := fun hmem => hcid (List.elem_eq_true_of_mem hmem)
      have hfil : c.out.filter (fun q => q.1 == r.ID) = [] := by
        apply List.filter_eq_nil_iff.mpr
        intro q hq hqr
        have hq1 : q.1 = r.ID := by simpa using hqr
        by_cases hcr : c.id = r.ID
        · have hmm : q ∈ outOf G r.ID := by
            rw [← hcr, houtc]
            exact hq
          rw [houtG] at hmm
          rcases mem_upsertFold_cases _ _ _ _ hmm with h0 | h2
          · cases h0
          · exact hne q.1 h2.1 hq1
        · have hqe : q = (r.ID, q.2) := by
            rw [← hq1]
          have hmm : (r.ID, q.2) ∈ outOf G c.id := by
            rw [houtc, ← hqe]
            exact hq
          exact reified_no_other_in cs pre post r hwf c.id hpm hcr q.2 hmm
      rw [hfil]
      rfl
  have hin_count : ((edges G).filter (fun e => e.2.1 == r.ID)).length =
      (refIds r).dedup.length := by
    calc ((edges G).filter (fun e => e.2.1 == r.ID)).length
        = (G.cells.map (fun c =>
            ((c.out.filter (fun q => q.1 == r.ID)).length))).sum :=
          length_filter_target_aux G.cells r.ID
      _ = (G.cells.map (fun c =>
            if (refIds r).contains c.id then 1 else 0)).sum := by
          congr 1
          exact List.map_congr_left hpercell
      _ = (G.cells.filter (fun c => (refIds r).contains c.id)).length :=
          sum_ite_length G.cells _
      _ = ((idsOf G).filter (fun i => (refIds r).contains i)).length :=
          (length_filter_ids G.cells _).symm
      _ = (refIds r).dedup.length := filter_ids_card G hwfG.1 (refIds r) hsubids
  have hreified : getNode G r.ID = some (NodeAttrs.reified r.connection_type) :=
    build_getNode_reified mkConceptAttrs mkReifiedAttrs cs pre post r hwf ht
  have hct : connTypeOf G r.ID = r.connection_type := by
    unfold connTypeOf
    rw [hreified]
  have hnodeG : hasNode G r.ID = true := reified_hasNode_final cs pre post r hwf ht
  have hrelated : ∀ p ∈ refIds r, ∀ p2 ∈ refIds r, p ≠ p2 →
      p2 ∈ relatedList (export_to_json G) p r.connection_type := by
    intro p hp p2 hp2 hpp
    have hpmem : p ∈ conceptIds cs := hwf.2.2 r hrmem p hp
    have hp2mem : p2 ∈ conceptIds cs := hwf.2.2 r hrmem p2 hp2
    have hkp : hasKey (conceptEntries G) p = true :=
      hasKey_entries_of_conceptId cs _ p hwf hnd hpmem
    have hkp2 : hasKey (conceptEntries G) p2 = true :=
      hasKey_entries_of_conceptId cs _ p2 hwf hnd hp2mem
    have hedge : (p, r.ID, EdgeAttrs.neighborRole) ∈ edges G :=
      (mem_edges_iff_outOf _ hwfG.1 p r.ID _).mpr (hmemin p hp)
    have hnbr : p2 ∈ neighbors G r.ID := by
      unfold neighbors
      rw [houtG]
      exact mem_upsertFold_keys_of_mem _ _ _ _ hp2
    rcases export_fold_related_intro G (edges G) (conceptEntries G) p r.ID p2
      hedge hkp hnodeG hkp2 hnbr (fun he => hpp he.symm) with ⟨en, hen, hmm⟩
    rw [hct] at hmm
    unfold relatedList
    have hconc : (export_to_json G).concepts = dedupRelated
        ((edges G).foldl (exportEdgeStep G) (conceptEntries G)) := rfl
    rw [hconc, lookupAssoc_dedupRelated, hen]
    show p2 ∈ (lookupAssoc (en.related.map
      (fun q : String × List String => (q.1, q.2.dedup))) r.connection_type).getD []
    rw [lookupAssoc_map_val]
    cases hl : lookupAssoc en.related r.connection_type with
    | none =>
        rw [hl] at hmm
        cases hmm
    | some v =>
        rw [hl] at hmm
        rw [Option.map_some']
        exact List.mem_dedup.mpr hmm
  exact ⟨hn1, hn3, hout_count, hin_count, hout_attr, hin_attr, hrelated⟩

/-- Witness for C1 on the two-concept store with one `related` row
between `A` and `B`: the reified node `R` gets two outgoing and two
incoming `Neighbor` edges and each participant lists the other under
`related`. -/
theorem C1_reification_symmetry_witness :
    ((edges (create_knowledge_graph
        [⟨some "A", "Alpha", "1"⟩, ⟨some "B", "Beta", "2"⟩]
        [⟨"R", "related", some "A", some "B", none⟩]).1).filter
      (fun e => e.1 == "R")).length = 2 ∧
    ((edges (create_knowledge_graph
        [⟨some "A", "Alpha", "1"⟩, ⟨some "B", "Beta", "2"⟩]
        [⟨"R", "related", some "A", some "B", none⟩]).1).filter
      (fun e => e.2.1 == "R")).length = 2 ∧
    "B" ∈ relatedList (export_to_json (create_knowledge_graph
        [⟨some "A", "Alpha", "1"⟩, ⟨some "B", "Beta", "2"⟩]
        [⟨"R", "related", some "A", some "B", none⟩]).1) "A" "related" := by
  have h := C1_reification_symmetry
    [⟨some "A", "Alpha", "1"⟩, ⟨some "B", "Beta", "2"⟩]
    [] [] ⟨"R", "related", some "A", some "B", none⟩
    (by refine ⟨?_, ?_, ?_⟩ <;> decide) (by decide) (by decide) (by decide)
  refine ⟨?_, ?_, ?_⟩
  · exact h.2.2.1.trans (by decide)
  · exact h.2.2.2.1.trans (by decide)
  · exact h.2.2.2.2.2.2 "A" (by decide) "B" (by decide) (by decide)
